import Mathlib

/-!
# run-bbc-basic: the OS-call emulation layer of `main.c`

A shallow embedding of the trap dispatcher and the service routines of
`src/main.c`, and theorems about them.

Conventions of the embedding

* Bytes, registers and addresses are natural numbers.  A cell of `mem`, a byte
  of a file or of a host line is a byte by convention; where C converts a wider
  value to `uint8_t` / `uint16_t` / `uint32_t` / `uint64_t` the conversion is
  written as an explicit `% 2^w`.
* `mem`, `handles` and `fmode` are functions from the *index* of the C array
  expression to the element.  The arrays proper are the indices below `65536`
  (`mem`) and below `NHANDLES` (`handles`, `fmode`); C computes these indices in
  `int`, so an index is never wrapped, and an access at a larger index is an
  access past the end of the array.  Such an access is kept at its index; what
  it hits in the process is not modelled, so the theorems on what a routine
  stores assume that the cells it stores at are cells of the array.
* A loop that scans `mem` for a terminator is bounded by the end of the array;
  leaving the array is `Outcome.fault`.
* The host (libc, the terminal, the file system, readline, the clock) is a
  collaborator; it is a small deterministic script: a file store, a table of
  open streams, and the finite lists of keys, lines and clock readings still to
  be delivered.  A routine that needs more input than the script holds never
  returns: `Outcome.hang`.
* Everything the process prints or asks of the terminal is appended to
  `Host.log`.
-/

namespace RunBBC

/-! ## Constants of `main.c` -/

/-- `#define TRAP 0x02`. -/
def TRAP : Nat := 0x02
/-- `static const uint16_t lomem = 0x0800`. -/
def lomem : Nat := 0x0800
/-- `static const uint16_t himem = 0xb800`. -/
def himem : Nat := 0xb800
/-- `#define ESCFLG 0xff`. -/
def ESCFLG : Nat := 0xff
/-- `#define basic_start 0xb800`. -/
def basic_start : Nat := 0xb800
/-- `#define mos_start 0xff00`. -/
def mos_start : Nat := 0xff00
/-- `sizeof(mem)`. -/
def memSize : Nat := 65536
/-- `sizeof(basic)`. -/
def basicSize : Nat := 16384
/-- `sizeof(mos)`. -/
def mosSize : Nat := 256
/-- `#define NHANDLES 6`. -/
def NHANDLES : Nat := 6

/-! ## The host -/

/-- The diagnostics `main.c` prints with `puts` / `printf`. -/
inductive Msg where
  /-- `puts("Channel")` -/
  | channel
  /-- `puts("Too many open files")` -/
  | tooManyOpenFiles
  /-- `printf("Unable to open file ...", fname)` -/
  | unableToOpenFile (fname : List Nat)
  /-- `puts("Error writing file")` -/
  | errorWritingFile
  /-- `printf("Unhandled OSBYTE A=.., X=.., Y=..")` -/
  | unhandledOSBYTE (a x y : Nat)
  /-- `printf("Unhandled OSWORD A=.., X=.., Y=..")` -/
  | unhandledOSWORD (a x y : Nat)
  /-- `printf("OSFILE A=.. not handled")` -/
  | osfileNotHandled (a : Nat)
  /-- `puts("unhandled OSARGS Y==0")` -/
  | unhandledOSARGSzero
  /-- `puts("unhandled OSARGS Y!=0")` -/
  | unhandledOSARGS
  /-- `puts("Syntax error")` -/
  | syntaxError
  /-- `puts("start out of range")` -/
  | startOutOfRange
  /-- `puts("end out of range")` -/
  | endOutOfRange
  /-- `puts("unable to open file")` -/
  | unableToOpen
  /-- `printf("unhandled trap at ..", PC)` -/
  | unhandledTrap (pc : Nat)
  deriving DecidableEq, Repr

/-- What the process does to the console, in order. -/
inductive Event where
  /-- a diagnostic written with `puts` / `printf` -/
  | print (m : Msg)
  /-- `putchar(c)` -/
  | putchar (c : Nat)
  /-- `puts(CLEAR); puts(HOME);` -/
  | clearHome
  /-- `fflush(stdout)` -/
  | flush
  /-- `make_term_raw()` -/
  | rawMode
  /-- `reset_terminal_mode()` -/
  | resetMode
  /-- `add_history(lineptr)` -/
  | addHistory (line : List Nat)
  /-- `system(cmd)` -/
  | shell (cmd : List Nat)
  deriving DecidableEq, Repr

/-- The `mode` argument of `fopen` as `main.c` uses it. -/
inductive OpenMode where
  /-- `"rb"` -/
  | rb
  /-- `"wb"` -/
  | wb
  /-- `"a+"` -/
  | aplus
  deriving DecidableEq, Repr

/-- An open `FILE` object. -/
structure Stream where
  /-- the path it was opened on -/
  path : List Nat
  /-- how it was opened -/
  kind : OpenMode
  /-- the file position indicator -/
  pos : Nat
  /-- the end-of-file indicator -/
  eof : Bool
  deriving DecidableEq, Repr

/-- The host the process runs on. -/
structure Host where
  /-- whether plain `char` is a signed type on this platform -/
  charSigned : Bool
  /-- the file store: the content of each existing path -/
  files : List Nat → Option (List Nat)
  /-- paths the host refuses to open -/
  deny : List Nat → Bool
  /-- no space left: a write of one or more bytes fails -/
  full : Bool
  /-- what follows the copied bytes in a name buffer that was left without its
  terminating NUL, up to the first NUL -/
  junk : List Nat
  /-- the open `FILE` objects; a `FILE *` is the index -/
  streams : Nat → Option Stream
  /-- the next `FILE *` that `fopen` hands out -/
  nextStream : Nat
  /-- the keyboard, one entry per poll: `none` nothing waiting, `some k` the
  byte `k` waiting to be read -/
  keys : List (Option Nat)
  /-- what the calls of `readline` return, `none` for `NULL` -/
  lines : List (Option (List Nat))
  /-- what the calls of `gettimeofday` return: `(tv_sec, tv_usec)` -/
  clock : List (Int × Int)
  /-- everything written to the console so far -/
  log : List Event

/-- The bytes of a C string: those before the first NUL. -/
def cstr (bs : List Nat) : List Nat := bs.takeWhile (fun b => b != 0)

/-- Pointwise update of a table. -/
def setAt {α : Type} (f : Nat → α) (i : Nat) (v : α) : Nat → α :=
  fun j => if j = i then v else f j

/-- Pointwise update of the file store. -/
def setFile (fs : List Nat → Option (List Nat)) (p : List Nat) (v : Option (List Nat)) :
    List Nat → Option (List Nat) :=
  fun q => if q = p then v else fs q

namespace Host

/-- Append to the console log. -/
def emit (h : Host) (e : Event) : Host := { h with log := h.log ++ [e] }

/-- `fopen(path, mode)`: `none` is `NULL`. -/
def fopen (h : Host) (path : List Nat) (m : OpenMode) : Host × Option Nat :=
  if h.deny path then (h, none)
  else
    let mk (fs : List Nat → Option (List Nat)) : Host × Option Nat :=
      ({ h with files := fs
                streams := setAt h.streams h.nextStream (some ⟨path, m, 0, false⟩)
                nextStream := h.nextStream + 1 }, some h.nextStream)
    match m, h.files path with
    | .rb, none => (h, none)
    | .rb, some _ => mk h.files
    | .wb, _ => mk (setFile h.files path (some []))
    | .aplus, none => mk (setFile h.files path (some []))
    | .aplus, some _ => mk h.files

/-- `fclose(f)`. -/
def fclose (h : Host) (f : Nat) : Host := { h with streams := setAt h.streams f none }

/-- `fgetc(f)`: the byte, or `-1` for `EOF`. -/
def fgetc (h : Host) (f : Nat) : Host × Int :=
  match h.streams f with
  | none => (h, -1)
  | some st =>
    if st.kind = .wb then (h, -1)
    else
      match h.files st.path with
      | none => (h, -1)
      | some data =>
        match data[st.pos]? with
        | some b => ({ h with streams := setAt h.streams f (some { st with pos := st.pos + 1 }) }, (b : Int))
        | none => ({ h with streams := setAt h.streams f (some { st with eof := true }) }, -1)

/-- `ungetc(v, f)` of the byte just read. -/
def ungetc (h : Host) (f : Nat) : Host :=
  match h.streams f with
  | none => h
  | some st => { h with streams := setAt h.streams f (some { st with pos := st.pos - 1, eof := false }) }

/-- `feof(f)`. -/
def feof (h : Host) (f : Nat) : Bool :=
  match h.streams f with
  | none => false
  | some st => st.eof

/-- `ftell(f)`. -/
def ftell (h : Host) (f : Nat) : Int :=
  match h.streams f with
  | none => -1
  | some st => (st.pos : Int)

/-- `fseek(f, off, SEEK_SET)`. -/
def fseekSet (h : Host) (f : Nat) (off : Int) : Host :=
  match h.streams f with
  | none => h
  | some st =>
    if off < 0 then h
    else { h with streams := setAt h.streams f (some { st with pos := off.toNat, eof := false }) }

/-- `fseek(f, 0, SEEK_END)`. -/
def fseekEnd (h : Host) (f : Nat) : Host :=
  match h.streams f with
  | none => h
  | some st =>
    match h.files st.path with
    | none => h
    | some data =>
      { h with streams := setAt h.streams f (some { st with pos := data.length, eof := false }) }

/-- Write `bytes` through stream `f`; the result says whether all of them were
written.  A stream opened `"a+"` appends, one opened `"wb"` writes at its
position, one opened `"rb"` cannot be written. -/
def write (h : Host) (f : Nat) (bytes : List Nat) : Host × Bool :=
  match h.streams f with
  | none => (h, false)
  | some st =>
    if st.kind = .rb then (h, false)
    else if h.full && !bytes.isEmpty then (h, false)
    else
      match h.files st.path with
      | none => (h, false)
      | some data =>
        if st.kind = .aplus then
          ({ h with files := setFile h.files st.path (some (data ++ bytes))
                    streams := setAt h.streams f
                      (some { st with pos := data.length + bytes.length }) }, true)
        else
          let padded := data ++ List.replicate (st.pos - data.length) 0
          ({ h with files := setFile h.files st.path
                      (some (padded.take st.pos ++ bytes ++ padded.drop (st.pos + bytes.length)))
                    streams := setAt h.streams f
                      (some { st with pos := st.pos + bytes.length }) }, true)

/-- `fread(buf, 1, len, f)`: the bytes delivered. -/
def fread (h : Host) (f : Nat) (len : Nat) : Host × List Nat :=
  match h.streams f with
  | none => (h, [])
  | some st =>
    if st.kind = .wb then (h, [])
    else
      match h.files st.path with
      | none => (h, [])
      | some data =>
        let got := (data.drop st.pos).take len
        ({ h with streams := setAt h.streams f
                    (some { st with pos := st.pos + got.length, eof := decide (got.length < len) }) }, got)

/-- `kbhit()`: a poll that finds nothing uses up one entry of the script. -/
def kbhit (h : Host) : Host × Bool :=
  match h.keys with
  | [] => (h, false)
  | none :: rest => ({ h with keys := rest }, false)
  | some _ :: _ => (h, true)

/-- `getkey()`: wait for a key, read it, keep seven bits.  `none` when no key
ever arrives. -/
def getkey (h : Host) : Option (Host × Nat) :=
  match h.keys.dropWhile (fun k => k.isNone) with
  | some k :: rest => some ({ h with keys := rest }, k % 128)
  | _ => none

/-- `gettimeofday(&now, NULL)`: `none` when the script holds no further reading. -/
def gettimeofday (h : Host) : Option (Host × (Int × Int)) :=
  match h.clock with
  | [] => none
  | t :: rest => some ({ h with clock := rest }, t)

/-- `while (!(lineptr = readline(""))) clearerr(stdin);`: the first line that is
not `NULL`; `none` when there is none. -/
def readline (h : Host) : Option (Host × List Nat) :=
  match h.lines.dropWhile (fun l => l.isNone) with
  | some l :: rest => some ({ h with lines := rest }, l)
  | _ => none

end Host

/-! ## The machine -/

/-- The register file of the processor emulator, the address space, the file
handle table and the clock epoch, with the host. -/
structure Machine where
  /-- accumulator, `uint8_t` -/
  A : Nat
  /-- index register, `uint8_t` -/
  X : Nat
  /-- index register, `uint8_t` -/
  Y : Nat
  /-- program counter, `uint16_t` -/
  PC : Nat
  /-- processor status, `uint8_t`; bit 0 is carry -/
  P : Nat
  /-- `static uint8_t mem[65536]` -/
  mem : Nat → Nat
  /-- `static uint8_t basic[16384]` -/
  basic : Nat → Nat
  /-- `static uint8_t mos[256]` -/
  mos : Nat → Nat
  /-- `static FILE *handles[NHANDLES]`, `none` is `NULL` -/
  handles : Nat → Option Nat
  /-- `static char fmode[NHANDLES]` -/
  fmode : Nat → Nat
  /-- `static struct timeval start_time`: `(tv_sec, tv_usec)` -/
  start_time : Int × Int
  /-- the host -/
  host : Host

/-- How a routine ends. -/
inductive Outcome where
  /-- it returns to its caller -/
  | ret (s : Machine)
  /-- it calls `exit(code)` -/
  | exit (code : Nat) (s : Machine)
  /-- it runs off the end of an array -/
  | fault
  /-- it waits for the host for ever -/
  | hang

namespace Machine

/-- The carry flag, bit 0 of `P`. -/
def carry (s : Machine) : Bool := s.P % 2 = 1

/-- `mem[i] = v`, with `i` the index the C expression computes.  For
`i < memSize` this is the store into the array.  For a larger `i` C writes past
the end of the array; the embedding keeps that write at its index, where it can
be told from every store inside the array, and does not say what the write
hits.  A theorem that describes what a routine does to memory therefore either
bounds the indices it stores at by `memSize` (`inMem`) or exhibits the store
past the end. -/
def store (s : Machine) (i v : Nat) : Machine := { s with mem := setAt s.mem i v }

/-- `Y = v`. -/
def setY (s : Machine) (v : Nat) : Machine := { s with Y := v }

/-- Append to the console log. -/
def emit (s : Machine) (e : Event) : Machine := { s with host := s.host.emit e }

/-- `puts(msg)` / `printf(msg, ..)`. -/
def print (s : Machine) (m : Msg) : Machine := s.emit (.print m)

end Machine

/-- `clear_carry()`: `setP(getP() & ~1)`. -/
def clear_carry (s : Machine) : Machine := { s with P := s.P / 2 * 2 }

/-- `set_carry()`: `setP(getP() | 1)`. -/
def set_carry (s : Machine) : Machine := { s with P := s.P / 2 * 2 + 1 }

/-- `read6502(a)` for a 16-bit address `a`. -/
def read6502 (s : Machine) (a : Nat) : Nat :=
  if a ≥ basic_start ∧ a < basic_start + basicSize then s.basic (a - basic_start)
  else if a ≥ mos_start then s.mos (a - mos_start)
  else s.mem a

/-- `write6502(a, v)` for a 16-bit address `a`. -/
def write6502 (s : Machine) (a v : Nat) : Machine := s.store a v

/-- The least `i` with `mem[p+i] == 0x0d`, searched among the `n` indices from
`p` on. -/
def scanCR (mem : Nat → Nat) (p : Nat) : Nat → Option Nat
  | 0 => none
  | n + 1 => if mem p = 0x0d then some 0 else (scanCR mem (p + 1) n).map (· + 1)

/-- `for (i=0; mem[p+i] != 0x0d; i++) ;` inside the array: the final `i`, or
`none` when the loop leaves `mem`. -/
def crIndex (mem : Nat → Nat) (p : Nat) : Option Nat := scanCR mem p (memSize - p)

/-- The bytes `mem[p] .. mem[p+n-1]`. -/
def bytesAt (mem : Nat → Nat) (p n : Nat) : List Nat := (List.range n).map (fun i => mem (p + i))

/-! ## Status and configuration queries: `OSBYTE` -/

/-- `now.tv_sec * 100 + (now.tv_usec / 10000)` after `now -= start_time`,
converted to `uint64_t`; C division truncates toward zero. -/
def centis (now start : Int × Int) : Nat :=
  (((now.1 - start.1) * 100 + Int.tdiv (now.2 - start.2) 10000) % (2 : Int) ^ 64).toNat

/-- The polling loop of `OSBYTE` `A=0x81` and what follows it.  Every turn
without a key reads the clock once, so `fuel` larger than the number of clock
readings left is never used up. -/
def keyWait (timeout v : Nat) : Nat → Machine → Outcome
  | 0, _ => .hang
  | fuel + 1, s =>
    match s.host.kbhit with
    | (h, true) =>
      match h.getkey with
      | none => .hang
      | some (h1, k) =>
        let s1 := { s with X := k, Y := 0, host := h1 }
        let s2 := if k = 0x1b then set_carry ({ s1 with Y := 0x1b }.store ESCFLG 0xff)
                  else clear_carry s1
        .ret (s2.emit .resetMode)
    | (h, false) =>
      match h.gettimeofday with
      | none => .hang
      | some (h1, now) =>
        let w := centis now s.start_time
        if (w + 2 ^ 64 - v) % 2 ^ 64 > timeout then
          .ret ((set_carry { s with Y := 0xff, host := h1 }).emit .resetMode)
        else keyWait timeout v fuel { s with host := h1 }

/-- `static void OSBYTE(void)`.  In the `default` case the `break` stands
before `exit(1)`. -/
def OSBYTE (s : Machine) : Outcome :=
  if s.A = 0x7e then .ret (s.store ESCFLG s.A)
  else if s.A = 0x7f then
    if s.X < 1 ∨ s.X > NHANDLES then .ret (s.print .channel)
    else
      match s.handles (s.X - 1) with
      | none => .ret (s.print .channel)
      | some f =>
        match s.host.fgetc f with
        | (h, v) =>
          if v < 0 then .ret { s with X := 0xff, host := h }
          else .ret { s with X := 0, host := h.ungetc f }
  else if s.A = 0x81 then
    let timeout := (s.X + s.Y * 256) % 65536
    match s.host.gettimeofday with
    | none => .hang
    | some (h, now) =>
      let v := centis now s.start_time
      keyWait timeout v (h.clock.length + 1) ({ s with host := h }.emit .rawMode)
  else if s.A = 0x82 then .ret { s with X := 0xff, Y := 0xff }
  else if s.A = 0x83 then .ret { s with X := lomem % 256, Y := lomem / 256 }
  else if s.A = 0x84 then .ret { s with X := himem % 256, Y := himem / 256 }
  else if s.A = 0x85 then .ret { s with X := himem % 256, Y := himem / 256 }
  else if s.A = 0x86 then .ret { s with X := 0, Y := 0 }
  else if s.A = 0xda then .ret s
  else .ret (s.print (.unhandledOSBYTE s.A s.X s.Y))

/-! ## Character output: `OSWRCH`, `OSNEWL`, `OSASCI` -/

/-- `isprint(c)` in the C locale. -/
def isprint (c : Nat) : Bool := 0x20 ≤ c && c ≤ 0x7e

/-- `static void OSWRCH(void)`. -/
def OSWRCH (s : Machine) : Outcome :=
  let s1 :=
    if s.A = 0x08 then s.emit (.putchar 0x7f)
    else if s.A = 0x0c then s.emit .clearHome
    else if s.A = 0x0a ∨ s.A = 0x0d ∨ s.A = 0x09 ∨ isprint s.A = true then s.emit (.putchar s.A)
    else s
  .ret (s1.emit .flush)

/-- `static void OSNEWL(void)`. -/
def OSNEWL (s : Machine) : Outcome := .ret ((s.emit (.putchar 0x0a)).emit .flush)

/-- `static void OSASCI(void)`. -/
def OSASCI (s : Machine) : Outcome :=
  if s.A = 0x0d then OSNEWL s
  else if s.A = 0x0c then .ret (s.emit .clearHome)
  else OSWRCH s

/-! ## Line input and the clock: `OSWORD` -/

/-- The value of `lineptr[i]`, a plain `char`, after promotion to `int`. -/
def charVal (signed : Bool) (b : Nat) : Int :=
  if signed = true ∧ b ≥ 128 then (b : Int) - 256 else (b : Int)

/-- The range test `lineptr[i] < min || lineptr[i] > max` of `OSWORD` `A=0`;
`min` and `max` are `uint8_t`, `c` is the byte of the plain `char`. -/
def rejected (signed : Bool) (min max c : Nat) : Bool :=
  decide (charVal signed c < (min : Int)) || decide (charVal signed c > (max : Int))

/-- The `for` loop of `OSWORD` `A=0` over the characters still to come, with
the statements after it; `j` is the number of characters stored so far. -/
def lineLoop (signed : Bool) (buf len min max : Nat) : List Nat → Nat → Machine → Machine
  | [], j, s => clear_carry ((s.store (buf + j) 0x0d).setY ((j + 1) % 256))
  | c :: rest, j, s =>
    if rejected signed min max c then lineLoop signed buf len min max rest j s
    else if charVal signed c = 27 then
      set_carry ((s.store ESCFLG 0xff).setY (j % 256))
    else
      let s1 := s.store (buf + j) c
      if j + 1 = len then
        clear_carry ((s1.store (buf + (j + 1) - 1) 0x0d).setY ((j + 1) % 256))
      else lineLoop signed buf len min max rest (j + 1) s1

/-- The 32-bit `int` value `x` converted to `uint64_t`. -/
def signExtend32 (x : Nat) : Nat :=
  if x % 2 ^ 32 < 2 ^ 31 then x % 2 ^ 32 else x % 2 ^ 32 + (2 ^ 64 - 2 ^ 32)

/-- A `uint64_t` stored into a `long`. -/
def toLong (x : Nat) : Int :=
  if x % 2 ^ 64 < 2 ^ 63 then ((x % 2 ^ 64 : Nat) : Int) else ((x % 2 ^ 64 : Nat) : Int) - 2 ^ 64

/-- A `long` converted to `uint64_t`. -/
def ofLong (x : Int) : Nat := (x % (2 : Int) ^ 64).toNat

/-- `static void OSWORD(void)`. -/
def OSWORD (s : Machine) : Outcome :=
  let ptr := (s.Y * 256 + s.X) % 65536
  if s.A = 0x00 then
    let buf := (s.mem (ptr + 0) + s.mem (ptr + 1) * 256) % 65536
    let len := s.mem (ptr + 2)
    let min := s.mem (ptr + 3)
    let max := s.mem (ptr + 4)
    match s.host.readline with
    | none => .hang
    | some (h, lineptr) =>
      let line := cstr lineptr
      let s1 := { s with host := h }
      let s2 := if line.length > 0 then s1.emit (.addHistory line) else s1.emit (.putchar 0x0a)
      .ret (lineLoop s.host.charSigned buf len min max line 0 s2)
  else if s.A = 0x01 then
    match s.host.gettimeofday with
    | none => .hang
    | some (h, now) =>
      let v := centis now s.start_time
      let s1 := { s with host := h }
      .ret (((((s1.store (ptr + 0) (v % 256)).store (ptr + 1) (v / 2 ^ 8 % 256)).store
        (ptr + 2) (v / 2 ^ 16 % 256)).store (ptr + 3) (v / 2 ^ 24 % 256)).store
        (ptr + 4) (v / 2 ^ 32 % 256))
  else if s.A = 0x02 then
    match s.host.gettimeofday with
    | none => .hang
    | some (h, now) =>
      -- the first four terms are added in `int`, the fifth in `uint64_t`
      let new := (signExtend32 (s.mem (ptr + 0) + s.mem (ptr + 1) * 2 ^ 8 + s.mem (ptr + 2) * 2 ^ 16
                    + s.mem (ptr + 3) * 2 ^ 24)
                  + s.mem (ptr + 4) * 2 ^ 32) % 2 ^ 64
      .ret { s with host := h
                    start_time := (toLong (ofLong now.1 + 2 ^ 64 - new / 100),
                                   toLong (ofLong now.2 + 2 ^ 64 - (new % 100) * 10000)) }
  else if s.A = 0x07 then .ret s
  else if s.A = 0x08 then .ret s
  else if s.A = 0x09 then .ret (s.store (ptr + 4) 0xff)
  else .exit 1 (s.print (.unhandledOSWORD s.A s.X s.Y))

/-! ## Character input: `OSRDCH` -/

/-- `static void OSRDCH(void)`. -/
def OSRDCH (s : Machine) : Outcome :=
  match (s.host.emit .rawMode).getkey with
  | none => .hang
  | some (h, k) =>
    let s1 := { s with A := k, host := h.emit .resetMode }
    if k = 0x1b then .ret (set_carry (s1.store ESCFLG 0xff))
    else .ret (clear_carry s1)

/-! ## Whole-block save and load: `OSFILE` -/

/-- `GET16LE(p)`; the parameter is a `uint16_t`. -/
def GET16LE (mem : Nat → Nat) (p : Nat) : Nat :=
  mem (p % 65536 + 0) + mem (p % 65536 + 1) * 2 ^ 8

/-- `GET32LE(p)`; the parameter is a `uint16_t`, the result a `uint32_t`. -/
def GET32LE (mem : Nat → Nat) (p : Nat) : Nat :=
  (mem (p % 65536 + 0) + mem (p % 65536 + 1) * 2 ^ 8 + mem (p % 65536 + 2) * 2 ^ 16
    + mem (p % 65536 + 3) * 2 ^ 24) % 2 ^ 32

/-- The loop `while (v >= 0) { mem[a++] = v; v = fgetc(f); }` of the load. -/
def loadLoop (f : Nat) : Nat → Nat → Int → Machine → Machine
  | 0, _, _, s => s
  | fuel + 1, a, v, s =>
    if v ≥ 0 then
      let s1 := s.store a v.toNat
      match s1.host.fgetc f with
      | (h, v1) => loadLoop f fuel (a + 1) v1 { s1 with host := h }
    else s

/-- The number of bytes stream `f` can still deliver. -/
def remaining (h : Host) (f : Nat) : Nat :=
  match h.streams f with
  | none => 0
  | some st =>
    match h.files st.path with
    | none => 0
    | some data => data.length - st.pos

/-- `case 0x00` of `OSFILE`, after `A = 0`: save the bytes from `save` up to
`end_` to the file `fname`. -/
def osfileSave (s0 : Machine) (fname : List Nat) (save end_ : Nat) : Outcome :=
  match s0.host.fopen fname .wb with
  | (h, none) => .ret (({ s0 with host := h }.print (.unableToOpenFile fname)).emit .flush)
  | (h, some f) =>
    -- `pblock.end - pblock.save` is a `uint32_t`: below zero it is near 2^32
    if end_ < save then .fault
    else if end_ - save = 0 then
      -- one element of size 0: nothing is written and `fwrite` returns 0
      let s1 := ({ s0 with host := h }.print .errorWritingFile).emit .flush
      .ret { s1 with host := s1.host.fclose f }
    else
      match h.write f (bytesAt s0.mem save (end_ - save)) with
      | (h1, true) => .ret { s0 with A := 0x01, host := h1.fclose f }
      | (h1, false) =>
        let s1 := ({ s0 with host := h1 }.print .errorWritingFile).emit .flush
        .ret { s1 with host := s1.host.fclose f }

/-- `case 0xff` of `OSFILE`, after `A = 0`: load the file `fname` to `a`. -/
def osfileLoad (s0 : Machine) (fname : List Nat) (a : Nat) : Outcome :=
  match s0.host.fopen fname .rb with
  | (h, none) => .ret (({ s0 with host := h }.print (.unableToOpenFile fname)).emit .flush)
  | (h, some f) =>
    match h.fgetc f with
    | (h1, v) =>
      let s1 := loadLoop f (remaining h f + 1) a v { s0 with host := h1 }
      .ret { s1 with host := s1.host.fclose f }

/-- `static void OSFILE(void)`. -/
def OSFILE (s : Machine) : Outcome :=
  let ptr := (s.X + s.Y * 256) % 65536
  let fnamep := (s.mem ptr + s.mem (ptr + 1) * 256) % 65536
  match crIndex s.mem fnamep with
  | none => .fault
  | some i =>
    let fname := cstr (bytesAt s.mem fnamep i)
    let load := GET16LE s.mem (ptr + 2)
    let exec := GET16LE s.mem (ptr + 6)
    let save := GET16LE s.mem (ptr + 10)
    let end_ := GET16LE s.mem (ptr + 14)
    if s.A = 0x00 then osfileSave { s with A := 0 } fname save end_
    else if s.A = 0xff then
      osfileLoad { s with A := 0 } fname (if exec % 256 ≠ 0 then exec else load)
    else .exit 1 (s.print (.osfileNotHandled s.A))

/-! ## The file handle table: `OSFIND`, `OSBPUT`, `OSBGET`, `OSARGS` -/

/-- The loop `for (i=0; i<NHANDLES; i++) if (handles[i] == NULL) break;`, from
`i` with `n` slots still to look at: the final `i`. -/
def findFree (handles : Nat → Option Nat) : Nat → Nat → Nat
  | i, 0 => i
  | i, n + 1 => if handles i = none then i else findFree handles (i + 1) n

/-- `static void open_file_handle(char *fname, char *mode, char cmode)`. -/
def open_file_handle (s : Machine) (fname : List Nat) (mode : OpenMode) (cmode : Nat) :
    Machine :=
  let i := findFree s.handles 0 NHANDLES
  if i = NHANDLES then { s.print .tooManyOpenFiles with A := 0x00 }
  else
    match s.host.fopen fname mode with
    | (h, none) => { { s with host := h }.print (.unableToOpenFile fname) with A := 0x00 }
    | (h, some f) =>
      { s with handles := setAt s.handles i (some f)
               fmode := setAt s.fmode i cmode
               A := (i + 1) % 256
               host := h.fseekSet f 0 }

/-- The loop `for (int i=0; i<NHANDLES; i++) if (handles[i]) { fclose(handles[i]);
handles[i] = NULL; }`, from `i` with `n` slots still to go. -/
def closeAll : Nat → Nat → Machine → Machine
  | _, 0, s => s
  | i, n + 1, s =>
    match s.handles i with
    | some f => closeAll (i + 1) n { s with host := s.host.fclose f, handles := setAt s.handles i none }
    | none => closeAll (i + 1) n s

/-- `static void OSFIND(void)`.  The open branch ends the name with
`mem[ptr+i] = 0`, not `fname[i] = 0`: the carriage return in guest memory is
overwritten and the name buffer is left without its NUL. -/
def OSFIND (s : Machine) : Outcome :=
  if s.A = 0 then
    if s.Y ≥ 1 ∧ s.Y ≤ NHANDLES then
      match s.handles (s.Y - 1) with
      | some f => .ret { s with host := s.host.fclose f, handles := setAt s.handles (s.Y - 1) none }
      | none => .ret (s.print .channel)
    else if s.Y = 0 then .ret (closeAll 0 NHANDLES s)
    else .ret (s.print .channel)
  else
    let ptr := (s.X + s.Y * 256) % 65536
    match crIndex s.mem ptr with
    | none => .fault
    | some i =>
      let fname := cstr (bytesAt s.mem ptr i ++ s.host.junk)
      let s1 := s.store (ptr + i) 0
      if s.A = 0x40 then .ret (open_file_handle s1 fname .rb 82)
      else if s.A = 0x80 then .ret (open_file_handle s1 fname .wb 87)
      else if s.A = 0xc0 then .ret (open_file_handle s1 fname .aplus 65)
      else .ret s1

/-- `static void OSBPUT(void)`; `82` is the character `R`. -/
def OSBPUT (s : Machine) : Outcome :=
  if s.Y < 1 ∨ s.Y > NHANDLES ∨ s.fmode (s.Y - 1) = 82 ∨ s.handles (s.Y - 1) = none then
    .ret (s.print .channel)
  else
    match s.handles (s.Y - 1) with
    | none => .ret (s.print .channel)
    | some f => .ret { s with host := (s.host.write f [s.A % 256]).1 }

/-- `static void OSBGET(void)`; `87` is the character `W`. -/
def OSBGET (s : Machine) : Outcome :=
  if s.Y < 1 ∨ s.Y > NHANDLES ∨ s.fmode (s.Y - 1) = 87 ∨ s.handles (s.Y - 1) = none then
    .ret (s.print .channel)
  else
    match s.handles (s.Y - 1) with
    | none => .ret (s.print .channel)
    | some f =>
      match s.host.fgetc f with
      | (h, v) =>
        let s1 := { s with A := (v % 256).toNat, host := h }
        if h.feof f then .ret (set_carry s1) else .ret (clear_carry s1)

/-- The four stores `mem[X] = v & 0xff; .. mem[X+3] = (v >> 24) & 0xff;`. -/
def storeLong (s : Machine) (x : Nat) (v : Int) : Machine :=
  (((s.store x (v % 256).toNat).store (x + 1) (v / 2 ^ 8 % 256).toNat).store
    (x + 2) (v / 2 ^ 16 % 256).toNat).store (x + 3) (v / 2 ^ 24 % 256).toNat

/-- `static void OSARGS(void)`.  `handles[Y-1]` is read for every nonzero `Y`. -/
def OSARGS (s : Machine) : Outcome :=
  if s.Y = 0 then .ret (s.print .unhandledOSARGSzero)
  else
    let vs : Int × Machine :=
      if s.A = 0x00 then
        match s.handles (s.Y - 1) with
        | some f => (s.host.ftell f, s)
        | none => (0, s.print .channel)
      else if s.A = 0x01 then
        let v : Int := (GET32LE s.mem s.X : Nat)
        match s.handles (s.Y - 1) with
        | some f => (v, { s with host := s.host.fseekSet f v })
        | none => (v, s.print .channel)
      else if s.A = 0x02 then
        match s.handles (s.Y - 1) with
        | some f =>
          let x := s.host.ftell f
          let h1 := s.host.fseekEnd f
          (h1.ftell f, { s with host := h1.fseekSet f x })
        | none => (0, s.print .channel)
      else (0, s.print .unhandledOSARGS)
    if s.A = 0 ∨ s.A = 2 then .ret (storeLong vs.2 s.X vs.1) else .ret vs.2

/-! ## The command interpreter: `OSCLI` -/

/-- `isspace(c)` in the C locale. -/
def isspace (c : Nat) : Bool := c = 0x20 || (0x09 ≤ c && c ≤ 0x0d)

/-- The value of a hexadecimal digit. -/
def hexVal (c : Nat) : Option Nat :=
  if 48 ≤ c ∧ c ≤ 57 then some (c - 48)
  else if 97 ≤ c ∧ c ≤ 102 then some (c - 87)
  else if 65 ≤ c ∧ c ≤ 70 then some (c - 55)
  else none

/-- The optional sign `strtol` accepts: whether it is `-` (45; `+` is 43), and
what follows. -/
def strtolSign (q : List Nat) : Bool × List Nat :=
  match q with
  | c :: r => if c = 45 then (true, r) else if c = 43 then (false, r) else (false, q)
  | [] => (false, [])

/-- The optional `0x` / `0X` `strtol` accepts in base 16 before a digit: what
follows it. -/
def strtolPrefix (q : List Nat) : List Nat :=
  match q with
  | z :: x :: d :: r =>
    if z = 48 ∧ (x = 120 ∨ x = 88) ∧ (hexVal d).isSome = true then d :: r else q
  | _ => q

/-- The value `strtol` returns for the digits `ds`: clamped to the range of
`long`. -/
def strtolValue (neg : Bool) (ds : List Nat) : Int :=
  let n := ds.foldl (fun acc c => acc * 16 + (hexVal c).getD 0) 0
  if neg then max (-(n : Int)) (-(2 : Int) ^ 63) else min (n : Int) ((2 : Int) ^ 63 - 1)

/-- `strtol(p, &q, 16)`: the value and `q`.  White space, a sign and `0x` may
precede the digits; without a digit the value is 0 and `q` is `p`; the value is
clamped to the range of `long`. -/
def strtol16 (p : List Nat) : Int × List Nat :=
  let q := p.dropWhile isspace
  let sq := strtolSign q
  let q2 := strtolPrefix sq.2
  let ds := q2.takeWhile (fun c => (hexVal c).isSome)
  if ds.isEmpty then (0, p)
  else (strtolValue sq.1 ds, q2.drop ds.length)

/-- `mem[a] = b0; mem[a+1] = b1; ..`: what `fread` does to its buffer. -/
def storeBytes (s : Machine) : Nat → List Nat → Machine
  | _, [] => s
  | a, b :: bs => storeBytes (s.store a b) (a + 1) bs

/-- The part of `starloadsave` after `// execute command`. -/
def execLoadSave (s : Machine) (fname : List Nat) (start end0 : Int) (save : Bool) : Machine :=
  let end_ : Int := if save then end0 else 0xffff
  if start < 0 ∨ start > 0xffff then s.print .startOutOfRange
  else if save = true ∧ (end_ < 0 ∨ end_ > 0xffff ∨ end_ < start) then s.print .endOutOfRange
  else
    match s.host.fopen fname (if save then .wb else .rb) with
    | (h, none) => { s with host := h }.print .unableToOpen
    | (h, some f) =>
      let len := (end_ - start + 1).toNat
      if save then
        { s with host := ((h.write f (bytesAt s.mem start.toNat len)).1).fclose f }
      else
        match h.fread f len with
        | (h1, got) => storeBytes { s with host := h1.fclose f } start.toNat got

/-- The part of `starloadsave` between the closing quote and
`// execute command`: `p1` is what follows the closing quote. -/
def parseAddrs (s : Machine) (fname p1 : List Nat) (save : Bool) : Machine :=
  let p2 := p1.dropWhile isspace
  if p2.isEmpty then s.print .syntaxError
  else
    let r1 := strtol16 p2
    if save then
      match r1.2 with
      | [] => s.print .syntaxError
      | d :: p3 =>
        if !isspace d then s.print .syntaxError
        else
          let p4 := (d :: p3).dropWhile isspace
          if p4.isEmpty then s.print .syntaxError
          else
            let r2 := strtol16 p4
            if !(r2.2.dropWhile isspace).isEmpty then s.print .syntaxError
            else execLoadSave s fname r1.1 r2.1 true
    else if !(r1.2.dropWhile isspace).isEmpty then s.print .syntaxError
    else execLoadSave s fname r1.1 0 false

/-- `static void starloadsave(char *args, bool save)`; `34` is the double
quote. -/
def starloadsave (s : Machine) (args : List Nat) (save : Bool) : Machine :=
  match args.dropWhile isspace with
  | [] => s.print .syntaxError
  | c :: p0 =>
    if c ≠ 34 then s.print .syntaxError
    else
      let fname := p0.takeWhile (fun b => b != 34)
      match p0.dropWhile (fun b => b != 34) with
      | [] => s.print .syntaxError
      | _ :: p1 => parseAddrs s fname p1 save

/-- `static void OSCLI(void)`.  The byte lists are `*QUIT`, `*quit`, `*SAVE`
and `*LOAD`. -/
def OSCLI (s : Machine) : Outcome :=
  let ptr := (s.X + s.Y * 256) % 65536
  match crIndex s.mem ptr with
  | none => .fault
  | some i =>
    let raw := bytesAt s.mem ptr i
    let line := cstr raw
    if line = [42, 81, 85, 73, 84] ∨ line = [42, 113, 117, 105, 116] then .exit 0 s
    else if line.take 5 = [42, 83, 65, 86, 69] then .ret (starloadsave s (line.drop 5) true)
    else if line.take 5 = [42, 76, 79, 65, 68] then .ret (starloadsave s (line.drop 5) false)
    else if i > 1 then .ret (s.emit (.shell (cstr (raw.drop 1))))
    else .ret s

/-! ## The trap dispatcher -/

/-- What `trap` does after the routine: `PC++` when it returned. -/
def Outcome.skipTrap : Outcome → Outcome
  | .ret s => .ret { s with PC := (s.PC + 1) % 65536 }
  | o => o

/-- `static void trap(void)`. -/
def trap (s : Machine) : Outcome :=
  if s.PC = 0xffce then (OSFIND s).skipTrap
  else if s.PC = 0xffd4 then (OSBPUT s).skipTrap
  else if s.PC = 0xffd7 then (OSBGET s).skipTrap
  else if s.PC = 0xffda then (OSARGS s).skipTrap
  else if s.PC = 0xffdd then (OSFILE s).skipTrap
  else if s.PC = 0xffe0 then (OSRDCH s).skipTrap
  else if s.PC = 0xffe3 then (OSASCI s).skipTrap
  else if s.PC = 0xffe7 then (OSNEWL s).skipTrap
  else if s.PC = 0xffee then (OSWRCH s).skipTrap
  else if s.PC = 0xfff1 then (OSWORD s).skipTrap
  else if s.PC = 0xfff4 then (OSBYTE s).skipTrap
  else if s.PC = 0xfff7 then (OSCLI s).skipTrap
  else .exit 1 (s.print (.unhandledTrap s.PC))

/-! ## Fixtures

Concrete machines on which the theorems below are instantiated. -/

/-- A host with no files, no open streams and nothing to deliver. -/
def Host.blank : Host :=
  { charSigned := true, files := fun _ => none, deny := fun _ => false, full := false,
    junk := [], streams := fun _ => none, nextStream := 0, keys := [], lines := [],
    clock := [], log := [] }

/-- A machine with zeroed registers and memory and an empty handle table. -/
def Machine.blank : Machine :=
  { A := 0, X := 0, Y := 0, PC := 0, P := 0, mem := fun _ => 0, basic := fun _ => 0,
    mos := fun _ => 0, handles := fun _ => none, fmode := fun _ => 0, start_time := (0, 0),
    host := Host.blank }

/-- A guest set-up for an open request: `A = 0x80` (open for output), the name
`F` with its carriage return at `0x1000`, on a host that refuses no path. -/
def openDemo (t : Machine) : Machine :=
  { t with A := 0x80, X := 0x00, Y := 0x10
           mem := setAt (setAt t.mem 0x1000 70) 0x1001 0x0d
           host := { t.host with deny := fun _ => false } }

/-- A machine with stream 7 open write-only on handle 1 and stream 8 open
read-only on handle 2. -/
def Machine.twoOpen : Machine :=
  { Machine.blank with
    handles := setAt (setAt (fun _ => none) 0 (some 7)) 1 (some 8)
    fmode := setAt (setAt (fun _ => 0) 0 87) 1 82 }

/-- A machine about to read a line: `A = 0`, the parameter block at `0x3000`
holds the buffer address `buf`, the maximum length `len` and the range
`mn..mx`, and the host will deliver `line` on a platform whose plain `char` is
signed or not. -/
def lineDemo (buf len mn mx : Nat) (signed : Bool) (line : List Nat) : Machine :=
  { Machine.blank with
    X := 0x00
    Y := 0x30
    mem := setAt (setAt (setAt (setAt (setAt (fun _ => 0) 0x3000 (buf % 256)) 0x3001 (buf / 256))
             0x3002 len) 0x3003 mn) 0x3004 mx
    host := { Host.blank with charSigned := signed, lines := [some line] } }

/-- A machine about to save: `A = 0`, the parameter block at `0x3000` names the
file `F` (at `0x3100`) and holds `save = 0x2000`, `end = 0x2003`; memory from
`0x2000` holds 17, 34, 0. -/
def saveDemo : Machine :=
  { Machine.blank with
    A := 0x00
    X := 0x00
    Y := 0x30
    mem := setAt (setAt (setAt (setAt (setAt (setAt (setAt (setAt (setAt (setAt (fun _ => 0)
             0x3000 0x00) 0x3001 0x31) 0x3100 70) 0x3101 0x0d)
             0x300a 0x00) 0x300b 0x20) 0x300e 0x03) 0x300f 0x20)
             0x2000 17) 0x2001 34 }

/-- A machine about to load on host `h`: `A = 0xff`, the parameter block of
`saveDemo` with `load = 0x2000` and `exec = 0`, and the bytes at `0x2000` and
`0x2001` overwritten with 99 and 98. -/
def loadDemo (h : Host) : Machine :=
  { saveDemo with
    A := 0xff
    host := h
    mem := setAt (setAt (setAt (setAt saveDemo.mem 0x2000 99) 0x2001 98) 0x3002 0x00) 0x3003 0x20 }

/-- A host whose only file is `F`, with content `data`. -/
def fileHost (data : List Nat) : Host :=
  { Host.blank with files := setFile (fun _ => none) [70] (some data) }

/-- The machine `saveDemo` asked to save the one byte at `0xB800`, where the
BASIC ROM holds `0x4c` and the RAM underneath holds 0. -/
def romSaveDemo : Machine :=
  { saveDemo with
    basic := setAt (fun _ => 0) 0 0x4c
    mem := setAt (setAt (setAt (setAt saveDemo.mem 0x300a 0x00) 0x300b 0xb8) 0x300e 0x01)
             0x300f 0xb8 }

/-- The machine `loadDemo` on a host that holds the file `F` = 7, 8, with
`exec = 0x1200` and `load = 0x2000` in the parameter block. -/
def execLoadDemo : Machine :=
  { loadDemo (fileHost [7, 8]) with
    mem := setAt (setAt (loadDemo (fileHost [7, 8])).mem 0x3006 0x00) 0x3007 0x12 }

/-- A machine about to write the clock: `A = 2`, the parameter block at
`0x3000` holds the value `0x0080000000` (bytes 00 00 00 80 00), and the host
clock reads 1000.5 s twice. -/
def clockDemo : Machine :=
  { Machine.blank with
    A := 0x02
    X := 0x00
    Y := 0x30
    mem := setAt (fun _ => 0) 0x3003 0x80
    host := { Host.blank with clock := [(1000, 500000), (1000, 500000)] } }

/-- A machine about to ask for the position of handle `y` with sub-operation
`a`: the result area is at `X = 0x70`, where memory holds 5, 6, 7, 8, and all
six slots of the handle table are empty. -/
def argsDemo (a y : Nat) : Machine :=
  { Machine.blank with
    A := a
    X := 0x70
    Y := y
    mem := setAt (setAt (setAt (setAt (fun _ => 0) 0x70 5) 0x71 6) 0x72 7) 0x73 8 }

/-- The open request `openDemo` on a machine whose six handles are all taken. -/
def fullOpenDemo : Machine :=
  openDemo { Machine.blank with handles := fun i => if i < 6 then some i else none }

/-- The open request `openDemo` for input (`A = 0x40`) of a file that does not
exist. -/
def missingOpenDemo : Machine := { openDemo Machine.blank with A := 0x40 }

/-- A machine about to call `OSCLI` with `line`, which stands at `0x1000` and
is followed by its carriage return. -/
def cliDemo (line : List Nat) : Machine :=
  { Machine.blank with
    X := 0x00
    Y := 0x10
    mem := fun a =>
      if 0x1000 ≤ a ∧ a < 0x1000 + line.length then line.getD (a - 0x1000) 0
      else if a = 0x1000 + line.length then 0x0d
      else if a = 0x2000 then 17
      else if a = 0x2001 then 34
      else if a = 0x2002 then 51
      else 0 }

/-- A machine about to wait for a key: `A = 0x81`, the timeout `X + 256 Y` is
10 centiseconds, carry is set on entry; the clock reads 5.00 s at the start and
5.01 s after the first poll, which finds nothing, and the key `k` is there at
the second poll. -/
def keyDemo (k : Nat) : Machine :=
  { Machine.blank with
    A := 0x81
    X := 10
    Y := 0
    P := 1
    host := { Host.blank with keys := [none, some k], clock := [(5, 0), (5, 10000)] } }
/-- The machine `loadDemo` on a host that holds the file `F` = 7, 8, with
`load = 0xFFFF`, the last cell of the address space, and `exec = 0`. -/
def edgeLoadDemo : Machine :=
  { loadDemo (fileHost [7, 8]) with
    mem := setAt (setAt (loadDemo (fileHost [7, 8])).mem 0x3002 0xff) 0x3003 0xff }

/-- The machine `cliDemo` about to run `*LOAD "F" FFFF` on a host that holds
the file `F` = 7, 8. -/
def edgeCliDemo : Machine :=
  { cliDemo [42, 76, 79, 65, 68, 32, 34, 70, 34, 32, 70, 70, 70, 70] with
    host := fileHost [7, 8] }

/-! ## Scenarios -/

/-- The parameter block pointer of `OSWORD`: `(Y<<8) | X`. -/
def linePtr (s : Machine) : Nat := (s.Y * 256 + s.X) % 65536

/-- The buffer address in the parameter block of `OSWORD` `A=0`. -/
def lineBuf (s : Machine) : Nat := (s.mem (linePtr s + 0) + s.mem (linePtr s + 1) * 256) % 65536

/-- The maximum length in the parameter block of `OSWORD` `A=0`. -/
def lineLen (s : Machine) : Nat := s.mem (linePtr s + 2)

/-- The lowest acceptable character in the parameter block of `OSWORD` `A=0`. -/
def lineMin (s : Machine) : Nat := s.mem (linePtr s + 3)

/-- The highest acceptable character in the parameter block of `OSWORD` `A=0`. -/
def lineMax (s : Machine) : Nat := s.mem (linePtr s + 4)

/-- The characters of `l` that pass the range test of `OSWORD` `A=0`, in
order. -/
def keep (s : Machine) (l : List Nat) : List Nat :=
  l.filter (fun c => !rejected s.host.charSigned (lineMin s) (lineMax s) c)

/-- The characters of the host line that pass the range test of `OSWORD` `A=0`,
in order. -/
def accepted (s : Machine) (lineptr : List Nat) : List Nat := keep s (cstr lineptr)

/-- The parameter block pointer of `OSFILE`: `X + (Y<<8)`. -/
def filePtr (s : Machine) : Nat := (s.X + s.Y * 256) % 65536

/-- `pblock.fnamep`. -/
def fileNamePtr (s : Machine) : Nat := (s.mem (filePtr s) + s.mem (filePtr s + 1) * 256) % 65536

/-- The file name `OSFILE` passes to `fopen` when the name in guest memory has
`n` bytes before its carriage return. -/
def fileName (s : Machine) (n : Nat) : List Nat := cstr (bytesAt s.mem (fileNamePtr s) n)

/-- A machine about to make an open request the host can satisfy: `A` selects
one of the three modes, the name at `X + (Y<<8)` ends inside `mem`, and `fopen`
of that name in that mode gives a stream. -/
def OpenReady (t : Machine) : Prop :=
  ∃ (m : OpenMode) (tag n : Nat),
    (t.A, m, tag) ∈ [(0x40, OpenMode.rb, 82), (0x80, OpenMode.wb, 87), (0xc0, OpenMode.aplus, 65)] ∧
    crIndex t.mem ((t.X + t.Y * 256) % 65536) = some n ∧
    (t.host.fopen (cstr (bytesAt t.mem ((t.X + t.Y * 256) % 65536) n ++ t.host.junk)) m).2 ≠ none

/-- A guest that calls `OSFIND` once after each of its set-up steps `gs` (a
set-up step is what the guest does to the machine before the call): the values
of `A` the calls return, `none` when a call does not return. -/
def openRun : List (Machine → Machine) → Machine → Option (List Nat)
  | [], _ => some []
  | g :: gs, s =>
    match OSFIND (g s) with
    | .ret r => (openRun gs r).map (fun as => r.A :: as)
    | _ => none

/-- `pblock.load`. -/
def pbLoad (s : Machine) : Nat := GET16LE s.mem (filePtr s + 2)

/-- `pblock.exec`. -/
def pbExec (s : Machine) : Nat := GET16LE s.mem (filePtr s + 6)

/-- `pblock.save`. -/
def pbSave (s : Machine) : Nat := GET16LE s.mem (filePtr s + 10)

/-- `pblock.end`. -/
def pbEnd (s : Machine) : Nat := GET16LE s.mem (filePtr s + 14)

/-- Address `a` lies in the window of the BASIC ROM, `0xB800..0xF7FF`. -/
def inBasic (a : Nat) : Prop := 0xb800 ≤ a ∧ a ≤ 0xf7ff

/-- Address `a` lies in the window of the MOS ROM, `0xFF00..0xFFFF`. -/
def inMos (a : Nat) : Prop := 0xff00 ≤ a ∧ a ≤ 0xffff

/-- The `n` cells `mem[a] .. mem[a+n-1]` are cells of the array `mem`: none of
them lies past its end. -/
def inMem (a n : Nat) : Prop := a + n ≤ memSize

/-- The pointer to the command line of `OSCLI`: `X + (Y<<8)`. -/
def cliPtr (s : Machine) : Nat := (s.X + s.Y * 256) % 65536

/-- The command line `OSCLI` works on when the line in guest memory has `i`
bytes before its carriage return. -/
def cliLine (s : Machine) (i : Nat) : List Nat := cstr (bytesAt s.mem (cliPtr s) i)

/-! ## The syntax of the block-transfer commands, in the words of the spec -/

/-- Every character of `ws` is white space. -/
def Spaces (ws : List Nat) : Prop := ∀ c ∈ ws, isspace c = true

/-- A token: one or more characters, none of them white space. -/
def Token (t : List Nat) : Prop := t ≠ [] ∧ ∀ c ∈ t, isspace c = false

/-- What follows a token: nothing, or text that starts with white space. -/
def EndsToken (r : List Nat) : Prop := ∀ c q, r = c :: q → isspace c = true

/-- The token is a hexadecimal number as `strtol` reads one in base 16: an
optional sign, an optional `0x` or `0X`, and one or more hexadecimal digits. -/
def hexNumber (t : List Nat) : Bool :=
  !(strtolPrefix (strtolSign t).2).isEmpty &&
    (strtolPrefix (strtolSign t).2).all (fun c => (hexVal c).isSome)

/-- The value of a token that is a hexadecimal number. -/
def hexValue (t : List Nat) : Int :=
  strtolValue (strtolSign t).1 (strtolPrefix (strtolSign t).2)

/-- The arguments of `*SAVE` (`save = true`) or `*LOAD` are malformed in one of
the ways the spec lists: no opening quote, no closing quote, an address
missing, a token that is not a hexadecimal number where an address is expected,
or text other than white space after the last address. -/
inductive Malformed : Bool → List Nat → Prop where
  /-- after the leading white space there is nothing, or something other than
  a quote -/
  | noOpenQuote (save : Bool) (ws rest : List Nat) :
      Spaces ws → (∀ c q, rest = c :: q → isspace c = false ∧ c ≠ 34) →
      Malformed save (ws ++ rest)
  /-- the quote that opens the name is never closed -/
  | noCloseQuote (save : Bool) (ws name : List Nat) :
      Spaces ws → 34 ∉ name → Malformed save (ws ++ 34 :: name)
  /-- nothing but white space follows the name -/
  | noAddress (save : Bool) (ws name ws1 : List Nat) :
      Spaces ws → 34 ∉ name → Spaces ws1 → Malformed save (ws ++ 34 :: (name ++ 34 :: ws1))
  /-- `*SAVE` with one address only -/
  | noSecondAddress (ws name ws1 t1 ws2 : List Nat) :
      Spaces ws → 34 ∉ name → Spaces ws1 → Token t1 → hexNumber t1 = true → Spaces ws2 →
      Malformed true (ws ++ 34 :: (name ++ 34 :: (ws1 ++ (t1 ++ ws2))))
  /-- the token where the first address is expected is not a hexadecimal
  number -/
  | badFirst (save : Bool) (ws name ws1 t1 rest : List Nat) :
      Spaces ws → 34 ∉ name → Spaces ws1 → Token t1 → hexNumber t1 = false → EndsToken rest →
      Malformed save (ws ++ 34 :: (name ++ 34 :: (ws1 ++ (t1 ++ rest))))
  /-- the token where the second address of `*SAVE` is expected is not a
  hexadecimal number -/
  | badSecond (ws name ws1 t1 ws2 t2 rest : List Nat) :
      Spaces ws → 34 ∉ name → Spaces ws1 → Token t1 → hexNumber t1 = true →
      Spaces ws2 → ws2 ≠ [] → Token t2 → hexNumber t2 = false → EndsToken rest →
      Malformed true (ws ++ 34 :: (name ++ 34 :: (ws1 ++ (t1 ++ (ws2 ++ (t2 ++ rest))))))
  /-- text after the address of `*LOAD` -/
  | trailingLoad (ws name ws1 t1 ws2 : List Nat) (c : Nat) (rest : List Nat) :
      Spaces ws → 34 ∉ name → Spaces ws1 → Token t1 → hexNumber t1 = true →
      Spaces ws2 → ws2 ≠ [] → isspace c = false →
      Malformed false (ws ++ 34 :: (name ++ 34 :: (ws1 ++ (t1 ++ (ws2 ++ c :: rest)))))
  /-- text after the second address of `*SAVE` -/
  | trailingSave (ws name ws1 t1 ws2 t2 ws3 : List Nat) (c : Nat) (rest : List Nat) :
      Spaces ws → 34 ∉ name → Spaces ws1 → Token t1 → hexNumber t1 = true →
      Spaces ws2 → ws2 ≠ [] → Token t2 → hexNumber t2 = true → Spaces ws3 → ws3 ≠ [] →
      isspace c = false →
      Malformed true
        (ws ++ 34 :: (name ++ 34 :: (ws1 ++ (t1 ++ (ws2 ++ (t2 ++ (ws3 ++ c :: rest)))))))

/-- The timeout of `OSBYTE` `A=0x81`: `X + (Y<<8)` as a `uint16_t`. -/
def keyTimeout (s : Machine) : Nat := (s.X + s.Y * 256) % 65536

/-- The centiseconds `w - v` between the clock reading `t0` taken on entry and
a later reading `t`, as `OSBYTE` `A=0x81` computes them in `uint64_t`. -/
def elapsed (s : Machine) (t0 t : Int × Int) : Nat :=
  (centis t s.start_time + 2 ^ 64 - centis t0 s.start_time) % 2 ^ 64

/-! # Theorems -/

/-! ## No service routine touches the program counter -/

section PC
variable (s : Machine)
@[simp] theorem store_PC (i v : Nat) : (s.store i v).PC = s.PC := rfl
@[simp] theorem emit_PC (e : Event) : (s.emit e).PC = s.PC := rfl
@[simp] theorem setY_PC (v : Nat) : (s.setY v).PC = s.PC := rfl
@[simp] theorem print_PC (m : Msg) : (s.print m).PC = s.PC := rfl
@[simp] theorem set_carry_PC : (set_carry s).PC = s.PC := rfl
@[simp] theorem clear_carry_PC : (clear_carry s).PC = s.PC := rfl
end PC

theorem lineLoop_PC (sg : Bool) (buf len mn mx : Nat) (l : List Nat) :
    ∀ (j : Nat) (s : Machine), (lineLoop sg buf len mn mx l j s).PC = s.PC := by
  induction l with
  | nil => intro j s; simp [lineLoop]
  | cons c rest ih =>
    intro j s
    simp only [lineLoop]
    split_ifs <;> simp [ih]

theorem loadLoop_PC (f : Nat) : ∀ (fuel a : Nat) (v : Int) (s : Machine),
    (loadLoop f fuel a v s).PC = s.PC := by
  intro fuel
  induction fuel with
  | zero => intro a v s; rfl
  | succ n ih =>
    intro a v s
    simp only [loadLoop]
    split_ifs
    · simp [ih]
    · rfl

theorem closeAll_PC : ∀ (n i : Nat) (s : Machine), (closeAll i n s).PC = s.PC := by
  intro n
  induction n with
  | zero => intro i s; rfl
  | succ n ih =>
    intro i s
    simp only [closeAll]
    split <;> simp [ih]

theorem storeBytes_PC : ∀ (bs : List Nat) (a : Nat) (s : Machine), (storeBytes s a bs).PC = s.PC := by
  intro bs
  induction bs with
  | nil => intro a s; rfl
  | cons b bs ih => intro a s; simp [storeBytes, ih]

theorem keyWait_PC (t v : Nat) : ∀ (fuel : Nat) (s r : Machine),
    keyWait t v fuel s = .ret r → r.PC = s.PC := by
  intro fuel
  induction fuel with
  | zero => intro s r h; simp [keyWait] at h
  | succ n ih =>
    intro s r h
    simp only [keyWait] at h
    split at h
    · split at h
      · simp at h
      · simp only [Outcome.ret.injEq] at h
        subst h
        split_ifs <;> simp
    · split at h
      · simp at h
      · split_ifs at h
        · simp only [Outcome.ret.injEq] at h
          subst h
          simp
        · have := ih _ _ h
          simpa using this

theorem open_file_handle_PC (s : Machine) (fn : List Nat) (m : OpenMode) (c : Nat) :
    (open_file_handle s fn m c).PC = s.PC := by
  unfold open_file_handle
  simp only []
  repeat' split
  all_goals rfl

theorem storeLong_PC (s : Machine) (x : Nat) (v : Int) : (storeLong s x v).PC = s.PC := rfl

theorem execLoadSave_PC (s : Machine) (fn : List Nat) (a b : Int) (sv : Bool) :
    (execLoadSave s fn a b sv).PC = s.PC := by
  unfold execLoadSave
  simp only []
  repeat' split
  all_goals simp [storeBytes_PC]

theorem parseAddrs_PC (s : Machine) (fn p1 : List Nat) (sv : Bool) :
    (parseAddrs s fn p1 sv).PC = s.PC := by
  unfold parseAddrs
  simp only []
  repeat' split
  all_goals simp [execLoadSave_PC]

theorem starloadsave_PC (s : Machine) (args : List Nat) (sv : Bool) :
    (starloadsave s args sv).PC = s.PC := by
  unfold starloadsave
  simp only []
  repeat' split
  all_goals simp [parseAddrs_PC]

theorem OSFIND_PC (s r : Machine) (h : OSFIND s = .ret r) : r.PC = s.PC := by
  unfold OSFIND at h
  simp only [] at h
  repeat' split at h
  all_goals cases h
  all_goals simp [closeAll_PC, open_file_handle_PC]

theorem OSBPUT_PC (s r : Machine) (h : OSBPUT s = .ret r) : r.PC = s.PC := by
  unfold OSBPUT at h
  repeat' split at h
  all_goals cases h
  all_goals simp

theorem OSBGET_PC (s r : Machine) (h : OSBGET s = .ret r) : r.PC = s.PC := by
  unfold OSBGET at h
  simp only [] at h
  repeat' split at h
  all_goals cases h
  all_goals simp

theorem OSARGS_PC (s r : Machine) (h : OSARGS s = .ret r) : r.PC = s.PC := by
  unfold OSARGS at h
  simp only [] at h
  repeat' split at h
  all_goals cases h
  all_goals (try simp only [storeLong_PC])
  all_goals rfl

theorem osfileSave_PC (s r : Machine) (fn : List Nat) (a b : Nat)
    (h : osfileSave s fn a b = .ret r) : r.PC = s.PC := by
  unfold osfileSave at h
  simp only [] at h
  repeat' split at h
  all_goals cases h
  all_goals simp

theorem osfileLoad_PC (s r : Machine) (fn : List Nat) (a : Nat)
    (h : osfileLoad s fn a = .ret r) : r.PC = s.PC := by
  unfold osfileLoad at h
  simp only [] at h
  repeat' split at h
  all_goals cases h
  all_goals simp [loadLoop_PC]

theorem OSFILE_PC (s r : Machine) (h : OSFILE s = .ret r) : r.PC = s.PC := by
  unfold OSFILE at h
  simp only [] at h
  split at h
  · cases h
  · by_cases h0 : s.A = 0x00
    · rw [if_pos h0] at h
      exact (osfileSave_PC _ _ _ _ _ h).trans rfl
    · rw [if_neg h0] at h
      by_cases h1 : s.A = 0xff
      · rw [if_pos h1] at h
        exact (osfileLoad_PC _ _ _ _ h).trans rfl
      · rw [if_neg h1] at h
        cases h

theorem OSRDCH_PC (s r : Machine) (h : OSRDCH s = .ret r) : r.PC = s.PC := by
  unfold OSRDCH at h
  simp only [] at h
  repeat' split at h
  all_goals cases h
  all_goals simp

theorem OSNEWL_PC (s r : Machine) (h : OSNEWL s = .ret r) : r.PC = s.PC := by
  unfold OSNEWL at h
  cases h
  simp

theorem OSWRCH_PC (s r : Machine) (h : OSWRCH s = .ret r) : r.PC = s.PC := by
  unfold OSWRCH at h
  cases h
  simp only [emit_PC]
  repeat' split
  all_goals rfl

theorem OSASCI_PC (s r : Machine) (h : OSASCI s = .ret r) : r.PC = s.PC := by
  unfold OSASCI at h
  split at h
  · exact OSNEWL_PC s r h
  · split at h
    · cases h; simp
    · exact OSWRCH_PC s r h

theorem OSWORD_PC (s r : Machine) (h : OSWORD s = .ret r) : r.PC = s.PC := by
  unfold OSWORD at h
  simp only [] at h
  repeat' split at h
  all_goals cases h
  all_goals simp [lineLoop_PC]

theorem OSBYTE_PC (s r : Machine) (h : OSBYTE s = .ret r) : r.PC = s.PC := by
  unfold OSBYTE at h
  simp only [] at h
  repeat' split at h
  all_goals first
    | exact (keyWait_PC _ _ _ _ _ h).trans rfl
    | (cases h; done)
    | (cases h; simp)

theorem OSCLI_PC (s r : Machine) (h : OSCLI s = .ret r) : r.PC = s.PC := by
  unfold OSCLI at h
  simp only [] at h
  repeat' split at h
  all_goals cases h
  all_goals simp [starloadsave_PC]

/-! ## C1: trap dispatch -/

/-- C1. For a program counter that is none of the twelve entry addresses `trap`
ends the process with `exit(1)` after printing the unhandled-trap diagnostic,
and the machine is otherwise untouched (no routine ran).  For each of the
twelve, `trap` is the routine of that address followed by `PC++`: when the
routine returns in state `r`, `trap` returns `r` with the program counter set
to the old value plus one. -/
theorem trap_dispatch (s : Machine) :
    (s.PC ∉ [0xffce, 0xffd4, 0xffd7, 0xffda, 0xffdd, 0xffe0, 0xffe3, 0xffe7, 0xffee, 0xfff1,
        0xfff4, 0xfff7] →
      trap s = .exit 1 (s.print (.unhandledTrap s.PC))) ∧
    (∀ e ∈ [(0xffce, OSFIND), (0xffd4, OSBPUT), (0xffd7, OSBGET), (0xffda, OSARGS),
        (0xffdd, OSFILE), (0xffe0, OSRDCH), (0xffe3, OSASCI), (0xffe7, OSNEWL),
        (0xffee, OSWRCH), (0xfff1, OSWORD), (0xfff4, OSBYTE), (0xfff7, OSCLI)],
      s.PC = e.1 →
        trap s = (e.2 s).skipTrap ∧
        ∀ r, e.2 s = .ret r → trap s = .ret { r with PC := s.PC + 1 }) := by
  constructor
  · intro h
    simp only [List.mem_cons, List.mem_singleton, List.not_mem_nil, or_false, not_or] at h
    obtain ⟨h1, h2, h3, h4, h5, h6, h7, h8, h9, h10, h11, h12⟩ := h
    simp [trap, h1, h2, h3, h4, h5, h6, h7, h8, h9, h10, h11, h12]
  · intro e he hpc
    have key : ∀ (f : Machine → Outcome), (∀ r, f s = .ret r → r.PC = s.PC) →
        trap s = (f s).skipTrap → s.PC + 1 < 65536 →
        trap s = (f s).skipTrap ∧ ∀ r, f s = .ret r → trap s = .ret { r with PC := s.PC + 1 } := by
      intro f hf ht hlt
      refine ⟨ht, ?_⟩
      intro r hr
      rw [ht, hr]
      simp only [Outcome.skipTrap, hf r hr, Nat.mod_eq_of_lt hlt]
    simp only [List.mem_cons, List.mem_singleton, List.not_mem_nil, or_false] at he
    rcases he with rfl | rfl | rfl | rfl | rfl | rfl | rfl | rfl | rfl | rfl | rfl | rfl
    all_goals simp only [] at hpc
    · exact key _ (OSFIND_PC s) (by simp [trap, hpc]) (by omega)
    · exact key _ (OSBPUT_PC s) (by simp [trap, hpc]) (by omega)
    · exact key _ (OSBGET_PC s) (by simp [trap, hpc]) (by omega)
    · exact key _ (OSARGS_PC s) (by simp [trap, hpc]) (by omega)
    · exact key _ (OSFILE_PC s) (by simp [trap, hpc]) (by omega)
    · exact key _ (OSRDCH_PC s) (by simp [trap, hpc]) (by omega)
    · exact key _ (OSASCI_PC s) (by simp [trap, hpc]) (by omega)
    · exact key _ (OSNEWL_PC s) (by simp [trap, hpc]) (by omega)
    · exact key _ (OSWRCH_PC s) (by simp [trap, hpc]) (by omega)
    · exact key _ (OSWORD_PC s) (by simp [trap, hpc]) (by omega)
    · exact key _ (OSBYTE_PC s) (by simp [trap, hpc]) (by omega)
    · exact key _ (OSCLI_PC s) (by simp [trap, hpc]) (by omega)

/-- C1 at two machines: the program counter `0x1234` is no entry address, and
`0xffe7` is the entry of `OSNEWL`. -/
theorem trap_dispatch_witness :
    trap { Machine.blank with PC := 0x1234 }
      = .exit 1 (({ Machine.blank with PC := 0x1234 } : Machine).print (.unhandledTrap 0x1234)) ∧
    trap { Machine.blank with PC := 0xffe7 }
      = .ret { ((({ Machine.blank with PC := 0xffe7 } : Machine).emit (.putchar 0x0a)).emit .flush)
                with PC := 0xffe8 } :=
  ⟨(trap_dispatch { Machine.blank with PC := 0x1234 }).1 (by decide),
   ((trap_dispatch { Machine.blank with PC := 0xffe7 }).2 (0xffe7, OSNEWL) (by simp) rfl).2 _ rfl⟩

/-! ## C2: open -/

theorem findFree_found (handles : Nat → Option Nat) : ∀ (n k i : Nat), k ≤ i → i < k + n →
    handles i = none → (∀ j, k ≤ j → j < i → handles j ≠ none) → findFree handles k n = i := by
  intro n
  induction n with
  | zero => intro k i h1 h2; omega
  | succ n ih =>
    intro k i h1 h2 hfree hocc
    simp only [findFree]
    by_cases hk : k = i
    · subst hk; simp [hfree]
    · have hne : handles k ≠ none := hocc k (le_refl _) (by omega)
      rw [if_neg hne]
      exact ih (k + 1) i (by omega) (by omega) hfree (fun j hj1 hj2 => hocc j (by omega) hj2)

theorem findFree_full (handles : Nat → Option Nat) : ∀ (n k : Nat),
    (∀ j, k ≤ j → j < k + n → handles j ≠ none) → findFree handles k n = k + n := by
  intro n
  induction n with
  | zero => intro k _; rfl
  | succ n ih =>
    intro k hocc
    simp only [findFree]
    rw [if_neg (hocc k (le_refl _) (by omega))]
    rw [ih (k + 1) (fun j hj1 hj2 => hocc j (by omega) (by omega))]
    omega

/-- What `OSFIND` does with an open request the host can satisfy. -/
theorem OSFIND_open_eq (s : Machine) (m : OpenMode) (tag n : Nat)
    (hA : (s.A, m, tag) ∈ [(0x40, OpenMode.rb, 82), (0x80, OpenMode.wb, 87), (0xc0, OpenMode.aplus, 65)])
    (hn : crIndex s.mem ((s.X + s.Y * 256) % 65536) = some n) :
    OSFIND s = .ret (open_file_handle (s.store ((s.X + s.Y * 256) % 65536 + n) 0)
      (cstr (bytesAt s.mem ((s.X + s.Y * 256) % 65536) n ++ s.host.junk)) m tag) := by
  simp only [List.mem_cons, List.mem_singleton, List.not_mem_nil, or_false, Prod.mk.injEq] at hA
  rcases hA with ⟨h1, rfl, rfl⟩ | ⟨h1, rfl, rfl⟩ | ⟨h1, rfl, rfl⟩ <;>
    simp [OSFIND, h1, hn]

theorem open_file_handle_free (s : Machine) (fname : List Nat) (m : OpenMode) (tag i f : Nat)
    (h : Host) (hi : i < NHANDLES) (hfree : s.handles i = none)
    (hocc : ∀ j < i, s.handles j ≠ none) (hopen : s.host.fopen fname m = (h, some f)) :
    open_file_handle s fname m tag =
      { s with handles := setAt s.handles i (some f), fmode := setAt s.fmode i tag,
               A := i + 1, host := h.fseekSet f 0 } := by
  have hff : findFree s.handles 0 NHANDLES = i :=
    findFree_found s.handles NHANDLES 0 i (Nat.zero_le _) (by omega) hfree
      (fun j _ hj => hocc j hj)
  have hne : i ≠ NHANDLES := by omega
  have hmod : (i + 1) % 256 = i + 1 := Nat.mod_eq_of_lt (by unfold NHANDLES at hi; omega)
  simp only [open_file_handle, hff, if_neg hne, hopen, hmod]

theorem open_file_handle_full (s : Machine) (fname : List Nat) (m : OpenMode) (tag : Nat)
    (hocc : ∀ j < NHANDLES, s.handles j ≠ none) :
    open_file_handle s fname m tag = { s.print .tooManyOpenFiles with A := 0 } := by
  have hff : findFree s.handles 0 NHANDLES = NHANDLES := by
    have := findFree_full s.handles NHANDLES 0 (fun j _ hj => hocc j (by omega))
    simpa using this
  simp only [open_file_handle, hff, if_true]

theorem fopen_snd_eq (h : Host) (fname : List Nat) (m : OpenMode)
    (hopen : (h.fopen fname m).2 ≠ none) :
    ∃ h1 f, h.fopen fname m = (h1, some f) := by
  rcases hfo : h.fopen fname m with ⟨h1, _ | f⟩
  · rw [hfo] at hopen; exact absurd rfl hopen
  · exact ⟨h1, f, rfl⟩

/-- One open on a table whose first `k < 6` slots are taken and whose other
slots are empty. -/
theorem OSFIND_open_step (t : Machine) (k : Nat) (hk : k < NHANDLES) (hready : OpenReady t)
    (hocc : ∀ j < k, t.handles j ≠ none)
    (hfree : ∀ j, k ≤ j → j < NHANDLES → t.handles j = none) :
    ∃ r, OSFIND t = .ret r ∧ r.A = k + 1 ∧ (∀ j < k + 1, r.handles j ≠ none) ∧
      (∀ j, k + 1 ≤ j → j < NHANDLES → r.handles j = none) := by
  obtain ⟨m, tag, n, hA, hn, hopen⟩ := hready
  obtain ⟨h1, f, hfo⟩ := fopen_snd_eq _ _ _ hopen
  refine ⟨_, OSFIND_open_eq t m tag n hA hn, ?_⟩
  rw [open_file_handle_free (t.store _ 0) _ m tag k f h1 hk (hfree k (le_refl _) hk) hocc hfo]
  refine ⟨rfl, ?_, ?_⟩
  · intro j hj
    by_cases hjk : j = k
    · simp [Machine.store, setAt, hjk]
    · have := hocc j (by omega)
      simpa [Machine.store, setAt, hjk] using this
  · intro j hj1 hj2
    have hjk : j ≠ k := by omega
    have := hfree j (by omega) hj2
    simpa [Machine.store, setAt, hjk] using this

/-- One open on a full table. -/
theorem OSFIND_open_full (t : Machine) (hready : OpenReady t)
    (hocc : ∀ j < NHANDLES, t.handles j ≠ none) :
    ∃ r, OSFIND t = .ret r ∧ r.A = 0 ∧ r.handles = t.handles ∧ r.fmode = t.fmode := by
  obtain ⟨m, tag, n, hA, hn, _⟩ := hready
  refine ⟨_, OSFIND_open_eq t m tag n hA hn, ?_⟩
  rw [open_file_handle_full (t.store _ 0) _ m tag hocc]
  exact ⟨rfl, rfl, rfl⟩

theorem openRun_from (gs : List (Machine → Machine)) :
    ∀ (k : Nat) (s : Machine), k ≤ NHANDLES →
      (∀ g ∈ gs, ∀ t, OpenReady (g t) ∧ (g t).handles = t.handles) →
      (∀ j < k, s.handles j ≠ none) →
      (∀ j, k ≤ j → j < NHANDLES → s.handles j = none) →
      openRun gs s
        = some ((List.range gs.length).map (fun i => if k + i < NHANDLES then k + i + 1 else 0)) := by
  induction gs with
  | nil => intro k s _ _ _ _; rfl
  | cons g gs ih =>
    intro k s hk hg hocc hfree
    have hg0 := hg g (List.mem_cons_self _ _) s
    have hgs : ∀ g1 ∈ gs, ∀ t, OpenReady (g1 t) ∧ (g1 t).handles = t.handles :=
      fun g1 h1 => hg g1 (List.mem_cons_of_mem _ h1)
    simp only [openRun, List.length_cons, List.range_succ_eq_map, List.map_cons, List.map_map]
    by_cases hk6 : k < NHANDLES
    · obtain ⟨r, hr, hA, hocc1, hfree1⟩ :=
        OSFIND_open_step (g s) k hk6 hg0.1 (by rw [hg0.2]; exact hocc) (by rw [hg0.2]; exact hfree)
      rw [hr]
      simp only [ih (k + 1) r (by omega) hgs hocc1 hfree1, Option.map_some', hA,
        Nat.add_zero, if_pos hk6]
      congr 2
      apply List.map_congr_left
      intro i _
      simp only [Function.comp, Nat.succ_eq_add_one]
      have e : k + 1 + i = k + (i + 1) := by omega
      rw [e]
    · have hk' : k = NHANDLES := by omega
      subst hk'
      obtain ⟨r, hr, hA, hh, _⟩ :=
        OSFIND_open_full (g s) hg0.1 (by rw [hg0.2]; exact hocc)
      rw [hr]
      have hocc1 : ∀ j < NHANDLES, r.handles j ≠ none := by rw [hh, hg0.2]; exact hocc
      have hfree1 : ∀ j, NHANDLES ≤ j → j < NHANDLES → r.handles j = none := by
        intro j h1 h2; omega
      simp only [ih NHANDLES r (le_refl _) hgs hocc1 hfree1, Option.map_some', hA,
        Nat.add_zero, if_neg hk6]
      congr 2
      apply List.map_congr_left
      intro i _
      simp only [Function.comp, Nat.succ_eq_add_one]
      rw [if_neg (by omega), if_neg (by omega)]

/-- C2. An open request (`A` = 0x40, 0x80 or 0xC0) whose name ends inside `mem`
and that the host can open returns; if `i` is the lowest empty slot of the
table, `A` is `i+1`, slot `i` holds the stream `fopen` gave and the mode tag of
the request, and every other slot is as before; if none of the six slots is
empty, `A` is 0 and the table is as before.  A guest that starts from an empty
table and makes seven such requests gets 1, 2, 3, 4, 5, 6 and then 0. -/
theorem osfind_open :
    (∀ (s : Machine) (m : OpenMode) (tag n : Nat),
      (s.A, m, tag) ∈ [(0x40, OpenMode.rb, 82), (0x80, OpenMode.wb, 87), (0xc0, OpenMode.aplus, 65)] →
      crIndex s.mem ((s.X + s.Y * 256) % 65536) = some n →
      (s.host.fopen (cstr (bytesAt s.mem ((s.X + s.Y * 256) % 65536) n ++ s.host.junk)) m).2 ≠ none →
      ∃ r, OSFIND s = .ret r ∧
        (∀ i < NHANDLES, s.handles i = none → (∀ j < i, s.handles j ≠ none) →
          r.A = i + 1 ∧
          r.handles i
            = (s.host.fopen (cstr (bytesAt s.mem ((s.X + s.Y * 256) % 65536) n ++ s.host.junk)) m).2 ∧
          r.fmode i = tag ∧
          ∀ j, j ≠ i → r.handles j = s.handles j ∧ r.fmode j = s.fmode j) ∧
        ((∀ i < NHANDLES, s.handles i ≠ none) →
          r.A = 0 ∧ r.handles = s.handles ∧ r.fmode = s.fmode)) ∧
    (∀ (s : Machine) (gs : List (Machine → Machine)), gs.length = 7 →
      (∀ g ∈ gs, ∀ t, OpenReady (g t) ∧ (g t).handles = t.handles) →
      (∀ i < NHANDLES, s.handles i = none) →
      openRun gs s = some [1, 2, 3, 4, 5, 6, 0]) := by
  constructor
  · intro s m tag n hA hn hopen
    refine ⟨_, OSFIND_open_eq s m tag n hA hn, ?_, ?_⟩
    · intro i hi hfree hocc
      obtain ⟨h1, f, hfo⟩ := fopen_snd_eq _ _ _ hopen
      rw [open_file_handle_free (s.store _ 0) _ m tag i f h1 hi hfree hocc hfo]
      refine ⟨rfl, ?_, ?_, ?_⟩
      · have e : (s.host.fopen (cstr (bytesAt s.mem ((s.X + s.Y * 256) % 65536) n ++ s.host.junk)) m).2
            = some f := by
          have := congrArg Prod.snd hfo
          simpa [Machine.store] using this
        rw [e]
        simp [setAt]
      · simp [setAt]
      · intro j hj
        simp [setAt, hj, Machine.store]
    · intro hocc
      rw [open_file_handle_full (s.store _ 0) _ m tag hocc]
      exact ⟨rfl, rfl, rfl⟩
  · intro s gs hlen hg hempty
    have := openRun_from gs 0 s (Nat.zero_le _) hg (fun j hj => absurd hj (Nat.not_lt_zero _))
      (fun j _ hj => hempty j hj)
    rw [this, hlen]
    decide

theorem scanCR_eq (mem : Nat → Nat) : ∀ (n p m : Nat), n < m → mem (p + n) = 0x0d →
    (∀ i < n, mem (p + i) ≠ 0x0d) → scanCR mem p m = some n := by
  intro n
  induction n with
  | zero =>
    intro p m hm hcr _
    obtain ⟨k, rfl⟩ : ∃ k, m = k + 1 := ⟨m - 1, by omega⟩
    simp only [Nat.add_zero] at hcr
    simp [scanCR, hcr]
  | succ n ih =>
    intro p m hm hcr hno
    obtain ⟨k, rfl⟩ : ∃ k, m = k + 1 := ⟨m - 1, by omega⟩
    have h0 : mem p ≠ 0x0d := by simpa using hno 0 (Nat.succ_pos _)
    have hrec := ih (p + 1) k (by omega) (by rw [← hcr]; congr 1; omega)
      (fun i hi => by
        have := hno (i + 1) (by omega)
        rwa [show p + 1 + i = p + (i + 1) by omega])
    simp [scanCR, h0, hrec]

/-- The scan stops at the first carriage return, when that lies inside `mem`. -/
theorem crIndex_eq (mem : Nat → Nat) (p n : Nat) (hn : p + n < memSize)
    (hcr : mem (p + n) = 0x0d) (hno : ∀ i < n, mem (p + i) ≠ 0x0d) :
    crIndex mem p = some n :=
  scanCR_eq mem n p (memSize - p) (by omega) hcr hno

theorem openDemo_crIndex (t : Machine) :
    crIndex (openDemo t).mem (((openDemo t).X + (openDemo t).Y * 256) % 65536) = some 1 := by
  apply crIndex_eq
  · simp [openDemo, memSize]
  · simp [openDemo, setAt]
  · intro i hi
    obtain rfl : i = 0 := by omega
    simp [openDemo, setAt]

theorem openDemo_ready (t : Machine) : OpenReady (openDemo t) ∧ (openDemo t).handles = t.handles := by
  refine ⟨⟨.wb, 87, 1, by simp [openDemo], openDemo_crIndex t, ?_⟩, rfl⟩
  simp [Host.fopen, openDemo]

/-- C2 on the blank machine: the first open returns handle 1, and seven opens
in a row return 1, 2, 3, 4, 5, 6, 0. -/
theorem osfind_open_witness :
    (∃ r, OSFIND (openDemo Machine.blank) = .ret r ∧ r.A = 0 + 1) ∧
    openRun (List.replicate 7 openDemo) Machine.blank = some [1, 2, 3, 4, 5, 6, 0] := by
  constructor
  · obtain ⟨r, hr, h1, _⟩ := osfind_open.1 (openDemo Machine.blank) .wb 87 1 (by simp [openDemo])
      (openDemo_crIndex Machine.blank) (by simp [Host.fopen, openDemo])
    exact ⟨r, hr, (h1 0 (by decide) rfl (fun j hj => absurd hj (Nat.not_lt_zero _))).1⟩
  · exact osfind_open.2 Machine.blank (List.replicate 7 openDemo) (by simp)
      (fun g hg t => by rw [List.eq_of_mem_replicate hg]; exact openDemo_ready t)
      (fun i _ => rfl)

/-! ## C3: close all -/

theorem closeAll_handles : ∀ (n i : Nat) (s : Machine) (j : Nat),
    (closeAll i n s).handles j = if i ≤ j ∧ j < i + n then none else s.handles j := by
  intro n
  induction n with
  | zero =>
    intro i s j
    simp only [closeAll]
    rw [if_neg (by omega)]
  | succ n ih =>
    intro i s j
    simp only [closeAll]
    split
    · next f hf =>
      rw [ih]
      by_cases hj : j = i
      · subst hj
        simp [setAt]
      · by_cases h1 : i + 1 ≤ j ∧ j < i + 1 + n
        · have h2 : i ≤ j ∧ j < i + (n + 1) := by omega
          simp [h1, h2]
        · have h2 : ¬(i ≤ j ∧ j < i + (n + 1)) := by omega
          simp [h1, h2, setAt, hj]
    · next hf =>
      rw [ih]
      by_cases hj : j = i
      · subst hj
        have h1 : ¬(j + 1 ≤ j ∧ j < j + 1 + n) := by omega
        have h2 : j ≤ j ∧ j < j + (n + 1) := by omega
        simp [h1, h2, hf]
      · by_cases h1 : i + 1 ≤ j ∧ j < i + 1 + n
        · have h2 : i ≤ j ∧ j < i + (n + 1) := by omega
          simp [h1, h2]
        · have h2 : ¬(i ≤ j ∧ j < i + (n + 1)) := by omega
          simp [h1, h2]

theorem closeAll_noop : ∀ (n i : Nat) (s : Machine),
    (∀ j, i ≤ j → j < i + n → s.handles j = none) → closeAll i n s = s := by
  intro n
  induction n with
  | zero => intro i s _; rfl
  | succ n ih =>
    intro i s h
    simp only [closeAll]
    rw [h i (le_refl _) (by omega)]
    exact ih (i + 1) s (fun j h1 h2 => h j (by omega) (by omega))

theorem closeAll_regs : ∀ (n i : Nat) (s : Machine),
    (closeAll i n s).A = s.A ∧ (closeAll i n s).X = s.X ∧ (closeAll i n s).Y = s.Y ∧
    (closeAll i n s).P = s.P ∧ (closeAll i n s).mem = s.mem ∧
    (closeAll i n s).fmode = s.fmode ∧ (closeAll i n s).host.log = s.host.log := by
  intro n
  induction n with
  | zero => intro i s; exact ⟨rfl, rfl, rfl, rfl, rfl, rfl, rfl⟩
  | succ n ih =>
    intro i s
    simp only [closeAll]
    split
    · exact ih _ _
    · exact ih _ _

/-- C3. `OSFIND` with `A = 0` and `Y = 0` returns with all six slots empty, and
prints nothing.  On a table with no open handle it returns the machine exactly
as it was (so no channel error is printed), and so does a second application
after any first one. -/
theorem osfind_close_all (s : Machine) (hA : s.A = 0) (hY : s.Y = 0) :
    (∃ r, OSFIND s = .ret r ∧ (∀ i < NHANDLES, r.handles i = none) ∧
        r.host.log = s.host.log ∧ OSFIND r = .ret r) ∧
    ((∀ i < NHANDLES, s.handles i = none) → OSFIND s = .ret s) := by
  have hno : ¬(s.Y ≥ 1 ∧ s.Y ≤ NHANDLES) := by omega
  have hform : ∀ t : Machine, t.A = 0 → t.Y = 0 → OSFIND t = .ret (closeAll 0 NHANDLES t) := by
    intro t h1 h2
    have : ¬(t.Y ≥ 1 ∧ t.Y ≤ NHANDLES) := by omega
    simp [OSFIND, h1, h2]
  have hempty : ∀ i < NHANDLES, (closeAll 0 NHANDLES s).handles i = none := by
    intro i hi
    rw [closeAll_handles]
    simp [hi]
  have hregs := closeAll_regs NHANDLES 0 s
  refine ⟨⟨closeAll 0 NHANDLES s, hform s hA hY, hempty, hregs.2.2.2.2.2.2, ?_⟩, ?_⟩
  · rw [hform _ (hregs.1.trans hA) (hregs.2.2.1.trans hY)]
    rw [closeAll_noop NHANDLES 0 _ (fun j _ hj => hempty j (by omega))]
  · intro h
    rw [hform s hA hY, closeAll_noop NHANDLES 0 s (fun j _ hj => h j (by omega))]

/-- C3 on a machine with two handles open, and on the blank machine. -/
theorem osfind_close_all_witness :
    (∃ r, OSFIND Machine.twoOpen = .ret r ∧ (∀ i < NHANDLES, r.handles i = none) ∧
        r.host.log = Machine.twoOpen.host.log ∧ OSFIND r = .ret r) ∧
    ((∀ i < NHANDLES, Machine.blank.handles i = none) → OSFIND Machine.blank = .ret Machine.blank) :=
  ⟨(osfind_close_all Machine.twoOpen rfl rfl).1, (osfind_close_all Machine.blank rfl rfl).2⟩

/-! ## C4: close one handle -/

/-- C4. `OSFIND` with `A = 0` and a nonzero `Y`: when `1 <= Y <= 6` and slot
`Y-1` is open, that stream is closed, slot `Y-1` becomes empty and every other
slot, the mode tags, the registers and memory stay as they were; in every other
case (slot empty, or `Y > 6`) the routine prints `Channel` and changes nothing
else. -/
theorem osfind_close_one (s : Machine) (hA : s.A = 0) (hY : s.Y ≠ 0) :
    (∀ f, s.Y ≤ NHANDLES → s.handles (s.Y - 1) = some f →
      ∃ r, OSFIND s = .ret r ∧ r.handles (s.Y - 1) = none ∧
        (∀ j, j ≠ s.Y - 1 → r.handles j = s.handles j) ∧
        r.fmode = s.fmode ∧ r.mem = s.mem ∧ r.A = s.A ∧ r.X = s.X ∧ r.Y = s.Y ∧ r.P = s.P ∧
        r.host = s.host.fclose f) ∧
    ((s.Y > NHANDLES ∨ s.handles (s.Y - 1) = none) →
      OSFIND s = .ret (s.print .channel) ∧
      (s.print .channel).handles = s.handles ∧ (s.print .channel).fmode = s.fmode ∧
      (s.print .channel).mem = s.mem ∧ (s.print .channel).A = s.A ∧
      (s.print .channel).X = s.X ∧ (s.print .channel).Y = s.Y ∧
      (s.print .channel).P = s.P ∧ (s.print .channel).PC = s.PC ∧
      (s.print .channel).host.log = s.host.log ++ [.print .channel]) := by
  constructor
  · intro f hle hf
    have h1 : s.Y ≥ 1 ∧ s.Y ≤ NHANDLES := ⟨by omega, hle⟩
    refine ⟨{ s with host := s.host.fclose f, handles := setAt s.handles (s.Y - 1) none }, ?_,
      ?_, ?_, rfl, rfl, rfl, rfl, rfl, rfl, rfl⟩
    · simp [OSFIND, hA, h1, hf]
    · simp [setAt]
    · intro j hj
      simp [setAt, hj]
  · intro h
    refine ⟨?_, rfl, rfl, rfl, rfl, rfl, rfl, rfl, rfl, rfl⟩
    rcases h with h | h
    · have h1 : ¬(s.Y ≥ 1 ∧ s.Y ≤ NHANDLES) := by omega
      simp [OSFIND, hA, h1, hY]
    · by_cases h1 : s.Y ≥ 1 ∧ s.Y ≤ NHANDLES
      · simp [OSFIND, hA, h1, h]
      · simp [OSFIND, hA, h1, hY]

/-- C4 on a machine with handles 1 and 2 open: closing handle 1 empties slot 0,
closing handle 3 or handle 9 is a channel error. -/
theorem osfind_close_one_witness :
    (∃ r, OSFIND { Machine.twoOpen with Y := 1 } = .ret r ∧ r.handles 0 = none ∧
      r.handles 1 = some 8) ∧
    OSFIND { Machine.twoOpen with Y := 3 }
      = .ret (({ Machine.twoOpen with Y := 3 } : Machine).print .channel) ∧
    OSFIND { Machine.twoOpen with Y := 9 }
      = .ret (({ Machine.twoOpen with Y := 9 } : Machine).print .channel) := by
  refine ⟨?_, ?_, ?_⟩
  · obtain ⟨r, hr, h0, h1, _⟩ :=
      (osfind_close_one { Machine.twoOpen with Y := 1 } rfl (by decide)).1 7 (by decide) rfl
    exact ⟨r, hr, h0, (h1 1 (by decide)).trans rfl⟩
  · exact ((osfind_close_one { Machine.twoOpen with Y := 3 } rfl (by decide)).2 (Or.inr rfl)).1
  · exact ((osfind_close_one { Machine.twoOpen with Y := 9 } rfl
      (by decide)).2 (Or.inl (by decide))).1

/-! ## C5: mode check of read-byte and write-byte -/

/-- C5. `OSBGET` on a handle opened write-only (`W`, 87) and `OSBPUT` on a
handle opened read-only (`R`, 82), and either call with `Y = 0`, `Y > 6` or an
empty slot, print `Channel` and change nothing else: the file store and the
streams of the host, `A`, the carry flag and the handle table are as before. -/
theorem osb_mode_check (s : Machine) :
    ((s.Y = 0 ∨ s.Y > NHANDLES ∨ s.handles (s.Y - 1) = none ∨ s.fmode (s.Y - 1) = 87) →
      OSBGET s = .ret (s.print .channel)) ∧
    ((s.Y = 0 ∨ s.Y > NHANDLES ∨ s.handles (s.Y - 1) = none ∨ s.fmode (s.Y - 1) = 82) →
      OSBPUT s = .ret (s.print .channel)) ∧
    ((s.print .channel).host.files = s.host.files ∧
      (s.print .channel).host.streams = s.host.streams ∧
      (s.print .channel).A = s.A ∧ (s.print .channel).carry = s.carry ∧
      (s.print .channel).handles = s.handles ∧ (s.print .channel).fmode = s.fmode ∧
      (s.print .channel).host.log = s.host.log ++ [.print .channel]) := by
  refine ⟨?_, ?_, rfl, rfl, rfl, rfl, rfl, rfl, rfl⟩
  · intro h
    have hc : s.Y < 1 ∨ s.Y > NHANDLES ∨ s.fmode (s.Y - 1) = 87 ∨ s.handles (s.Y - 1) = none := by
      rcases h with h | h | h | h
      · exact Or.inl (by omega)
      · exact Or.inr (Or.inl h)
      · exact Or.inr (Or.inr (Or.inr h))
      · exact Or.inr (Or.inr (Or.inl h))
    simp only [OSBGET, if_pos hc]
  · intro h
    have hc : s.Y < 1 ∨ s.Y > NHANDLES ∨ s.fmode (s.Y - 1) = 82 ∨ s.handles (s.Y - 1) = none := by
      rcases h with h | h | h | h
      · exact Or.inl (by omega)
      · exact Or.inr (Or.inl h)
      · exact Or.inr (Or.inr (Or.inr h))
      · exact Or.inr (Or.inr (Or.inl h))
    simp only [OSBPUT, if_pos hc]

/-- C5 on a machine whose handle 1 is open write-only and whose handle 2 is
open read-only. -/
theorem osb_mode_check_witness :
    OSBGET { Machine.twoOpen with Y := 1 }
      = .ret (({ Machine.twoOpen with Y := 1 } : Machine).print .channel) ∧
    OSBPUT { Machine.twoOpen with Y := 2 }
      = .ret (({ Machine.twoOpen with Y := 2 } : Machine).print .channel) :=
  ⟨(osb_mode_check _).1 (Or.inr (Or.inr (Or.inr rfl))),
   (osb_mode_check _).2.1 (Or.inr (Or.inr (Or.inr rfl)))⟩

/-! ## Line input: the loop of `OSWORD` `A=0` -/

theorem storeBytes_eq : ∀ (bs : List Nat) (s : Machine) (a : Nat),
    storeBytes s a bs
      = { s with mem := fun x => if a ≤ x ∧ x < a + bs.length then bs.getD (x - a) 0 else s.mem x } := by
  intro bs
  induction bs with
  | nil =>
    intro s a
    simp only [storeBytes, List.length_nil, Nat.add_zero]
    have : (fun x => if a ≤ x ∧ x < a then ([] : List Nat).getD (x - a) 0 else s.mem x) = s.mem := by
      funext x
      rw [if_neg (by omega)]
    rw [this]
  | cons b bs ih =>
    intro s a
    simp only [storeBytes, ih, Machine.store, List.length_cons]
    congr 1
    funext x
    by_cases h1 : a + 1 ≤ x ∧ x < a + 1 + bs.length
    · have h2 : a ≤ x ∧ x < a + (bs.length + 1) := by omega
      obtain ⟨d, hd⟩ : ∃ d, x - a = d + 1 := ⟨x - a - 1, by omega⟩
      have hd2 : x - (a + 1) = d := by omega
      rw [if_pos h1, if_pos h2, hd, hd2]
      rfl
    · rw [if_neg h1]
      by_cases hx : x = a
      · subst hx
        have h2 : x ≤ x ∧ x < x + (bs.length + 1) := by omega
        simp [setAt, h2]
      · have h2 : ¬(a ≤ x ∧ x < a + (bs.length + 1)) := by omega
        simp [setAt, hx, h2]

theorem lineLoop_filter (sg : Bool) (buf len mn mx : Nat) : ∀ (line : List Nat) (j : Nat) (s : Machine),
    lineLoop sg buf len mn mx line j s
      = lineLoop sg buf len mn mx (line.filter (fun c => !rejected sg mn mx c)) j s := by
  intro line
  induction line with
  | nil => intro j s; rfl
  | cons c rest ih =>
    intro j s
    by_cases hc : rejected sg mn mx c = true
    · rw [List.filter_cons_of_neg (by simp [hc])]
      simp only [lineLoop, hc, if_true]
      exact ih j s
    · have hc' : rejected sg mn mx c = false := by simpa using hc
      rw [List.filter_cons_of_pos (by simp [hc'])]
      simp only [lineLoop, hc', Bool.false_eq_true, if_false]
      split
      · rfl
      · split
        · rfl
        · exact ih _ _

/-- The loop on characters that all pass the range test, none of them the
cancel character, fewer than are needed to fill the buffer. -/
theorem lineLoop_short (sg : Bool) (buf len mn mx : Nat) : ∀ (ks : List Nat) (j : Nat) (s : Machine),
    (∀ c ∈ ks, rejected sg mn mx c = false ∧ charVal sg c ≠ 27) → j + ks.length < len →
    lineLoop sg buf len mn mx ks j s
      = clear_carry (((storeBytes s (buf + j) ks).store (buf + (j + ks.length)) 0x0d).setY
          ((j + ks.length + 1) % 256)) := by
  intro ks
  induction ks with
  | nil => intro j s _ _; rfl
  | cons c ks ih =>
    intro j s hks hlen
    have hc := hks c (List.mem_cons_self _ _)
    simp only [List.length_cons] at hlen
    have hne : ¬(j + 1 = len) := by omega
    simp only [lineLoop, hc.1, Bool.false_eq_true, if_false, hc.2, hne]
    rw [ih (j + 1) _ (fun d hd => hks d (List.mem_cons_of_mem _ hd)) (by omega)]
    simp only [storeBytes, List.length_cons]
    have e1 : buf + (j + 1) = buf + j + 1 := by omega
    have e2 : j + 1 + ks.length = j + (ks.length + 1) := by omega
    rw [e1, e2]

/-- The loop when the `len`-th character that passes the range test is reached
before any cancel character. -/
theorem lineLoop_full (sg : Bool) (buf len mn mx : Nat) (c : Nat) (post : List Nat) :
    ∀ (pre : List Nat) (j : Nat) (s : Machine),
    (∀ d ∈ pre, rejected sg mn mx d = false ∧ charVal sg d ≠ 27) →
    rejected sg mn mx c = false → charVal sg c ≠ 27 → j + pre.length + 1 = len →
    lineLoop sg buf len mn mx (pre ++ c :: post) j s
      = clear_carry ((((storeBytes s (buf + j) pre).store (buf + (j + pre.length)) c).store
          (buf + (j + pre.length)) 0x0d).setY (len % 256)) := by
  intro pre
  induction pre with
  | nil =>
    intro j s _ hc1 hc2 hlen
    simp only [List.length_nil, Nat.add_zero] at hlen
    simp only [List.nil_append, lineLoop, hc1, Bool.false_eq_true, if_false, hc2, hlen, if_true,
      storeBytes, List.length_nil, Nat.add_zero]
    have e : buf + len - 1 = buf + j := by omega
    rw [e]
  | cons d pre ih =>
    intro j s hpre hc1 hc2 hlen
    have hd := hpre d (List.mem_cons_self _ _)
    simp only [List.length_cons] at hlen
    have hne : ¬(j + 1 = len) := by omega
    show lineLoop sg buf len mn mx (d :: (pre ++ c :: post)) j s = _
    simp only [lineLoop, hd.1, Bool.false_eq_true, if_false, hd.2, hne]
    rw [ih (j + 1) _ (fun e he => hpre e (List.mem_cons_of_mem _ he)) hc1 hc2 (by omega)]
    simp only [storeBytes, List.length_cons]
    have e1 : buf + (j + 1) = buf + j + 1 := by omega
    have e2 : j + 1 + pre.length = j + (pre.length + 1) := by omega
    rw [e1, e2]

/-- The loop when a cancel character that passes the range test is reached
before the buffer is full. -/
theorem lineLoop_cancel (sg : Bool) (buf len mn mx : Nat) (c : Nat) (post : List Nat) :
    ∀ (pre : List Nat) (j : Nat) (s : Machine),
    (∀ d ∈ pre, rejected sg mn mx d = false ∧ charVal sg d ≠ 27) →
    rejected sg mn mx c = false → charVal sg c = 27 → j + pre.length < len →
    lineLoop sg buf len mn mx (pre ++ c :: post) j s
      = set_carry (((storeBytes s (buf + j) pre).store ESCFLG 0xff).setY
          ((j + pre.length) % 256)) := by
  intro pre
  induction pre with
  | nil =>
    intro j s _ hc1 hc2 _
    simp only [List.nil_append, lineLoop, hc1, Bool.false_eq_true, if_false, hc2, if_true,
      storeBytes, List.length_nil, Nat.add_zero]
  | cons d pre ih =>
    intro j s hpre hc1 hc2 hlen
    have hd := hpre d (List.mem_cons_self _ _)
    simp only [List.length_cons] at hlen
    have hne : ¬(j + 1 = len) := by omega
    show lineLoop sg buf len mn mx (d :: (pre ++ c :: post)) j s = _
    simp only [lineLoop, hd.1, Bool.false_eq_true, if_false, hd.2, hne]
    rw [ih (j + 1) _ (fun e he => hpre e (List.mem_cons_of_mem _ he)) hc1 hc2 (by omega)]
    simp only [storeBytes, List.length_cons]
    have e1 : buf + (j + 1) = buf + j + 1 := by omega
    have e2 : j + 1 + pre.length = j + (pre.length + 1) := by omega
    rw [e1, e2]

theorem storeBytes_mem_in (s : Machine) (a : Nat) (bs : List Nat) (i : Nat) (hi : i < bs.length) :
    (storeBytes s a bs).mem (a + i) = bs[i] := by
  rw [storeBytes_eq]
  have h : a ≤ a + i ∧ a + i < a + bs.length := by omega
  simp only [if_pos h, Nat.add_sub_cancel_left]
  simp [List.getD_eq_getElem?_getD, List.getElem?_eq_getElem hi]

theorem storeBytes_mem_out (s : Machine) (a : Nat) (bs : List Nat) (x : Nat)
    (hx : x < a ∨ a + bs.length ≤ x) : (storeBytes s a bs).mem x = s.mem x := by
  rw [storeBytes_eq]
  have h : ¬(a ≤ x ∧ x < a + bs.length) := by omega
  simp only [if_neg h]

theorem storeBytes_P (s : Machine) (a : Nat) (bs : List Nat) : (storeBytes s a bs).P = s.P := by
  rw [storeBytes_eq]

theorem carry_clear_carry (s : Machine) : (clear_carry s).carry = false := by
  simp [Machine.carry, clear_carry]

theorem carry_set_carry (s : Machine) : (set_carry s).carry = true := by
  simp [Machine.carry, set_carry, Nat.add_mod]

/-- What `OSWORD` `A=0` does once the host has delivered a line: the loop runs
over the characters that pass the range test, on a machine whose memory and
registers are still those of the call. -/
theorem OSWORD_line_eq (s : Machine) (h : Host) (lineptr : List Nat) (hA : s.A = 0)
    (hread : s.host.readline = some (h, lineptr)) :
    ∃ s2 : Machine, s2.mem = s.mem ∧ s2.P = s.P ∧
      OSWORD s = .ret (lineLoop s.host.charSigned (lineBuf s) (lineLen s) (lineMin s) (lineMax s)
        (accepted s lineptr) 0 s2) := by
  refine ⟨if (cstr lineptr).length > 0 then ({ s with host := h } : Machine).emit (.addHistory (cstr lineptr))
          else ({ s with host := h } : Machine).emit (.putchar 0x0a), ?_, ?_, ?_⟩
  · split <;> rfl
  · split <;> rfl
  · simp only [OSWORD, hA, hread, if_true, accepted, keep, lineBuf, lineLen, lineMin, lineMax,
      linePtr]
    rw [lineLoop_filter]

theorem charVal_eq_27 (sg : Bool) (c : Nat) (hc : c < 256) : charVal sg c = 27 ↔ c = 27 := by
  unfold charVal
  split
  · next h => constructor <;> intro h2 <;> omega
  · constructor <;> intro h2 <;> omega

/-- C6. `OSWORD` `A=0` on a host line of bytes without a cancel character,
fewer of which pass the range test than the maximum length `L`, with the cells
`buf[0] .. buf[n]` inside `mem`: the routine returns, the `n` characters it
keeps stand in order at `buf[0..n)`, a carriage return stands at `buf[n]`, `Y`
is `n+1` and carry is clear; nothing is written past the end of `mem`. -/
theorem osword_line_short (s : Machine) (h : Host) (lineptr : List Nat) (hA : s.A = 0)
    (hread : s.host.readline = some (h, lineptr)) (hbytes : ∀ c ∈ lineptr, c < 256)
    (hL : lineLen s < 256) (hesc : 27 ∉ cstr lineptr)
    (hn : (accepted s lineptr).length < lineLen s)
    (hin : inMem (lineBuf s) ((accepted s lineptr).length + 1)) :
    ∃ r, OSWORD s = .ret r ∧
      (∀ (i : Nat) (hi : i < (accepted s lineptr).length),
        r.mem (lineBuf s + i) = (accepted s lineptr)[i]) ∧
      r.mem (lineBuf s + (accepted s lineptr).length) = 0x0d ∧
      r.Y = (accepted s lineptr).length + 1 ∧ r.carry = false ∧
      (∀ a, memSize ≤ a → r.mem a = s.mem a) := by
  obtain ⟨s2, hmem, _, heq⟩ := OSWORD_line_eq s h lineptr hA hread
  have hks : ∀ c ∈ accepted s lineptr,
      rejected s.host.charSigned (lineMin s) (lineMax s) c = false ∧ charVal s.host.charSigned c ≠ 27 := by
    intro c hc
    simp only [accepted, keep, List.mem_filter, Bool.not_eq_true'] at hc
    refine ⟨hc.2, ?_⟩
    have hc256 : c < 256 := hbytes c (List.takeWhile_subset _ hc.1)
    rw [Ne, charVal_eq_27 _ _ hc256]
    rintro rfl
    exact hesc hc.1
  rw [lineLoop_short _ _ _ _ _ _ 0 s2 hks (by omega)] at heq
  refine ⟨_, heq, ?_, ?_, ?_, carry_clear_carry _, ?_⟩
  · intro i hi
    show setAt _ _ _ _ = _
    have hne : lineBuf s + i ≠ lineBuf s + (0 + (accepted s lineptr).length) := by omega
    simp only [setAt, if_neg hne, Nat.add_zero]
    exact storeBytes_mem_in s2 _ _ i hi
  · show setAt _ _ _ _ = _
    simp [setAt]
  · show (0 + (accepted s lineptr).length + 1) % 256 = _
    rw [Nat.zero_add, Nat.mod_eq_of_lt (by omega)]
  · intro a ha
    unfold inMem at hin
    have hne : a ≠ lineBuf s + (0 + (accepted s lineptr).length) := by omega
    show setAt _ _ _ _ = _
    simp only [setAt, if_neg hne, Nat.add_zero]
    rw [storeBytes_mem_out s2 _ _ a (by omega), hmem]

/-- C6 on the line `HI` with buffer `0x2000`, maximum length 10 and range
`0x20..0x7e`; the three cells from `0x2000` are inside `mem`. -/
theorem osword_line_short_witness :
    ∃ r, OSWORD (lineDemo 0x2000 10 0x20 0x7e true [72, 73]) = .ret r ∧
      (∀ (i : Nat) (hi : i < (accepted (lineDemo 0x2000 10 0x20 0x7e true [72, 73]) [72, 73]).length),
        r.mem (lineBuf (lineDemo 0x2000 10 0x20 0x7e true [72, 73]) + i)
          = (accepted (lineDemo 0x2000 10 0x20 0x7e true [72, 73]) [72, 73])[i]) ∧
      r.mem (lineBuf (lineDemo 0x2000 10 0x20 0x7e true [72, 73])
          + (accepted (lineDemo 0x2000 10 0x20 0x7e true [72, 73]) [72, 73]).length) = 0x0d ∧
      r.Y = (accepted (lineDemo 0x2000 10 0x20 0x7e true [72, 73]) [72, 73]).length + 1 ∧
      r.carry = false ∧
      (∀ a, memSize ≤ a → r.mem a = (lineDemo 0x2000 10 0x20 0x7e true [72, 73]).mem a) :=
  osword_line_short (lineDemo 0x2000 10 0x20 0x7e true [72, 73])
    { Host.blank with charSigned := true, lines := [] } [72, 73] rfl rfl (by decide) (by decide)
    (by decide) (by decide) (by unfold inMem; decide)

theorem split_at_index (ks : List Nat) (n : Nat) (hn : n < ks.length) :
    ks = ks.take n ++ ks[n] :: ks.drop (n + 1) := by
  have h1 : ks.drop n = ks[n] :: ks.drop (n + 1) := List.drop_eq_getElem_cons hn
  rw [← h1, List.take_append_drop]

/-- C7. `OSWORD` `A=0` with maximum length `L >= 1` on a host line of bytes of
which at least `L` pass the range test, with no cancel character among the
first `L` of those, and with the cells `buf[0] .. buf[L-1]` inside `mem`: the
routine returns with `Y = L` and carry clear, `buf[0..L-1)` holds the first
`L-1` of them, `buf[L-1]` holds the carriage return, and no byte below `buf` or
at `buf+L` and beyond is changed; nothing is written past the end of `mem`. -/
theorem osword_line_full (s : Machine) (h : Host) (lineptr : List Nat) (hA : s.A = 0)
    (hread : s.host.readline = some (h, lineptr)) (hbytes : ∀ c ∈ lineptr, c < 256)
    (hL1 : 1 ≤ lineLen s) (hL : lineLen s < 256)
    (hfull : lineLen s ≤ (accepted s lineptr).length)
    (hesc : 27 ∉ (accepted s lineptr).take (lineLen s))
    (hin : inMem (lineBuf s) (lineLen s)) :
    ∃ r, OSWORD s = .ret r ∧ r.Y = lineLen s ∧ r.carry = false ∧
      (∀ i, i + 1 < lineLen s → (accepted s lineptr)[i]? = some (r.mem (lineBuf s + i))) ∧
      r.mem (lineBuf s + lineLen s - 1) = 0x0d ∧
      (∀ a, a < lineBuf s ∨ lineBuf s + lineLen s ≤ a → r.mem a = s.mem a) ∧
      (∀ a, memSize ≤ a → r.mem a = s.mem a) := by
  obtain ⟨s2, hmem, _, heq⟩ := OSWORD_line_eq s h lineptr hA hread
  obtain ⟨n, hn⟩ : ∃ n, lineLen s = n + 1 := ⟨lineLen s - 1, by omega⟩
  unfold inMem at hin
  rw [hn] at heq hesc hfull hL hin ⊢
  have hnlt : n < (accepted s lineptr).length := by omega
  have hsplit := split_at_index (accepted s lineptr) n hnlt
  have htake : (accepted s lineptr).take (n + 1)
      = (accepted s lineptr).take n ++ [(accepted s lineptr)[n]] := by
    rw [List.take_succ, List.getElem?_eq_getElem hnlt]
    rfl
  have hgood : ∀ c ∈ (accepted s lineptr).take (n + 1),
      rejected s.host.charSigned (lineMin s) (lineMax s) c = false ∧ charVal s.host.charSigned c ≠ 27 := by
    intro c hc
    have hc1 : c ∈ accepted s lineptr := List.take_subset _ _ hc
    have hc2 := hc1
    simp only [accepted, keep, List.mem_filter, Bool.not_eq_true'] at hc2
    refine ⟨hc2.2, ?_⟩
    have hc256 : c < 256 := hbytes c (List.takeWhile_subset _ hc2.1)
    rw [Ne, charVal_eq_27 _ _ hc256]
    rintro rfl
    exact hesc hc
  have hpre : ∀ d ∈ (accepted s lineptr).take n,
      rejected s.host.charSigned (lineMin s) (lineMax s) d = false ∧ charVal s.host.charSigned d ≠ 27 :=
    fun d hd => hgood d (htake ▸ List.mem_append_left _ hd)
  have hc := hgood ((accepted s lineptr)[n])
    (htake ▸ List.mem_append_right _ (List.mem_singleton_self _))
  have hlen : ((accepted s lineptr).take n).length = n := by
    rw [List.length_take]; omega
  rw [hsplit, lineLoop_full _ _ _ _ _ _ _ _ 0 s2 hpre hc.1 hc.2 (by rw [hlen]; omega)] at heq
  have hframe : ∀ a, a < lineBuf s ∨ lineBuf s + (n + 1) ≤ a →
      (clear_carry ((((storeBytes s2 (lineBuf s + 0) ((accepted s lineptr).take n)).store
        (lineBuf s + (0 + ((accepted s lineptr).take n).length)) (accepted s lineptr)[n]).store
        (lineBuf s + (0 + ((accepted s lineptr).take n).length)) 0x0d).setY ((n + 1) % 256))).mem a
        = s.mem a := by
    intro a ha
    have hne : a ≠ lineBuf s + (0 + ((accepted s lineptr).take n).length) := by
      rw [hlen]; omega
    show setAt (setAt _ _ _) _ _ _ = _
    simp only [setAt, if_neg hne, Nat.add_zero]
    rw [storeBytes_mem_out s2 _ _ a (by rw [hlen]; omega), hmem]
  refine ⟨_, heq, ?_, carry_clear_carry _, ?_, ?_, hframe, ?_⟩
  · show (n + 1) % 256 = n + 1
    exact Nat.mod_eq_of_lt hL
  · intro i hi
    have hin1 : i < n := by omega
    have hne : lineBuf s + i ≠ lineBuf s + (0 + ((accepted s lineptr).take n).length) := by
      rw [hlen]; omega
    show _ = some (setAt (setAt _ _ _) _ _ _)
    simp only [setAt, if_neg hne, Nat.add_zero]
    rw [storeBytes_mem_in s2 _ _ i (by rw [hlen]; exact hin1), List.getElem_take,
      List.getElem?_eq_getElem]
  · show setAt _ _ _ _ = _
    have he : lineBuf s + (n + 1) - 1 = lineBuf s + (0 + ((accepted s lineptr).take n).length) := by
      rw [hlen]; omega
    simp [setAt, he]
  · intro a ha
    exact hframe a (Or.inr (by omega))

/-- C7 on the line `HELLO` with buffer `0x2000`, maximum length 3 and range
`0x20..0x7e`; the three cells from `0x2000` are inside `mem`. -/
theorem osword_line_full_witness :
    ∃ r, OSWORD (lineDemo 0x2000 3 0x20 0x7e true [72, 69, 76, 76, 79]) = .ret r ∧
      r.Y = lineLen (lineDemo 0x2000 3 0x20 0x7e true [72, 69, 76, 76, 79]) ∧ r.carry = false ∧
      (∀ i, i + 1 < lineLen (lineDemo 0x2000 3 0x20 0x7e true [72, 69, 76, 76, 79]) →
        (accepted (lineDemo 0x2000 3 0x20 0x7e true [72, 69, 76, 76, 79]) [72, 69, 76, 76, 79])[i]?
          = some (r.mem (lineBuf (lineDemo 0x2000 3 0x20 0x7e true [72, 69, 76, 76, 79]) + i))) ∧
      r.mem (lineBuf (lineDemo 0x2000 3 0x20 0x7e true [72, 69, 76, 76, 79])
          + lineLen (lineDemo 0x2000 3 0x20 0x7e true [72, 69, 76, 76, 79]) - 1) = 0x0d ∧
      (∀ a, a < lineBuf (lineDemo 0x2000 3 0x20 0x7e true [72, 69, 76, 76, 79]) ∨
          lineBuf (lineDemo 0x2000 3 0x20 0x7e true [72, 69, 76, 76, 79])
            + lineLen (lineDemo 0x2000 3 0x20 0x7e true [72, 69, 76, 76, 79]) ≤ a →
        r.mem a = (lineDemo 0x2000 3 0x20 0x7e true [72, 69, 76, 76, 79]).mem a) ∧
      (∀ a, memSize ≤ a →
        r.mem a = (lineDemo 0x2000 3 0x20 0x7e true [72, 69, 76, 76, 79]).mem a) :=
  osword_line_full (lineDemo 0x2000 3 0x20 0x7e true [72, 69, 76, 76, 79])
    { Host.blank with charSigned := true, lines := [] } [72, 69, 76, 76, 79] rfl rfl (by decide)
    (by decide) (by decide) (by decide) (by decide) (by unfold inMem; decide)

/-- C8 as stated fails twice.  With the range `0x20..0x7e` the cancel character
in the line `A`, ESC, `B` never reaches the test for 27, because the range test
before it drops it: the routine returns `Y = 3` with carry clear, the
EscapeFlag byte untouched and the carriage return written.  With the buffer at
`0xff` and a line that starts with the cancel character (`k = 0`), `buf[k]` is
the EscapeFlag byte itself and is changed from 0 to `0xff`. -/
theorem osword_line_cancel_counterexample :
    (∃ r, OSWORD (lineDemo 0x2000 10 0x20 0x7e true [65, 27, 66]) = .ret r ∧ r.Y = 3 ∧
      r.carry = false ∧ r.mem ESCFLG = 0 ∧ r.mem 0x2001 = 66 ∧ r.mem 0x2002 = 0x0d) ∧
    (∃ r, OSWORD (lineDemo 0xff 10 0 0xff true [27]) = .ret r ∧ r.Y = 0 ∧ r.carry = true ∧
      (lineDemo 0xff 10 0 0xff true [27]).mem (0xff + 0) = 0 ∧ r.mem (0xff + 0) = 0xff) :=
  ⟨⟨_, rfl, rfl, rfl, rfl, rfl, rfl⟩, ⟨_, rfl, rfl, rfl, rfl, rfl⟩⟩

theorem not_rejected_27 (sg : Bool) (mn mx : Nat) (h1 : mn ≤ 27) (h2 : 27 ≤ mx) :
    rejected sg mn mx 27 = false := by
  have hv : charVal sg 27 = 27 := by
    unfold charVal
    rw [if_neg (by omega)]
    rfl
  simp only [rejected, hv, Bool.or_eq_false_iff, decide_eq_false_iff_not]
  constructor <;> omega

/-- C8, amended. `OSWORD` `A=0` with a range that contains 27 and the cells
`buf[0..k)` inside `mem`, on a host line of bytes whose first cancel character
comes after `k < L` characters that pass the range test: the routine returns
with `Y = k`, the EscapeFlag byte `0xff` and carry set; the `k` characters
stand at `buf[0..k)` (where that is not the EscapeFlag byte), and no other byte
than the EscapeFlag is changed, so no carriage return is written and `buf[k]`
is unchanged unless it is the EscapeFlag byte; nothing is written past the end
of `mem`. -/
theorem osword_line_cancel (s : Machine) (h : Host) (lineptr l1 l2 : List Nat) (hA : s.A = 0)
    (hread : s.host.readline = some (h, lineptr)) (hbytes : ∀ c ∈ lineptr, c < 256)
    (hline : cstr lineptr = l1 ++ 27 :: l2) (hfirst : 27 ∉ l1)
    (hmin : lineMin s ≤ 27) (hmax : 27 ≤ lineMax s) (hL : lineLen s < 256)
    (hk : (keep s l1).length < lineLen s)
    (hin : inMem (lineBuf s) (keep s l1).length) :
    ∃ r, OSWORD s = .ret r ∧ r.Y = (keep s l1).length ∧ r.mem ESCFLG = 0xff ∧ r.carry = true ∧
      (∀ (i : Nat) (hi : i < (keep s l1).length), lineBuf s + i ≠ ESCFLG →
        r.mem (lineBuf s + i) = (keep s l1)[i]) ∧
      (∀ a, a < lineBuf s ∨ lineBuf s + (keep s l1).length ≤ a → a ≠ ESCFLG →
        r.mem a = s.mem a) ∧
      (∀ a, memSize ≤ a → r.mem a = s.mem a) := by
  obtain ⟨s2, hmem, _, heq⟩ := OSWORD_line_eq s h lineptr hA hread
  have h27 := not_rejected_27 s.host.charSigned (lineMin s) (lineMax s) hmin hmax
  have hacc : accepted s lineptr = keep s l1 ++ 27 :: keep s l2 := by
    simp only [accepted, keep, hline, List.filter_append]
    rw [List.filter_cons_of_pos (by simp [h27])]
  have hpre : ∀ d ∈ keep s l1,
      rejected s.host.charSigned (lineMin s) (lineMax s) d = false ∧ charVal s.host.charSigned d ≠ 27 := by
    intro d hd
    simp only [keep, List.mem_filter, Bool.not_eq_true'] at hd
    refine ⟨hd.2, ?_⟩
    have hmem1 : d ∈ cstr lineptr := by rw [hline]; exact List.mem_append_left _ hd.1
    have hd256 : d < 256 := hbytes d (List.takeWhile_subset _ hmem1)
    rw [Ne, charVal_eq_27 _ _ hd256]
    rintro rfl
    exact hfirst hd.1
  have hv : charVal s.host.charSigned 27 = 27 := (charVal_eq_27 _ 27 (by omega)).2 rfl
  rw [hacc, lineLoop_cancel _ _ _ _ _ _ _ _ 0 s2 hpre h27 hv (by omega)] at heq
  have hframe : ∀ a, a < lineBuf s ∨ lineBuf s + (keep s l1).length ≤ a → a ≠ ESCFLG →
      (set_carry (((storeBytes s2 (lineBuf s + 0) (keep s l1)).store ESCFLG 0xff).setY
        ((0 + (keep s l1).length) % 256))).mem a = s.mem a := by
    intro a ha hne
    simp only [set_carry, Machine.setY, Machine.store, setAt, if_neg hne, Nat.add_zero]
    rw [storeBytes_mem_out s2 _ _ a ha, hmem]
  refine ⟨_, heq, ?_, ?_, carry_set_carry _, ?_, hframe, ?_⟩
  · show (0 + (keep s l1).length) % 256 = _
    rw [Nat.zero_add, Nat.mod_eq_of_lt (by omega)]
  · simp [set_carry, Machine.setY, Machine.store, setAt]
  · intro i hi hne
    simp only [set_carry, Machine.setY, Machine.store, setAt, if_neg hne, Nat.add_zero]
    exact storeBytes_mem_in s2 _ _ i hi
  · intro a ha
    unfold inMem at hin
    unfold memSize at ha hin
    exact hframe a (Or.inr (by omega)) (by unfold ESCFLG; omega)

/-- C8, amended, on the line `A`, ESC, `B` with buffer `0x2000`, maximum length
10 and range `0..0xff`. -/
theorem osword_line_cancel_witness :
    ∃ r, OSWORD (lineDemo 0x2000 10 0 0xff true [65, 27, 66]) = .ret r ∧
      r.Y = (keep (lineDemo 0x2000 10 0 0xff true [65, 27, 66]) [65]).length ∧
      r.mem ESCFLG = 0xff ∧ r.carry = true ∧
      (∀ (i : Nat) (hi : i < (keep (lineDemo 0x2000 10 0 0xff true [65, 27, 66]) [65]).length),
        lineBuf (lineDemo 0x2000 10 0 0xff true [65, 27, 66]) + i ≠ ESCFLG →
        r.mem (lineBuf (lineDemo 0x2000 10 0 0xff true [65, 27, 66]) + i)
          = (keep (lineDemo 0x2000 10 0 0xff true [65, 27, 66]) [65])[i]) ∧
      (∀ a, a < lineBuf (lineDemo 0x2000 10 0 0xff true [65, 27, 66]) ∨
          lineBuf (lineDemo 0x2000 10 0 0xff true [65, 27, 66])
            + (keep (lineDemo 0x2000 10 0 0xff true [65, 27, 66]) [65]).length ≤ a →
        a ≠ ESCFLG → r.mem a = (lineDemo 0x2000 10 0 0xff true [65, 27, 66]).mem a) ∧
      (∀ a, memSize ≤ a → r.mem a = (lineDemo 0x2000 10 0 0xff true [65, 27, 66]).mem a) :=
  osword_line_cancel (lineDemo 0x2000 10 0 0xff true [65, 27, 66])
    { Host.blank with charSigned := true, lines := [] } [65, 27, 66] [65] [66] rfl rfl
    (by decide) rfl (by decide) (by decide) (by decide) (by decide) (by decide)
    (by unfold inMem; decide)

/-! ## C9: the range filter and the signedness of `char` -/

/-- C9 fails where plain `char` is signed.  With the range `0x20..0xff` and the
one-byte line `0xe9`, which lies in the range as an unsigned byte, the routine
compares the negative `char` value, drops the byte, and returns the empty line:
`Y = 1` and the carriage return at `buf[0]`.  Where plain `char` is unsigned
the byte is kept: `Y = 2`, `buf[0] = 0xe9`. -/
theorem osword_high_byte_dropped :
    (0x20 ≤ 0xe9 ∧ 0xe9 ≤ 0xff) ∧
    accepted (lineDemo 0x2000 10 0x20 0xff true [0xe9]) [0xe9] = [] ∧
    (∃ r, OSWORD (lineDemo 0x2000 10 0x20 0xff true [0xe9]) = .ret r ∧ r.Y = 1 ∧
      r.mem 0x2000 = 0x0d ∧ r.carry = false) ∧
    (∃ r, OSWORD (lineDemo 0x2000 10 0x20 0xff false [0xe9]) = .ret r ∧ r.Y = 2 ∧
      r.mem 0x2000 = 0xe9 ∧ r.mem 0x2001 = 0x0d ∧ r.carry = false) :=
  ⟨by decide, rfl, ⟨_, rfl, rfl, rfl, rfl⟩, ⟨_, rfl, rfl, rfl, rfl, rfl⟩⟩

/-! ## C10: whole-block save and load -/

theorem fopen_wb (h : Host) (path : List Nat) (hdeny : h.deny path = false) :
    h.fopen path .wb
      = ({ h with files := setFile h.files path (some [])
                  streams := setAt h.streams h.nextStream (some ⟨path, .wb, 0, false⟩)
                  nextStream := h.nextStream + 1 }, some h.nextStream) := by
  simp [Host.fopen, hdeny]

theorem fopen_rb (h : Host) (path data : List Nat) (hdeny : h.deny path = false)
    (hfile : h.files path = some data) :
    h.fopen path .rb
      = ({ h with streams := setAt h.streams h.nextStream (some ⟨path, .rb, 0, false⟩)
                  nextStream := h.nextStream + 1 }, some h.nextStream) := by
  simp [Host.fopen, hdeny, hfile]

theorem write_fresh (h : Host) (f : Nat) (path bytes : List Nat)
    (hs : h.streams f = some ⟨path, .wb, 0, false⟩) (hfile : h.files path = some [])
    (hfull : h.full = false) :
    ((h.write f bytes).1.files path = some bytes ∧ (h.write f bytes).1.deny = h.deny) ∧
      (h.write f bytes).2 = true := by
  simp [Host.write, hs, hfile, hfull, setFile]

/-- The save on a host that opens the path and has room: the routine returns
and the file holds the bytes `mem[a] .. mem[a+len-1]`. -/
theorem osfileSave_ok (s0 : Machine) (fname : List Nat) (a len : Nat)
    (hdeny : s0.host.deny fname = false) (hfull : s0.host.full = false) :
    ∃ s1, osfileSave s0 fname a (a + len) = .ret s1 ∧
      s1.host.files fname = some (bytesAt s0.mem a len) ∧
      s1.host.deny = s0.host.deny ∧ s1.mem = s0.mem := by
  have hnlt : ¬(a + len < a) := by omega
  have hsub : a + len - a = len := by omega
  unfold osfileSave
  rw [fopen_wb s0.host fname hdeny]
  simp only [hnlt, if_false, hsub]
  by_cases hlen : len = 0
  · subst hlen
    refine ⟨_, rfl, ?_, rfl, rfl⟩
    simp [Machine.print, Machine.emit, Host.emit, Host.fclose, setFile, bytesAt]
  · rw [if_neg hlen]
    obtain ⟨⟨hw1, hw2⟩, hw3⟩ := write_fresh
      { s0.host with files := setFile s0.host.files fname (some [])
                     streams := setAt s0.host.streams s0.host.nextStream (some ⟨fname, .wb, 0, false⟩)
                     nextStream := s0.host.nextStream + 1 }
      s0.host.nextStream fname (bytesAt s0.mem a len) (by simp [setAt]) (by simp [setFile]) hfull
    rcases hw : Host.write _ s0.host.nextStream (bytesAt s0.mem a len) with ⟨h1, ok⟩
    rw [hw] at hw1 hw2 hw3
    simp only at hw1 hw2 hw3
    subst hw3
    exact ⟨_, rfl, hw1, hw2, rfl⟩

theorem fgetc_byte (h : Host) (f : Nat) (st : Stream) (data : List Nat) (b : Nat)
    (hs : h.streams f = some st) (hk : st.kind ≠ .wb) (hfile : h.files st.path = some data)
    (hb : data[st.pos]? = some b) :
    h.fgetc f = ({ h with streams := setAt h.streams f (some { st with pos := st.pos + 1 }) },
      (b : Int)) := by
  simp [Host.fgetc, hs, hk, hfile, hb]

theorem fgetc_eof (h : Host) (f : Nat) (st : Stream) (data : List Nat)
    (hs : h.streams f = some st) (hk : st.kind ≠ .wb) (hfile : h.files st.path = some data)
    (hb : data[st.pos]? = none) :
    h.fgetc f = ({ h with streams := setAt h.streams f (some { st with eof := true }) }, -1) := by
  simp [Host.fgetc, hs, hk, hfile, hb]

/-- The load loop stores the bytes the stream still holds, in order, from `a`
on, and nothing else. -/
theorem loadLoop_mem (f : Nat) (data : List Nat) : ∀ (k fuel a : Nat) (s : Machine) (st : Stream),
    s.host.streams f = some st → st.kind ≠ .wb → s.host.files st.path = some data →
    st.pos + k = data.length → k + 1 ≤ fuel →
    (loadLoop f fuel a (s.host.fgetc f).2 { s with host := (s.host.fgetc f).1 }).mem
      = fun x => if a ≤ x ∧ x < a + k then data.getD (st.pos + (x - a)) 0 else s.mem x := by
  intro k
  induction k with
  | zero =>
    intro fuel a s st hs hk hfile hpos hfuel
    obtain ⟨fuel1, rfl⟩ : ∃ m, fuel = m + 1 := ⟨fuel - 1, by omega⟩
    have hb : data[st.pos]? = none := by
      rw [List.getElem?_eq_none_iff]; omega
    rw [fgetc_eof s.host f st data hs hk hfile hb]
    simp only [loadLoop]
    rw [if_neg (by omega)]
    funext x
    rw [if_neg (by omega)]
  | succ k ih =>
    intro fuel a s st hs hk hfile hpos hfuel
    obtain ⟨fuel1, rfl⟩ : ∃ m, fuel = m + 1 := ⟨fuel - 1, by omega⟩
    have hlt : st.pos < data.length := by omega
    have hb : data[st.pos]? = some data[st.pos] := List.getElem?_eq_getElem hlt
    rw [fgetc_byte s.host f st data _ hs hk hfile hb]
    simp only [loadLoop]
    rw [if_pos (Int.natCast_nonneg _)]
    have hrec := ih fuel1 (a + 1)
      (({ s with host := { s.host with
            streams := setAt s.host.streams f (some { st with pos := st.pos + 1 }) } } : Machine).store
        a ((data[st.pos] : Nat) : Int).toNat)
      { st with pos := st.pos + 1 } (by simp [Machine.store, setAt]) hk hfile
      (by simp only; omega) (by omega)
    refine Eq.trans ?_ (hrec.trans ?_)
    · rfl
    · funext x
      simp only [Machine.store, setAt, Int.toNat_ofNat]
      by_cases hxa : x = a
      · subst hxa
        have h1 : ¬(x + 1 ≤ x ∧ x < x + 1 + k) := by omega
        have h2 : x ≤ x ∧ x < x + (k + 1) := by omega
        rw [if_neg h1, if_pos h2, if_pos rfl, Nat.sub_self, Nat.add_zero]
        simp [List.getD_eq_getElem?_getD, List.getElem?_eq_getElem hlt]
      · by_cases hin : a + 1 ≤ x ∧ x < a + 1 + k
        · have h2 : a ≤ x ∧ x < a + (k + 1) := by omega
          have e : st.pos + 1 + (x - (a + 1)) = st.pos + (x - a) := by omega
          rw [if_pos hin, if_pos h2, e]
        · have h2 : ¬(a ≤ x ∧ x < a + (k + 1)) := by omega
          rw [if_neg hin, if_neg h2, if_neg hxa]

/-- The load of an existing file the host opens: the routine returns, the bytes
of the file stand from `a` on, and no other byte of memory is changed. -/
theorem osfileLoad_ok (s0 : Machine) (fname data : List Nat) (a : Nat)
    (hdeny : s0.host.deny fname = false) (hfile : s0.host.files fname = some data) :
    ∃ s3, osfileLoad s0 fname a = .ret s3 ∧
      s3.mem = fun x => if a ≤ x ∧ x < a + data.length then data.getD (x - a) 0 else s0.mem x := by
  unfold osfileLoad
  rw [fopen_rb s0.host fname data hdeny hfile]
  simp only []
  have hm := loadLoop_mem s0.host.nextStream data data.length (data.length + 1) a
    { s0 with host := { s0.host with
        streams := setAt s0.host.streams s0.host.nextStream (some ⟨fname, .rb, 0, false⟩)
        nextStream := s0.host.nextStream + 1 } }
    ⟨fname, .rb, 0, false⟩ (by simp [setAt]) (by simp) hfile (by simp) (le_refl _)
  have hrem : remaining
      { s0.host with
        streams := setAt s0.host.streams s0.host.nextStream (some ⟨fname, .rb, 0, false⟩)
        nextStream := s0.host.nextStream + 1 } s0.host.nextStream = data.length := by
    simp [remaining, setAt, hfile]
  rw [hrem]
  refine ⟨_, rfl, ?_⟩
  refine Eq.trans ?_ (hm.trans ?_)
  · rfl
  · funext x
    simp

theorem OSFILE_save_eq (s : Machine) (n : Nat) (hA : s.A = 0x00)
    (hname : crIndex s.mem (fileNamePtr s) = some n) :
    OSFILE s = osfileSave { s with A := 0 } (fileName s n) (GET16LE s.mem (filePtr s + 10))
      (GET16LE s.mem (filePtr s + 14)) := by
  unfold fileNamePtr filePtr at hname
  simp only [OSFILE, hname, hA, if_true, fileName, fileNamePtr, filePtr]

theorem OSFILE_load_eq (s : Machine) (n : Nat) (hA : s.A = 0xff)
    (hname : crIndex s.mem (fileNamePtr s) = some n) :
    OSFILE s = osfileLoad { s with A := 0 } (fileName s n)
      (if GET16LE s.mem (filePtr s + 6) % 256 ≠ 0 then GET16LE s.mem (filePtr s + 6)
        else GET16LE s.mem (filePtr s + 2)) := by
  unfold fileNamePtr filePtr at hname
  have h0 : ¬(s.A = 0) := by omega
  simp only [OSFILE, hname, hA, fileName, fileNamePtr, filePtr]
  rfl

theorem bytesAt_length (mem : Nat → Nat) (p n : Nat) : (bytesAt mem p n).length = n := by
  simp [bytesAt]

theorem bytesAt_getD (mem : Nat → Nat) (p n i : Nat) (hi : i < n) :
    (bytesAt mem p n).getD i 0 = mem (p + i) := by
  simp [bytesAt, List.getD_eq_getElem?_getD, List.getElem?_eq_getElem, hi]

/-- C10. A whole-block save (`A = 0x00`) with `save = a`, `end = a + len`, the
range inside general RAM, on a host that opens the path and has room, returns;
and on any machine that then has that host, whatever its memory and registers,
a whole-block load (`A = 0xff`) of the same file name with `exec = 0` and
`load = a` returns with every byte of `[a, a+len)` equal to its value at the
time of the save (in `mem` and as `read6502` reads it) and every byte outside
that range as it was before the load. -/
theorem osfile_roundtrip (s : Machine) (n a len : Nat) (hA : s.A = 0x00)
    (hname : crIndex s.mem (fileNamePtr s) = some n)
    (hsave : GET16LE s.mem (filePtr s + 10) = a) (hend : GET16LE s.mem (filePtr s + 14) = a + len)
    (hram : a + len ≤ basic_start ∨ (basic_start + basicSize ≤ a ∧ a + len ≤ mos_start))
    (hdeny : s.host.deny (fileName s n) = false) (hfull : s.host.full = false) :
    ∃ s1, OSFILE s = .ret s1 ∧
      ∀ (s2 : Machine) (n2 : Nat), s2.host = s1.host → s2.A = 0xff →
        crIndex s2.mem (fileNamePtr s2) = some n2 → fileName s2 n2 = fileName s n →
        GET16LE s2.mem (filePtr s2 + 6) = 0 → GET16LE s2.mem (filePtr s2 + 2) = a →
        ∃ s3, OSFILE s2 = .ret s3 ∧
          (∀ i < len, s3.mem (a + i) = s.mem (a + i) ∧
            read6502 s3 (a + i) = read6502 s (a + i)) ∧
          (∀ x, x < a ∨ a + len ≤ x → s3.mem x = s2.mem x) := by
  obtain ⟨s1, hs1, hfile, hden, _⟩ :=
    osfileSave_ok { s with A := 0 } (fileName s n) a len hdeny hfull
  refine ⟨s1, ?_, ?_⟩
  · rw [OSFILE_save_eq s n hA hname, hsave, hend]
    exact hs1
  · intro s2 n2 hhost hA2 hname2 hfn hexec hload
    have hdeny2 : ({ s2 with A := 0 } : Machine).host.deny (fileName s n) = false := by
      show s2.host.deny _ = false
      rw [hhost, hden]
      exact hdeny
    have hfile2 : ({ s2 with A := 0 } : Machine).host.files (fileName s n)
        = some (bytesAt s.mem a len) := by
      show s2.host.files _ = _
      rw [hhost]
      exact hfile
    obtain ⟨s3, hs3, hmem3⟩ := osfileLoad_ok { s2 with A := 0 } (fileName s n)
      (bytesAt s.mem a len) a hdeny2 hfile2
    refine ⟨s3, ?_, ?_, ?_⟩
    · rw [OSFILE_load_eq s2 n2 hA2 hname2, hexec, hload, hfn]
      exact hs3
    · intro i hi
      have hin : a ≤ a + i ∧ a + i < a + (bytesAt s.mem a len).length := by
        rw [bytesAt_length]; omega
      have hm : s3.mem (a + i) = s.mem (a + i) := by
        rw [hmem3]
        simp only [if_pos hin, Nat.add_sub_cancel_left]
        exact bytesAt_getD s.mem a len i hi
      refine ⟨hm, ?_⟩
      unfold basic_start basicSize mos_start at hram
      have h1 : ¬(a + i ≥ basic_start ∧ a + i < basic_start + basicSize) := by
        unfold basic_start basicSize; omega
      have h2 : ¬(a + i ≥ mos_start) := by
        unfold mos_start; omega
      simp only [read6502, if_neg h1, if_neg h2, hm]
    · intro x hx
      have hout : ¬(a ≤ x ∧ x < a + (bytesAt s.mem a len).length) := by
        rw [bytesAt_length]; omega
      rw [hmem3]
      simp only [if_neg hout]

theorem saveDemo_name : crIndex saveDemo.mem (fileNamePtr saveDemo) = some 1 := by
  apply crIndex_eq
  · decide
  · decide
  · intro i hi
    obtain rfl : i = 0 := by omega
    decide

theorem loadDemo_name (h : Host) : crIndex (loadDemo h).mem (fileNamePtr (loadDemo h)) = some 1 := by
  show crIndex (loadDemo Host.blank).mem (fileNamePtr (loadDemo Host.blank)) = some 1
  apply crIndex_eq
  · decide
  · decide
  · intro i hi
    obtain rfl : i = 0 := by omega
    decide

theorem loadDemo_block (h : Host) :
    fileName (loadDemo h) 1 = fileName saveDemo 1 ∧
    GET16LE (loadDemo h).mem (filePtr (loadDemo h) + 6) = 0 ∧
    GET16LE (loadDemo h).mem (filePtr (loadDemo h) + 2) = 0x2000 := by
  show fileName (loadDemo Host.blank) 1 = fileName saveDemo 1 ∧
    GET16LE (loadDemo Host.blank).mem (filePtr (loadDemo Host.blank) + 6) = 0 ∧
    GET16LE (loadDemo Host.blank).mem (filePtr (loadDemo Host.blank) + 2) = 0x2000
  decide

/-- C10 on `saveDemo` and `loadDemo`: three bytes are saved from `0x2000`, two
of them are overwritten, and the load brings them back. -/
theorem osfile_roundtrip_witness :
    ∃ s1, OSFILE saveDemo = .ret s1 ∧
      ∃ s3, OSFILE (loadDemo s1.host) = .ret s3 ∧
        (∀ i < 3, s3.mem (0x2000 + i) = saveDemo.mem (0x2000 + i) ∧
          read6502 s3 (0x2000 + i) = read6502 saveDemo (0x2000 + i)) ∧
        (∀ x, x < 0x2000 ∨ 0x2000 + 3 ≤ x → s3.mem x = (loadDemo s1.host).mem x) := by
  obtain ⟨s1, h1, h2⟩ := osfile_roundtrip saveDemo 1 0x2000 3 rfl saveDemo_name (by decide)
    (by decide) (Or.inl (by decide)) rfl rfl
  exact ⟨s1, h1, h2 (loadDemo s1.host) 1 rfl rfl (loadDemo_name _) (loadDemo_block _).1
    (loadDemo_block _).2.1 (loadDemo_block _).2.2⟩

/-! ## C11: the range of the whole-block save -/

theorem OSFILE_save_ok (s : Machine) (n a len : Nat) (hA : s.A = 0x00)
    (hname : crIndex s.mem (fileNamePtr s) = some n) (hsave : pbSave s = a)
    (hend : pbEnd s = a + len) (hdeny : s.host.deny (fileName s n) = false)
    (hfull : s.host.full = false) :
    ∃ s1, OSFILE s = .ret s1 ∧ s1.host.files (fileName s n) = some (bytesAt s.mem a len) ∧
      s1.mem = s.mem := by
  obtain ⟨s1, hs1, hfile, _, hmem⟩ :=
    osfileSave_ok { s with A := 0 } (fileName s n) a len hdeny hfull
  refine ⟨s1, ?_, hfile, hmem⟩
  unfold pbSave at hsave
  unfold pbEnd at hend
  rw [OSFILE_save_eq s n hA hname, hsave, hend]
  exact hs1

/-- C11, amended. A whole-block save with `save <= end` on a host that opens
the path and has room returns and leaves a file of exactly `end - save` bytes
whose `i`-th byte is `mem[save+i]`, the byte of the RAM array: that is the byte
`read6502` returns for `save+i` outside the two ROM windows; the byte at `end`
is not part of the file. -/
theorem osfile_save_range (s : Machine) (n : Nat) (hA : s.A = 0x00)
    (hname : crIndex s.mem (fileNamePtr s) = some n) (hle : pbSave s ≤ pbEnd s)
    (hdeny : s.host.deny (fileName s n) = false) (hfull : s.host.full = false) :
    ∃ s1 data, OSFILE s = .ret s1 ∧ s1.host.files (fileName s n) = some data ∧
      data.length = pbEnd s - pbSave s ∧
      (∀ i, i < pbEnd s - pbSave s → data[i]? = some (s.mem (pbSave s + i))) ∧
      (∀ i, i < pbEnd s - pbSave s → ¬inBasic (pbSave s + i) → ¬inMos (pbSave s + i) →
        pbSave s + i < 65536 → data[i]? = some (read6502 s (pbSave s + i))) := by
  obtain ⟨s1, h1, h2, _⟩ := OSFILE_save_ok s n (pbSave s) (pbEnd s - pbSave s) hA hname rfl
    (by omega) hdeny hfull
  have hget : ∀ i, i < pbEnd s - pbSave s →
      (bytesAt s.mem (pbSave s) (pbEnd s - pbSave s))[i]? = some (s.mem (pbSave s + i)) := by
    intro i hi
    simp [bytesAt, List.getElem?_eq_getElem, hi]
  refine ⟨s1, _, h1, h2, bytesAt_length _ _ _, hget, ?_⟩
  intro i hi hb hm hlt
  rw [hget i hi]
  have h3 : ¬(pbSave s + i ≥ basic_start ∧ pbSave s + i < basic_start + basicSize) := by
    unfold inBasic at hb
    unfold basic_start basicSize
    omega
  have h4 : ¬(pbSave s + i ≥ mos_start) := by
    unfold inMos at hm
    unfold mos_start
    omega
  simp only [read6502, if_neg h3, if_neg h4]

theorem romSaveDemo_name : crIndex romSaveDemo.mem (fileNamePtr romSaveDemo) = some 1 := by
  apply crIndex_eq
  · decide
  · decide
  · intro i hi
    obtain rfl : i = 0 := by omega
    decide

/-- C11 on `saveDemo`: the file holds the three bytes from `0x2000`. -/
theorem osfile_save_range_witness :
    ∃ s1 data, OSFILE saveDemo = .ret s1 ∧ s1.host.files (fileName saveDemo 1) = some data ∧
      data.length = pbEnd saveDemo - pbSave saveDemo ∧
      (∀ i, i < pbEnd saveDemo - pbSave saveDemo →
        data[i]? = some (saveDemo.mem (pbSave saveDemo + i))) ∧
      (∀ i, i < pbEnd saveDemo - pbSave saveDemo → ¬inBasic (pbSave saveDemo + i) →
        ¬inMos (pbSave saveDemo + i) → pbSave saveDemo + i < 65536 →
        data[i]? = some (read6502 saveDemo (pbSave saveDemo + i))) :=
  osfile_save_range saveDemo 1 rfl saveDemo_name (by decide) rfl rfl

/-- C11 as stated fails in a ROM window: saving the one byte at `0xB800`, where
`read6502` returns the ROM byte `0x4c`, writes the RAM byte 0 underneath. -/
theorem osfile_save_range_counterexample :
    ∃ s1, OSFILE romSaveDemo = .ret s1 ∧ pbSave romSaveDemo = 0xb800 ∧ pbEnd romSaveDemo = 0xb801 ∧
      s1.host.files (fileName romSaveDemo 1) = some [0] ∧ read6502 romSaveDemo 0xb800 = 0x4c := by
  obtain ⟨s1, h1, h2, _⟩ := OSFILE_save_ok romSaveDemo 1 0xb800 1 rfl romSaveDemo_name
    (by decide) (by decide) rfl rfl
  exact ⟨s1, h1, by decide, by decide, h2.trans (by decide), by decide⟩

/-! ## C12: the destination of the whole-block load -/

theorem loadLoop_A (f : Nat) : ∀ (fuel a : Nat) (v : Int) (s : Machine),
    (loadLoop f fuel a v s).A = s.A := by
  intro fuel
  induction fuel with
  | zero => intro a v s; rfl
  | succ n ih =>
    intro a v s
    simp only [loadLoop]
    split
    · rw [ih]; rfl
    · rfl

theorem osfileLoad_A (s r : Machine) (fn : List Nat) (a : Nat)
    (h : osfileLoad s fn a = .ret r) : r.A = s.A := by
  unfold osfileLoad at h
  simp only [] at h
  repeat' split at h
  all_goals cases h
  · rfl
  · exact (loadLoop_A _ _ _ _ _).trans rfl

/-- A whole-block load of an existing file the host opens: the routine returns
with `A = 0`, the bytes of the file stand from the destination on, and no other
byte of memory is changed; the destination is `exec` when the low byte of
`exec` is not zero, and `load` otherwise. -/
theorem OSFILE_load_ok (s : Machine) (n : Nat) (data : List Nat) (hA : s.A = 0xff)
    (hname : crIndex s.mem (fileNamePtr s) = some n)
    (hdeny : s.host.deny (fileName s n) = false)
    (hfile : s.host.files (fileName s n) = some data) :
    ∃ r, OSFILE s = .ret r ∧ r.A = 0 ∧
      r.mem = fun x =>
        if (if pbExec s % 256 ≠ 0 then pbExec s else pbLoad s) ≤ x ∧
            x < (if pbExec s % 256 ≠ 0 then pbExec s else pbLoad s) + data.length then
          data.getD (x - (if pbExec s % 256 ≠ 0 then pbExec s else pbLoad s)) 0
        else s.mem x := by
  obtain ⟨r, hr, hmem⟩ := osfileLoad_ok { s with A := 0 } (fileName s n) data
    (if pbExec s % 256 ≠ 0 then pbExec s else pbLoad s) hdeny hfile
  refine ⟨r, ?_, osfileLoad_A _ _ _ _ hr, hmem⟩
  rw [OSFILE_load_eq s n hA hname]
  exact hr

/-- C12, amended. A whole-block load of an existing file the host opens, the
file no longer than the room from the destination to the end of `mem`, stores
byte `i` of the file at `exec + i` when the low byte of the 16-bit exec address
is not zero, and at `load + i` when the low byte of the exec address is zero
(whatever its high byte); no other byte of memory is changed, and nothing is
written past the end of `mem`. -/
theorem osfile_load_dest (s : Machine) (n : Nat) (data : List Nat) (hA : s.A = 0xff)
    (hname : crIndex s.mem (fileNamePtr s) = some n)
    (hdeny : s.host.deny (fileName s n) = false)
    (hfile : s.host.files (fileName s n) = some data)
    (hfit : inMem (if pbExec s % 256 ≠ 0 then pbExec s else pbLoad s) data.length) :
    ∃ r, OSFILE s = .ret r ∧
      (pbExec s % 256 ≠ 0 →
        (∀ i, i < data.length → data[i]? = some (r.mem (pbExec s + i))) ∧
        (∀ x, x < pbExec s ∨ pbExec s + data.length ≤ x → r.mem x = s.mem x)) ∧
      (pbExec s % 256 = 0 →
        (∀ i, i < data.length → data[i]? = some (r.mem (pbLoad s + i))) ∧
        (∀ x, x < pbLoad s ∨ pbLoad s + data.length ≤ x → r.mem x = s.mem x)) ∧
      (∀ x, memSize ≤ x → r.mem x = s.mem x) := by
  obtain ⟨r, hr, _, hmem⟩ := OSFILE_load_ok s n data hA hname hdeny hfile
  have key : ∀ d, (r.mem = fun x => if d ≤ x ∧ x < d + data.length then data.getD (x - d) 0
        else s.mem x) →
      (∀ i, i < data.length → data[i]? = some (r.mem (d + i))) ∧
      (∀ x, x < d ∨ d + data.length ≤ x → r.mem x = s.mem x) := by
    intro d hd
    constructor
    · intro i hi
      have hin : d ≤ d + i ∧ d + i < d + data.length := by omega
      rw [hd]
      simp only [if_pos hin, Nat.add_sub_cancel_left]
      simp [List.getD_eq_getElem?_getD, List.getElem?_eq_getElem hi]
    · intro x hx
      have hout : ¬(d ≤ x ∧ x < d + data.length) := by omega
      rw [hd]
      simp only [if_neg hout]
  refine ⟨r, hr, ?_, ?_, ?_⟩
  · intro he
    apply key
    rw [hmem]
    simp only [if_pos he]
  · intro he
    apply key
    rw [hmem]
    have : ¬(pbExec s % 256 ≠ 0) := by omega
    simp only [if_neg this]
  · intro x hx
    unfold inMem at hfit
    exact (key _ hmem).2 x (Or.inr (by omega))

theorem execLoadDemo_name : crIndex execLoadDemo.mem (fileNamePtr execLoadDemo) = some 1 := by
  apply crIndex_eq
  · decide
  · decide
  · intro i hi
    obtain rfl : i = 0 := by omega
    decide

/-- C12, amended, on `execLoadDemo`, where `exec = 0x1200` has a zero low byte:
the file goes to `load = 0x2000`. -/
theorem osfile_load_dest_witness :
    ∃ r, OSFILE execLoadDemo = .ret r ∧
      (∀ i, i < [7, 8].length → [7, 8][i]? = some (r.mem (pbLoad execLoadDemo + i))) ∧
      (∀ x, x < pbLoad execLoadDemo ∨ pbLoad execLoadDemo + [7, 8].length ≤ x →
        r.mem x = execLoadDemo.mem x) ∧
      (∀ x, memSize ≤ x → r.mem x = execLoadDemo.mem x) := by
  obtain ⟨r, hr, _, h2, h3⟩ := osfile_load_dest execLoadDemo 1 [7, 8] rfl execLoadDemo_name rfl rfl
    (by unfold inMem; decide)
  exact ⟨r, hr, (h2 (by decide)).1, (h2 (by decide)).2, h3⟩

/-- C12 as stated fails when the exec address is not zero but its low byte is:
with `exec = 0x1200` and `load = 0x2000` the file 7, 8 is stored at `0x2000`
and nothing is stored at `0x1200`. -/
theorem osfile_load_dest_counterexample :
    pbExec execLoadDemo = 0x1200 ∧ pbLoad execLoadDemo = 0x2000 ∧
    ∃ r, OSFILE execLoadDemo = .ret r ∧ r.mem 0x2000 = 7 ∧ r.mem 0x2001 = 8 ∧
      r.mem 0x1200 = 0 ∧ r.mem 0x1201 = 0 :=
  ⟨by decide, by decide, _, rfl, rfl, rfl, rfl, rfl⟩

/-! ## C13: the result register of the whole-block calls -/

/-- C13 fails for every successful load: `OSFILE` `A=0xff` on a host that holds
the file 7, 8 opens it, reads both bytes to `0x2000` and returns with `A = 0`,
the value the routine also returns when the open fails; the save of `saveDemo`
returns `A = 1`. -/
theorem osfile_load_returns_zero :
    (∃ r, OSFILE (loadDemo (fileHost [7, 8])) = .ret r ∧ r.mem 0x2000 = 7 ∧ r.mem 0x2001 = 8 ∧
      r.host.log = [] ∧ r.A = 0) ∧
    (∃ r, OSFILE (loadDemo Host.blank) = .ret r ∧
      r.host.log = [.print (.unableToOpenFile [70]), .flush] ∧ r.A = 0) ∧
    (∃ r, OSFILE saveDemo = .ret r ∧ r.host.log = [] ∧ r.A = 1) :=
  ⟨⟨_, rfl, rfl, rfl, rfl, rfl⟩, ⟨_, rfl, rfl, rfl⟩, ⟨_, rfl, rfl, rfl⟩⟩

/-! ## C14: the clock -/

/-- C14 fails when byte 3 of the value is `0x80` or more: the first four bytes
are added in `int`, so the sum is negative and is sign-extended when the fifth
byte is added in `uint64_t`.  Writing `0x0080000000` and reading the clock back
at the same host time gives the bytes 00 00 00 80 ff. -/
theorem osword_clock_sign_extended :
    clockDemo.mem 0x3003 = 0x80 ∧ clockDemo.mem 0x3004 = 0 ∧
    ∃ s1 s2, OSWORD clockDemo = .ret s1 ∧ OSWORD { s1 with A := 0x01 } = .ret s2 ∧
      s2.mem 0x3000 = 0 ∧ s2.mem 0x3001 = 0 ∧ s2.mem 0x3002 = 0 ∧ s2.mem 0x3003 = 0x80 ∧
      s2.mem 0x3004 = 0xff :=
  ⟨rfl, rfl, _, _, rfl, rfl, rfl, rfl, rfl, rfl, rfl⟩
/-! ## C17: the address space -/

/-- C17. For a 16-bit address `a` and a byte `v`: after `write6502(a, v)`,
`read6502(a)` is `v` when `a` lies outside both ROM windows, and is the byte of
the unchanged ROM image when `a` lies inside one; `read6502(b)` is unchanged
for every other address `b`; and no address lies in both windows. -/
theorem overlay_read_write (s : Machine) (a v : Nat) (ha : a < 65536) :
    (¬inBasic a → ¬inMos a → read6502 (write6502 s a v) a = v) ∧
    (inBasic a → read6502 (write6502 s a v) a = s.basic (a - 0xb800) ∧
      read6502 (write6502 s a v) a = read6502 s a) ∧
    (inMos a → read6502 (write6502 s a v) a = s.mos (a - 0xff00) ∧
      read6502 (write6502 s a v) a = read6502 s a) ∧
    ((write6502 s a v).basic = s.basic ∧ (write6502 s a v).mos = s.mos) ∧
    (∀ b, b ≠ a → read6502 (write6502 s a v) b = read6502 s b) ∧
    (∀ x, ¬(inBasic x ∧ inMos x)) := by
  refine ⟨?_, ?_, ?_, ⟨rfl, rfl⟩, ?_, ?_⟩
  · intro hb hm
    have h1 : ¬(a ≥ basic_start ∧ a < basic_start + basicSize) := by
      unfold inBasic at hb
      unfold basic_start basicSize
      omega
    have h2 : ¬(a ≥ mos_start) := by
      unfold inMos at hm
      unfold mos_start
      omega
    simp [read6502, write6502, Machine.store, setAt, h1, h2]
  · intro hb
    have h1 : a ≥ basic_start ∧ a < basic_start + basicSize := by
      unfold inBasic at hb
      unfold basic_start basicSize
      omega
    constructor
    · simp only [read6502, write6502, Machine.store, if_pos h1]
      rfl
    · simp only [read6502, write6502, Machine.store, if_pos h1]
  · intro hm
    have h1 : ¬(a ≥ basic_start ∧ a < basic_start + basicSize) := by
      unfold inMos at hm
      unfold basic_start basicSize
      omega
    have h2 : a ≥ mos_start := by
      unfold inMos at hm
      unfold mos_start
      omega
    constructor
    · simp only [read6502, write6502, Machine.store, if_neg h1, if_pos h2]
      rfl
    · simp only [read6502, write6502, Machine.store, if_neg h1, if_pos h2]
  · intro b hb
    simp only [read6502, write6502, Machine.store, setAt, if_neg hb]
  · intro x hx
    unfold inBasic inMos at hx
    omega

/-- C17 at a RAM address, a BASIC ROM address and a MOS ROM address. -/
theorem overlay_read_write_witness :
    read6502 (write6502 Machine.blank 0x1234 0x56) 0x1234 = 0x56 ∧
    read6502 (write6502 Machine.blank 0xc000 0x56) 0xc000 = Machine.blank.basic (0xc000 - 0xb800) ∧
    read6502 (write6502 Machine.blank 0xffee 0x56) 0xffee = Machine.blank.mos (0xffee - 0xff00) ∧
    read6502 (write6502 Machine.blank 0x1234 0x56) 0x1235 = read6502 Machine.blank 0x1235 :=
  ⟨(overlay_read_write Machine.blank 0x1234 0x56 (by decide)).1
      (by unfold inBasic; omega) (by unfold inMos; omega),
   ((overlay_read_write Machine.blank 0xc000 0x56 (by decide)).2.1 (by unfold inBasic; omega)).1,
   ((overlay_read_write Machine.blank 0xffee 0x56 (by decide)).2.2.1 (by unfold inMos; omega)).1,
   (overlay_read_write Machine.blank 0x1234 0x56 (by decide)).2.2.2.2.1 0x1235 (by decide)⟩

/-! ## C18: position and extent on an invalid handle -/

/-- C18, amended. `OSARGS` with a nonzero handle `Y <= 6` that names an empty
slot and `A` in {0, 1, 2} prints `Channel` once and leaves the file store, the
streams and the handle table as they were; it reads no entry outside the slots
`0..5` of the table: on every table that has the same six slots the routine
does the same; with `A = 1` it leaves memory unchanged, with `A = 0` or `A = 2`
it stores the four bytes of the value 0 at `mem[X] .. mem[X+3]` and changes no
other byte. -/
theorem osargs_empty_slot (s : Machine) (hY : s.Y ≠ 0) (hY6 : s.Y ≤ NHANDLES)
    (hempty : s.handles (s.Y - 1) = none) (hA : s.A = 0 ∨ s.A = 1 ∨ s.A = 2) :
    ∃ r, OSARGS s = .ret r ∧ r.host.log = s.host.log ++ [.print .channel] ∧
      r.host.files = s.host.files ∧ r.host.streams = s.host.streams ∧
      r.handles = s.handles ∧
      (∀ t : Nat → Option Nat, (∀ i, i < NHANDLES → t i = s.handles i) →
        OSARGS { s with handles := t } = .ret { r with handles := t }) ∧
      (s.A = 1 → r.mem = s.mem) ∧
      (s.A ≠ 1 → (∀ i, i < 4 → r.mem (s.X + i) = 0) ∧
        (∀ x, x < s.X ∨ s.X + 4 ≤ x → r.mem x = s.mem x)) := by
  have htab : ∀ t : Nat → Option Nat, (∀ i, i < NHANDLES → t i = s.handles i) →
      t (s.Y - 1) = none := by
    intro t ht
    rw [ht (s.Y - 1) (by unfold NHANDLES at hY6 ⊢; omega)]
    exact hempty
  rcases hA with h0 | h1 | h2
  · have hne : s.A ≠ 1 := by omega
    refine ⟨storeLong (s.print .channel) s.X 0, ?_, rfl, rfl, rfl, rfl, ?_,
      fun h => absurd h hne, fun _ => ⟨?_, ?_⟩⟩
    · simp [OSARGS, hY, h0, hempty]
    · intro t ht
      simp [OSARGS, hY, h0, htab t ht, storeLong, Machine.store, Machine.print, Machine.emit]
    · intro i hi
      have : i = 0 ∨ i = 1 ∨ i = 2 ∨ i = 3 := by omega
      rcases this with rfl | rfl | rfl | rfl <;> simp [storeLong, Machine.store, setAt, Machine.print, Machine.emit]
    · intro x hx
      have h0' : x ≠ s.X := by omega
      have h1' : x ≠ s.X + 1 := by omega
      have h2' : x ≠ s.X + 2 := by omega
      have h3' : x ≠ s.X + 3 := by omega
      simp [storeLong, Machine.store, setAt, Machine.print, Machine.emit, h0', h1', h2', h3']
  · refine ⟨s.print .channel, ?_, rfl, rfl, rfl, rfl, ?_, fun _ => rfl, fun h => absurd h1 h⟩
    · simp [OSARGS, hY, h1, hempty]
    · intro t ht
      simp [OSARGS, hY, h1, htab t ht, storeLong, Machine.store, Machine.print, Machine.emit]
  · have hne : s.A ≠ 1 := by omega
    refine ⟨storeLong (s.print .channel) s.X 0, ?_, rfl, rfl, rfl, rfl, ?_,
      fun h => absurd h hne, fun _ => ⟨?_, ?_⟩⟩
    · simp [OSARGS, hY, h2, hempty]
    · intro t ht
      simp [OSARGS, hY, h2, htab t ht, storeLong, Machine.store, Machine.print, Machine.emit]
    · intro i hi
      have : i = 0 ∨ i = 1 ∨ i = 2 ∨ i = 3 := by omega
      rcases this with rfl | rfl | rfl | rfl <;> simp [storeLong, Machine.store, setAt, Machine.print, Machine.emit]
    · intro x hx
      have h0' : x ≠ s.X := by omega
      have h1' : x ≠ s.X + 1 := by omega
      have h2' : x ≠ s.X + 2 := by omega
      have h3' : x ≠ s.X + 3 := by omega
      simp [storeLong, Machine.store, setAt, Machine.print, Machine.emit, h0', h1', h2', h3']

/-- C18, amended, on the empty slot of handle 1 with `A = 1` and on the empty
slot of handle 6 with `A = 2`. -/
theorem osargs_empty_slot_witness :
    (∃ r, OSARGS (argsDemo 1 1) = .ret r ∧
      r.host.log = (argsDemo 1 1).host.log ++ [.print .channel] ∧
      r.host.files = (argsDemo 1 1).host.files ∧ r.host.streams = (argsDemo 1 1).host.streams ∧
      r.handles = (argsDemo 1 1).handles ∧ r.mem = (argsDemo 1 1).mem) ∧
    (∃ r, OSARGS (argsDemo 2 6) = .ret r ∧
      r.host.log = (argsDemo 2 6).host.log ++ [.print .channel] ∧
      (∀ i, i < 4 → r.mem ((argsDemo 2 6).X + i) = 0) ∧
      (∀ x, x < (argsDemo 2 6).X ∨ (argsDemo 2 6).X + 4 ≤ x → r.mem x = (argsDemo 2 6).mem x)) := by
  obtain ⟨r, h1, h2, h3, h4, h5, _, h6, _⟩ :=
    osargs_empty_slot (argsDemo 1 1) (by decide) (by decide) rfl (Or.inr (Or.inl rfl))
  obtain ⟨r2, g1, g2, _, _, _, _, _, g7⟩ :=
    osargs_empty_slot (argsDemo 2 6) (by decide) (by decide) rfl (Or.inr (Or.inr rfl))
  exact ⟨⟨r, h1, h2, h3, h4, h5, h6 rfl⟩, ⟨r2, g1, g2, (g7 (by decide)).1, (g7 (by decide)).2⟩⟩

/-- C18 as stated fails on an empty slot: with `A = 0` and the empty slot of
handle 1 the routine prints `Channel` and still stores its result, the value 0,
over the bytes 5, 6, 7, 8 at `mem[X] .. mem[X+3]`. -/
theorem osargs_invalid_handle_counterexample :
    (argsDemo 0 1).Y = 1 ∧ (argsDemo 0 1).handles 0 = none ∧
    (argsDemo 0 1).mem 0x70 = 5 ∧ (argsDemo 0 1).mem 0x71 = 6 ∧
    (argsDemo 0 1).mem 0x72 = 7 ∧ (argsDemo 0 1).mem 0x73 = 8 ∧
    ∃ r, OSARGS (argsDemo 0 1) = .ret r ∧ r.host.log = [.print .channel] ∧
      r.mem 0x70 = 0 ∧ r.mem 0x71 = 0 ∧ r.mem 0x72 = 0 ∧ r.mem 0x73 = 0 :=
  ⟨rfl, rfl, rfl, rfl, rfl, rfl, _, rfl, rfl, rfl, rfl, rfl, rfl⟩

/-! ## C19: a failed open -/

/-- C19 fails on guest memory: an open request ends the name with
`mem[ptr+i] = 0`, so the carriage return after the name is overwritten with 0
before the open is tried.  With all six slots taken, and with a file the host
cannot open, the call returns `A = 0` and leaves the table as it was, and the
byte at `0x1001` has changed from `0x0d` to 0. -/
theorem osfind_failed_open_writes_memory :
    (fullOpenDemo.mem 0x1001 = 0x0d ∧
      ∃ r, OSFIND fullOpenDemo = .ret r ∧ r.A = 0 ∧
        r.host.log = [.print .tooManyOpenFiles] ∧
        (∀ i, i < 6 → r.handles i = fullOpenDemo.handles i) ∧ r.mem 0x1001 = 0) ∧
    (missingOpenDemo.mem 0x1001 = 0x0d ∧
      ∃ r, OSFIND missingOpenDemo = .ret r ∧ r.A = 0 ∧
        r.host.log = [.print (.unableToOpenFile [70])] ∧
        (∀ i, i < 6 → r.handles i = missingOpenDemo.handles i) ∧ r.mem 0x1001 = 0) :=
  ⟨⟨rfl, _, rfl, rfl, rfl, fun _ _ => rfl, rfl⟩, ⟨rfl, _, rfl, rfl, rfl, fun _ _ => rfl, rfl⟩⟩

/-! ## C20: an unrecognised `OSBYTE` -/

/-- C20 fails for every `A` that `OSBYTE` does not implement: in the `default`
case the `break` stands before `exit(1)`, so the routine prints the diagnostic
and returns to the guest.  Here `A = 0x80`, which shares the `default` case, and
`A = 0x00`. -/
theorem osbyte_unhandled_returns :
    OSBYTE { Machine.blank with A := 0x80, X := 1, Y := 2 }
      = .ret (({ Machine.blank with A := 0x80, X := 1, Y := 2 } : Machine).print
          (.unhandledOSBYTE 0x80 1 2)) ∧
    OSBYTE { Machine.blank with A := 0x00, X := 1, Y := 2 }
      = .ret (({ Machine.blank with A := 0x00, X := 1, Y := 2 } : Machine).print
          (.unhandledOSBYTE 0x00 1 2)) ∧
    trap { Machine.blank with A := 0x80, X := 1, Y := 2, PC := 0xfff4 }
      = .ret { (({ Machine.blank with A := 0x80, X := 1, Y := 2, PC := 0xfff4 } : Machine).print
          (.unhandledOSBYTE 0x80 1 2)) with PC := 0xfff5 } :=
  ⟨rfl, rfl, rfl⟩

/-! ## The command interpreter: parsing -/

theorem dropWhile_spaces (ws rest : List Nat) (hws : Spaces ws)
    (hrest : ∀ c q, rest = c :: q → isspace c = false) :
    (ws ++ rest).dropWhile isspace = rest := by
  induction ws with
  | nil =>
    cases rest with
    | nil => rfl
    | cons c q =>
      have := hrest c q rfl
      simp [List.dropWhile_cons, this]
  | cons w ws ih =>
    have hw : isspace w = true := hws w (List.mem_cons_self _ _)
    simp only [List.cons_append, List.dropWhile_cons, hw, if_true]
    exact ih (fun c hc => hws c (List.mem_cons_of_mem _ hc))

theorem dropWhile_all_spaces (ws : List Nat) (hws : Spaces ws) : ws.dropWhile isspace = [] := by
  have := dropWhile_spaces ws [] hws (fun c q h => by cases h)
  simpa using this

theorem takeWhile_name (name p : List Nat) (h : 34 ∉ name) :
    (name ++ 34 :: p).takeWhile (fun b => b != 34) = name := by
  induction name with
  | nil => simp
  | cons c cs ih =>
    have hc : c ≠ 34 := fun e => h (e ▸ List.mem_cons_self _ _)
    have hcs : 34 ∉ cs := fun e => h (List.mem_cons_of_mem _ e)
    simp [List.takeWhile_cons, hc, ih hcs]

theorem dropWhile_name (name p : List Nat) (h : 34 ∉ name) :
    (name ++ 34 :: p).dropWhile (fun b => b != 34) = 34 :: p := by
  induction name with
  | nil => simp
  | cons c cs ih =>
    have hc : c ≠ 34 := fun e => h (e ▸ List.mem_cons_self _ _)
    have hcs : 34 ∉ cs := fun e => h (List.mem_cons_of_mem _ e)
    simp [List.dropWhile_cons, hc, ih hcs]

theorem dropWhile_no_quote (name : List Nat) (h : 34 ∉ name) :
    name.dropWhile (fun b => b != 34) = [] := by
  induction name with
  | nil => rfl
  | cons c cs ih =>
    have hc : c ≠ 34 := fun e => h (e ▸ List.mem_cons_self _ _)
    have hcs : 34 ∉ cs := fun e => h (List.mem_cons_of_mem _ e)
    simp [List.dropWhile_cons, hc, ih hcs]

theorem isspace_cases (c : Nat) (h : isspace c = true) : c = 32 ∨ (9 ≤ c ∧ c ≤ 13) := by
  simp only [isspace, Bool.or_eq_true, decide_eq_true_eq, Bool.and_eq_true] at h
  omega

theorem hexVal_space (c : Nat) (h : isspace c = true) : (hexVal c).isSome = false := by
  have := isspace_cases c h
  unfold hexVal
  split_ifs <;> first | omega | rfl

/-- The name part of `starloadsave`: leading white space, the quoted name, and
then the addresses. -/
theorem starloadsave_name (s : Machine) (ws name p1 : List Nat) (save : Bool) (hws : Spaces ws)
    (hname : 34 ∉ name) :
    starloadsave s (ws ++ 34 :: (name ++ 34 :: p1)) save = parseAddrs s name p1 save := by
  have h1 : (ws ++ 34 :: (name ++ 34 :: p1)).dropWhile isspace = 34 :: (name ++ 34 :: p1) :=
    dropWhile_spaces ws _ hws (fun c q h => by
      cases h
      decide)
  simp only [starloadsave, h1, takeWhile_name name p1 hname, dropWhile_name name p1 hname]
  simp
theorem strtolSign_append (t r : List Nat) (ht : t ≠ []) :
    strtolSign (t ++ r) = ((strtolSign t).1, (strtolSign t).2 ++ r) := by
  cases t with
  | nil => exact absurd rfl ht
  | cons c t1 =>
    simp only [List.cons_append, strtolSign]
    split_ifs <;> rfl

theorem strtolSign_mem (t : List Nat) (c : Nat) (h : c ∈ (strtolSign t).2) : c ∈ t := by
  cases t with
  | nil => simp [strtolSign] at h
  | cons d t1 =>
    simp only [strtolSign] at h
    split_ifs at h
    · exact List.mem_cons_of_mem _ h
    · exact List.mem_cons_of_mem _ h
    · exact h

theorem strtolPrefix_mem (u : List Nat) (c : Nat) (h : c ∈ strtolPrefix u) : c ∈ u := by
  unfold strtolPrefix at h
  split at h
  · split_ifs at h
    · exact List.mem_cons_of_mem _ (List.mem_cons_of_mem _ h)
    · exact h
  · exact h

theorem strtolPrefix_append (u r : List Nat) (hr : EndsToken r) :
    strtolPrefix (u ++ r) = strtolPrefix u ++ r := by
  have hsp : ∀ c q, r = c :: q → (hexVal c).isSome = false ∧ c ≠ 48 ∧ c ≠ 120 ∧ c ≠ 88 := by
    intro c q h
    have h1 := hr c q h
    have h2 := isspace_cases c h1
    exact ⟨hexVal_space c h1, by omega, by omega, by omega⟩
  match u, r with
  | [], [] => rfl
  | [], [_] => rfl
  | [], [_, _] => rfl
  | [], c :: x :: d :: q =>
    have := hsp c _ rfl
    simp [strtolPrefix, this.2.1]
  | [_], [] => rfl
  | [_], [_] => rfl
  | [a], c :: d :: q =>
    have := hsp c _ rfl
    simp [strtolPrefix, this.2.2.1, this.2.2.2]
  | [_, _], [] => rfl
  | [a, b], c :: q =>
    have := hsp c _ rfl
    simp [strtolPrefix, this.1]
  | a :: b :: d :: u1, r =>
    simp only [List.cons_append, strtolPrefix]
    split_ifs <;> rfl

theorem takeWhile_hex_append (w r : List Nat) (hr : EndsToken r) :
    (w ++ r).takeWhile (fun c => (hexVal c).isSome) = w.takeWhile (fun c => (hexVal c).isSome) := by
  induction w with
  | nil =>
    cases r with
    | nil => rfl
    | cons c q =>
      have := hexVal_space c (hr c q rfl)
      simp [List.takeWhile_cons, this]
  | cons c w ih =>
    simp only [List.cons_append, List.takeWhile_cons, ih]

/-- `strtol` on a token followed by nothing or by white space. -/
theorem strtol16_token (t r : List Nat) (ht : Token t) (hr : EndsToken r) :
    strtol16 (t ++ r) =
      if ((strtolPrefix (strtolSign t).2).takeWhile (fun c => (hexVal c).isSome)).isEmpty then
        (0, t ++ r)
      else
        (strtolValue (strtolSign t).1
            ((strtolPrefix (strtolSign t).2).takeWhile (fun c => (hexVal c).isSome)),
          (strtolPrefix (strtolSign t).2).drop
            ((strtolPrefix (strtolSign t).2).takeWhile (fun c => (hexVal c).isSome)).length ++ r) := by
  have hq : (t ++ r).dropWhile isspace = t ++ r := by
    obtain ⟨c, t1, rfl⟩ := List.exists_cons_of_ne_nil ht.1
    have hc := ht.2 c (List.mem_cons_self _ _)
    simp [List.dropWhile_cons, hc]
  have hlen : ((strtolPrefix (strtolSign t).2).takeWhile (fun c => (hexVal c).isSome)).length
      ≤ (strtolPrefix (strtolSign t).2).length :=
    (List.takeWhile_sublist _).length_le
  simp only [strtol16, hq, strtolSign_append t r ht.1, strtolPrefix_append _ r hr,
    takeWhile_hex_append _ r hr, List.drop_append_of_le_length hlen]

theorem takeWhile_eq_self_of_all (w : List Nat) (p : Nat → Bool) (h : w.all p = true) :
    w.takeWhile p = w := by
  induction w with
  | nil => rfl
  | cons c w ih =>
    simp only [List.all_cons, Bool.and_eq_true] at h
    simp [List.takeWhile_cons, h.1, ih h.2]

/-- `strtol` reads a token that is a hexadecimal number in full. -/
theorem strtol16_good (t r : List Nat) (ht : Token t) (hr : EndsToken r)
    (hgood : hexNumber t = true) : strtol16 (t ++ r) = (hexValue t, r) := by
  simp only [hexNumber, Bool.and_eq_true, Bool.not_eq_true', List.isEmpty_eq_false] at hgood
  have htw := takeWhile_eq_self_of_all _ _ hgood.2
  rw [strtol16_token t r ht hr, htw]
  have hne : (strtolPrefix (strtolSign t).2).isEmpty = false := by
    simpa using hgood.1
  simp [hne, hexValue]

theorem drop_takeWhile_head (w : List Nat) (p : Nat → Bool) (h : w.all p = false) :
    ∃ c q, w.drop (w.takeWhile p).length = c :: q ∧ c ∈ w := by
  induction w with
  | nil => simp at h
  | cons d w ih =>
    by_cases hd : p d = true
    · have hw : w.all p = false := by
        simp only [List.all_cons, hd, Bool.true_and] at h
        exact h
      obtain ⟨c, q, h1, h2⟩ := ih hw
      refine ⟨c, q, ?_, List.mem_cons_of_mem _ h2⟩
      simp [List.takeWhile_cons, hd, h1]
    · refine ⟨d, w, ?_, List.mem_cons_self _ _⟩
      simp [List.takeWhile_cons, hd]

/-- `strtol` stops inside or before a token that is not a hexadecimal number:
what it leaves starts with a character that is not white space. -/
theorem strtol16_bad (t r : List Nat) (ht : Token t) (hr : EndsToken r)
    (hbad : hexNumber t = false) :
    ∃ c q, (strtol16 (t ++ r)).2 = c :: q ∧ isspace c = false := by
  rw [strtol16_token t r ht hr]
  split
  · obtain ⟨c, t1, rfl⟩ := List.exists_cons_of_ne_nil ht.1
    exact ⟨c, t1 ++ r, rfl, ht.2 c (List.mem_cons_self _ _)⟩
  · next hne =>
    have hall : (strtolPrefix (strtolSign t).2).all (fun c => (hexVal c).isSome) = false := by
      by_contra hcon
      have hall : (strtolPrefix (strtolSign t).2).all (fun c => (hexVal c).isSome) = true := by
        cases hb : (strtolPrefix (strtolSign t).2).all (fun c => (hexVal c).isSome)
        · exact absurd hb hcon
        · rfl
      have htw := takeWhile_eq_self_of_all _ _ hall
      rw [htw] at hne
      simp [hexNumber, hall, hne] at hbad
    obtain ⟨c, q, h1, h2⟩ := drop_takeWhile_head _ _ hall
    refine ⟨c, q ++ r, ?_, ht.2 c (strtolSign_mem t c (strtolPrefix_mem _ c h2))⟩
    simp [h1]
theorem endsToken_spaces_append (ws rest : List Nat) (hws : Spaces ws) (hne : ws ≠ []) :
    EndsToken (ws ++ rest) := by
  intro c q h
  obtain ⟨w, ws1, rfl⟩ := List.exists_cons_of_ne_nil hne
  simp only [List.cons_append, List.cons.injEq] at h
  rw [← h.1]
  exact hws w (List.mem_cons_self _ _)

theorem endsToken_spaces (ws : List Nat) (hws : Spaces ws) : EndsToken ws := by
  intro c q h
  exact hws c (h ▸ List.mem_cons_self _ _)

theorem token_head (t r : List Nat) (ht : Token t) :
    ∀ c q, t ++ r = c :: q → isspace c = false := by
  intro c q h
  obtain ⟨d, t1, rfl⟩ := List.exists_cons_of_ne_nil ht.1
  simp only [List.cons_append, List.cons.injEq] at h
  rw [← h.1]
  exact ht.2 d (List.mem_cons_self _ _)

/-- No address: nothing but white space after the name. -/
theorem parseAddrs_no_address (s : Machine) (fname ws1 : List Nat) (save : Bool)
    (hws1 : Spaces ws1) : parseAddrs s fname ws1 save = s.print .syntaxError := by
  simp [parseAddrs, dropWhile_all_spaces ws1 hws1]

/-- The first address is not a hexadecimal number. -/
theorem parseAddrs_bad_first (s : Machine) (fname ws1 t1 rest : List Nat) (save : Bool)
    (hws1 : Spaces ws1) (ht1 : Token t1) (hbad : hexNumber t1 = false) (hrest : EndsToken rest) :
    parseAddrs s fname (ws1 ++ (t1 ++ rest)) save = s.print .syntaxError := by
  have hp2 : (ws1 ++ (t1 ++ rest)).dropWhile isspace = t1 ++ rest :=
    dropWhile_spaces ws1 _ hws1 (token_head t1 rest ht1)
  obtain ⟨c, q, hr, hc⟩ := strtol16_bad t1 rest ht1 hrest hbad
  have hne : (t1 ++ rest).isEmpty = false := by
    obtain ⟨d, t2, rfl⟩ := List.exists_cons_of_ne_nil ht1.1
    rfl
  cases save
  · simp [parseAddrs, hp2, hne, hr, List.dropWhile_cons, hc]
  · simp [parseAddrs, hp2, hne, hr, hc]

/-- `*LOAD` after the name, when its address is a hexadecimal number. -/
theorem parseAddrs_load_good (s : Machine) (fname ws1 t1 rest : List Nat)
    (hws1 : Spaces ws1) (ht1 : Token t1) (hgood : hexNumber t1 = true) (hrest : EndsToken rest) :
    parseAddrs s fname (ws1 ++ (t1 ++ rest)) false =
      if (rest.dropWhile isspace).isEmpty then execLoadSave s fname (hexValue t1) 0 false
      else s.print .syntaxError := by
  have hp2 : (ws1 ++ (t1 ++ rest)).dropWhile isspace = t1 ++ rest :=
    dropWhile_spaces ws1 _ hws1 (token_head t1 rest ht1)
  have hne : (t1 ++ rest).isEmpty = false := by
    obtain ⟨d, t2, rfl⟩ := List.exists_cons_of_ne_nil ht1.1
    rfl
  simp only [parseAddrs, hp2, hne, strtol16_good t1 rest ht1 hrest hgood]
  cases (rest.dropWhile isspace).isEmpty <;> simp

/-- `*SAVE` after the name, when its first address is a hexadecimal number. -/
theorem parseAddrs_save_good (s : Machine) (fname ws1 t1 rest : List Nat)
    (hws1 : Spaces ws1) (ht1 : Token t1) (hgood : hexNumber t1 = true) (hrest : EndsToken rest) :
    parseAddrs s fname (ws1 ++ (t1 ++ rest)) true =
      if (rest.dropWhile isspace).isEmpty then s.print .syntaxError
      else if ((strtol16 (rest.dropWhile isspace)).2.dropWhile isspace).isEmpty then
        execLoadSave s fname (hexValue t1) (strtol16 (rest.dropWhile isspace)).1 true
      else s.print .syntaxError := by
  have hp2 : (ws1 ++ (t1 ++ rest)).dropWhile isspace = t1 ++ rest :=
    dropWhile_spaces ws1 _ hws1 (token_head t1 rest ht1)
  have hne : (t1 ++ rest).isEmpty = false := by
    obtain ⟨d, t2, rfl⟩ := List.exists_cons_of_ne_nil ht1.1
    rfl
  simp only [parseAddrs, hp2, hne, strtol16_good t1 rest ht1 hrest hgood]
  cases rest with
  | nil => simp
  | cons d p3 =>
    have hd : isspace d = true := hrest d p3 rfl
    simp only [hd]
    cases ((d :: p3).dropWhile isspace).isEmpty
    · cases ((strtol16 ((d :: p3).dropWhile isspace)).2.dropWhile isspace).isEmpty <;> simp
    · simp

/-- `*SAVE` after the name, when both addresses are hexadecimal numbers. -/
theorem parseAddrs_save_two (s : Machine) (fname ws1 t1 ws2 t2 rest : List Nat)
    (hws1 : Spaces ws1) (ht1 : Token t1) (hg1 : hexNumber t1 = true) (hws2 : Spaces ws2)
    (hne2 : ws2 ≠ []) (ht2 : Token t2) (hg2 : hexNumber t2 = true) (hrest : EndsToken rest) :
    parseAddrs s fname (ws1 ++ (t1 ++ (ws2 ++ (t2 ++ rest)))) true =
      if (rest.dropWhile isspace).isEmpty then
        execLoadSave s fname (hexValue t1) (hexValue t2) true
      else s.print .syntaxError := by
  rw [parseAddrs_save_good s fname ws1 t1 _ hws1 ht1 hg1 (endsToken_spaces_append ws2 _ hws2 hne2)]
  have hp4 : (ws2 ++ (t2 ++ rest)).dropWhile isspace = t2 ++ rest :=
    dropWhile_spaces ws2 _ hws2 (token_head t2 rest ht2)
  have hne : (t2 ++ rest).isEmpty = false := by
    obtain ⟨d, t3, rfl⟩ := List.exists_cons_of_ne_nil ht2.1
    rfl
  simp only [hp4, hne, strtol16_good t2 rest ht2 hrest hg2]
  simp

theorem dropWhile_trailing (ws : List Nat) (c : Nat) (rest : List Nat) (hws : Spaces ws)
    (hc : isspace c = false) : ((ws ++ c :: rest).dropWhile isspace).isEmpty = false := by
  rw [dropWhile_spaces ws (c :: rest) hws (fun d q h => by
    simp only [List.cons.injEq] at h
    rw [← h.1]
    exact hc)]
  rfl

/-- Every malformed argument string is answered with `Syntax error`. -/
theorem starloadsave_malformed (s : Machine) (save : Bool) (args : List Nat)
    (h : Malformed save args) : starloadsave s args save = s.print .syntaxError := by
  cases h with
  | noOpenQuote _ ws rest hws hrest =>
    have h1 : (ws ++ rest).dropWhile isspace = rest :=
      dropWhile_spaces ws rest hws (fun c q h => (hrest c q h).1)
    cases rest with
    | nil =>
      unfold starloadsave
      rw [h1]
    | cons c q =>
      have := (hrest c q rfl).2
      unfold starloadsave
      rw [h1]
      simp [this]
  | noCloseQuote _ ws name hws hname =>
    have h1 : (ws ++ 34 :: name).dropWhile isspace = 34 :: name :=
      dropWhile_spaces ws _ hws (fun c q h => by
        cases h
        decide)
    simp [starloadsave, h1, dropWhile_no_quote name hname]
  | noAddress _ ws name ws1 hws hname hws1 =>
    rw [starloadsave_name s ws name ws1 save hws hname]
    exact parseAddrs_no_address s name ws1 save hws1
  | noSecondAddress ws name ws1 t1 ws2 hws hname hws1 ht1 hg1 hws2 =>
    rw [starloadsave_name s ws name _ true hws hname,
      parseAddrs_save_good s name ws1 t1 ws2 hws1 ht1 hg1 (endsToken_spaces ws2 hws2)]
    simp [dropWhile_all_spaces ws2 hws2]
  | badFirst _ ws name ws1 t1 rest hws hname hws1 ht1 hbad hrest =>
    rw [starloadsave_name s ws name _ save hws hname]
    exact parseAddrs_bad_first s name ws1 t1 rest save hws1 ht1 hbad hrest
  | badSecond ws name ws1 t1 ws2 t2 rest hws hname hws1 ht1 hg1 hws2 hne2 ht2 hbad hrest =>
    rw [starloadsave_name s ws name _ true hws hname,
      parseAddrs_save_good s name ws1 t1 _ hws1 ht1 hg1 (endsToken_spaces_append ws2 _ hws2 hne2)]
    have hp4 : (ws2 ++ (t2 ++ rest)).dropWhile isspace = t2 ++ rest :=
      dropWhile_spaces ws2 _ hws2 (token_head t2 rest ht2)
    have hne : (t2 ++ rest).isEmpty = false := by
      obtain ⟨d, t3, rfl⟩ := List.exists_cons_of_ne_nil ht2.1
      rfl
    obtain ⟨c, q, hr, hc⟩ := strtol16_bad t2 rest ht2 hrest hbad
    simp [hp4, hne, hr, List.dropWhile_cons, hc]
  | trailingLoad ws name ws1 t1 ws2 c rest hws hname hws1 ht1 hg1 hws2 hne2 hc =>
    rw [starloadsave_name s ws name _ false hws hname,
      parseAddrs_load_good s name ws1 t1 _ hws1 ht1 hg1 (endsToken_spaces_append ws2 _ hws2 hne2),
      dropWhile_trailing ws2 c rest hws2 hc]
    simp
  | trailingSave ws name ws1 t1 ws2 t2 ws3 c rest hws hname hws1 ht1 hg1 hws2 hne2 ht2 hg2 hws3
      hne3 hc =>
    rw [starloadsave_name s ws name _ true hws hname,
      parseAddrs_save_two s name ws1 t1 ws2 t2 _ hws1 ht1 hg1 hws2 hne2 ht2 hg2
        (endsToken_spaces_append ws3 _ hws3 hne3),
      dropWhile_trailing ws3 c rest hws3 hc]
    simp
/-! ## C15: syntax errors of `*SAVE` and `*LOAD` -/

/-- `OSCLI` on a line that begins `*SAVE` or `*LOAD`. -/
theorem OSCLI_loadsave (s : Machine) (i : Nat) (save : Bool) (args : List Nat)
    (hline : crIndex s.mem (cliPtr s) = some i)
    (hcmd : cliLine s i = (if save then [42, 83, 65, 86, 69] else [42, 76, 79, 65, 68]) ++ args) :
    OSCLI s = .ret (starloadsave s args save) := by
  unfold cliPtr at hline
  unfold cliLine cliPtr at hcmd
  cases save
  · simp only [Bool.false_eq_true, if_false] at hcmd
    simp [OSCLI, hline, hcmd]
  · simp only [if_true] at hcmd
    simp [OSCLI, hline, hcmd]

/-- C15. A command line that begins `*SAVE` or `*LOAD` and whose arguments lack
the opening quote, lack the closing quote, lack an address, have a token that
is not a hexadecimal number where an address is expected, or have text other
than white space after the last address: `OSCLI` returns after printing
`Syntax error`; memory, the file store and the streams of the host are as
before. -/
theorem oscli_syntax_error (s : Machine) (i : Nat) (save : Bool) (args : List Nat)
    (hline : crIndex s.mem (cliPtr s) = some i)
    (hcmd : cliLine s i = (if save then [42, 83, 65, 86, 69] else [42, 76, 79, 65, 68]) ++ args)
    (hbad : Malformed save args) :
    OSCLI s = .ret (s.print .syntaxError) ∧
      (s.print .syntaxError).host.log = s.host.log ++ [.print .syntaxError] ∧
      (s.print .syntaxError).mem = s.mem ∧
      (s.print .syntaxError).host.files = s.host.files ∧
      (s.print .syntaxError).host.streams = s.host.streams ∧
      (s.print .syntaxError).host.nextStream = s.host.nextStream := by
  refine ⟨?_, rfl, rfl, rfl, rfl, rfl⟩
  rw [OSCLI_loadsave s i save args hline hcmd, starloadsave_malformed s save args hbad]

theorem cliDemo_line (line : List Nat) (h13 : 13 ∉ line) (hlen : line.length < 1000) :
    crIndex (cliDemo line).mem (cliPtr (cliDemo line)) = some line.length := by
  have hp : cliPtr (cliDemo line) = 0x1000 := by simp [cliPtr, cliDemo]
  rw [hp]
  apply crIndex_eq
  · unfold memSize; omega
  · have h1 : ¬(0x1000 ≤ 0x1000 + line.length ∧ 0x1000 + line.length < 0x1000 + line.length) := by
      omega
    simp only [cliDemo, if_neg h1, if_true]
  · intro j hj
    have h1 : 0x1000 ≤ 0x1000 + j ∧ 0x1000 + j < 0x1000 + line.length := by omega
    simp only [cliDemo, if_pos h1, Nat.add_sub_cancel_left]
    intro h
    apply h13
    rw [← h]
    simp [List.getD_eq_getElem?_getD, List.getElem?_eq_getElem hj]

theorem cliDemo_bytes (line : List Nat) :
    bytesAt (cliDemo line).mem (cliPtr (cliDemo line)) line.length = line := by
  have hp : cliPtr (cliDemo line) = 0x1000 := by simp [cliPtr, cliDemo]
  rw [hp]
  apply List.ext_getElem
  · simp [bytesAt]
  · intro j h1 h2
    have h3 : 0x1000 ≤ 0x1000 + j ∧ 0x1000 + j < 0x1000 + line.length := by omega
    simp only [bytesAt, List.getElem_map, List.getElem_range, cliDemo, if_pos h3,
      Nat.add_sub_cancel_left]
    simp [List.getD_eq_getElem?_getD, List.getElem?_eq_getElem h2]

/-- C15 on `*SAVE "F 2000 2002` (no closing quote), `*LOAD "F" 20G0` (not
a hexadecimal number) and `*SAVE "F" 2000 2002 X` (text after the last
address). -/
theorem oscli_syntax_error_witness :
    OSCLI (cliDemo [42, 83, 65, 86, 69, 32, 34, 70, 32, 50, 48, 48, 48, 32, 50, 48, 48, 50])
      = .ret ((cliDemo [42, 83, 65, 86, 69, 32, 34, 70, 32, 50, 48, 48, 48, 32, 50, 48, 48,
          50]).print .syntaxError) ∧
    OSCLI (cliDemo [42, 76, 79, 65, 68, 32, 34, 70, 34, 32, 50, 48, 71, 48])
      = .ret ((cliDemo [42, 76, 79, 65, 68, 32, 34, 70, 34, 32, 50, 48, 71, 48]).print
          .syntaxError) ∧
    OSCLI (cliDemo [42, 83, 65, 86, 69, 32, 34, 70, 34, 32, 50, 48, 48, 48, 32, 50, 48, 48, 50,
        32, 88])
      = .ret ((cliDemo [42, 83, 65, 86, 69, 32, 34, 70, 34, 32, 50, 48, 48, 48, 32, 50, 48, 48,
          50, 32, 88]).print .syntaxError) := by
  refine ⟨?_, ?_, ?_⟩
  · exact (oscli_syntax_error _ _ true [32, 34, 70, 32, 50, 48, 48, 48, 32, 50, 48, 48, 50]
      (cliDemo_line _ (by decide) (by decide))
      (by unfold cliLine; rw [cliDemo_bytes]; rfl)
      (Malformed.noCloseQuote true [32] [70, 32, 50, 48, 48, 48, 32, 50, 48, 48, 50]
        (by unfold Spaces; decide) (by decide))).1
  · exact (oscli_syntax_error _ _ false [32, 34, 70, 34, 32, 50, 48, 71, 48]
      (cliDemo_line _ (by decide) (by decide))
      (by unfold cliLine; rw [cliDemo_bytes]; rfl)
      (Malformed.badFirst false [32] [70] [32] [50, 48, 71, 48] []
        (by unfold Spaces; decide) (by decide) (by unfold Spaces; decide)
        ⟨by decide, by decide⟩ (by decide) (fun c q h => by cases h))).1
  · exact (oscli_syntax_error _ _ true
      [32, 34, 70, 34, 32, 50, 48, 48, 48, 32, 50, 48, 48, 50, 32, 88]
      (cliDemo_line _ (by decide) (by decide))
      (by unfold cliLine; rw [cliDemo_bytes]; rfl)
      (Malformed.trailingSave [32] [70] [32] [50, 48, 48, 48] [32] [50, 48, 48, 50] [32] 88 []
        (by unfold Spaces; decide) (by decide) (by unfold Spaces; decide)
        ⟨by decide, by decide⟩ (by decide) (by unfold Spaces; decide) (by decide)
        ⟨by decide, by decide⟩ (by decide) (by unfold Spaces; decide) (by decide)
        (by decide))).1
/-! ## C16: the command save is end-inclusive -/

/-- The transfer of `*SAVE` with `0 <= start <= end <= 0xFFFF` on a host that
opens the path and has room. -/
theorem execLoadSave_save_ok (s : Machine) (fname : List Nat) (start end_ : Nat)
    (hle : start ≤ end_) (hend : end_ ≤ 0xffff) (hdeny : s.host.deny fname = false)
    (hfull : s.host.full = false) :
    (execLoadSave s fname start end_ true).host.files fname
        = some (bytesAt s.mem start (end_ - start + 1)) ∧
      (execLoadSave s fname start end_ true).mem = s.mem := by
  have h1 : ¬((start : Int) < 0 ∨ (start : Int) > 0xffff) := by omega
  have h2 : ¬((end_ : Int) < 0 ∨ (end_ : Int) > 0xffff ∨ (end_ : Int) < start) := by
    omega
  have hlen : ((end_ : Int) - (start : Int) + 1).toNat = end_ - start + 1 := by omega
  obtain ⟨⟨hw1, _⟩, _⟩ := write_fresh
    { s.host with files := setFile s.host.files fname (some [])
                  streams := setAt s.host.streams s.host.nextStream (some ⟨fname, .wb, 0, false⟩)
                  nextStream := s.host.nextStream + 1 }
    s.host.nextStream fname (bytesAt s.mem start (end_ - start + 1)) (by simp [setAt])
    (by simp [setFile]) hfull
  simp only [execLoadSave, if_true, if_neg h1, true_and, if_neg h2, fopen_wb s.host fname hdeny,
    hlen, Int.toNat_ofNat]
  exact ⟨hw1, trivial⟩

/-- The transfer of `*SAVE` with `end < start`: a diagnostic and nothing else. -/
theorem execLoadSave_save_reversed (s : Machine) (fname : List Nat) (start end_ : Nat)
    (hlt : end_ < start) :
    execLoadSave s fname start end_ true = s.print .startOutOfRange ∨
      execLoadSave s fname start end_ true = s.print .endOutOfRange := by
  by_cases h1 : (start : Int) < 0 ∨ (start : Int) > 0xffff
  · left
    simp only [execLoadSave, if_pos h1]
  · right
    have h2 : (end_ : Int) < 0 ∨ (end_ : Int) > 0xffff ∨ (end_ : Int) < start :=
      Or.inr (Or.inr (by omega))
    simp only [execLoadSave, if_true, if_neg h1, true_and, if_pos h2]

theorem bytesAt_succ (mem : Nat → Nat) (p n : Nat) :
    bytesAt mem p (n + 1) = bytesAt mem p n ++ [mem (p + n)] := by
  simp [bytesAt, List.range_succ]

theorem bytesAt_congr (m1 m2 : Nat → Nat) (p n : Nat) (h : ∀ x, p ≤ x → x < p + n → m1 x = m2 x) :
    bytesAt m1 p n = bytesAt m2 p n := by
  unfold bytesAt
  apply List.map_congr_left
  intro i hi
  have := List.mem_range.1 hi
  exact h (p + i) (by omega) (by omega)

/-- C16. A well-formed `*SAVE "name" start end` with
`0 <= start <= end <= 0xFFFF`, on a host that opens the path and has room,
returns and leaves a file of exactly `end - start + 1` bytes, the bytes
`mem[start] .. mem[end]` in order; that is the file a whole-block save with
`save = start` and the same `end` leaves on the same memory, followed by the
one byte `mem[end]`.  With `end < start` the command prints a diagnostic and
nothing else happens: no file is opened or written. -/
theorem oscli_save_inclusive (s : Machine) (i : Nat)
    (ws name ws1 t1 ws2 t2 ws3 : List Nat) (start end_ : Nat)
    (hline : crIndex s.mem (cliPtr s) = some i)
    (hcmd : cliLine s i = [42, 83, 65, 86, 69] ++
      (ws ++ 34 :: (name ++ 34 :: (ws1 ++ (t1 ++ (ws2 ++ (t2 ++ ws3)))))))
    (hws : Spaces ws) (hname : 34 ∉ name) (hws1 : Spaces ws1) (ht1 : Token t1)
    (hg1 : hexNumber t1 = true) (hws2 : Spaces ws2) (hne2 : ws2 ≠ []) (ht2 : Token t2)
    (hg2 : hexNumber t2 = true) (hws3 : Spaces ws3)
    (hv1 : hexValue t1 = (start : Int)) (hv2 : hexValue t2 = (end_ : Int)) :
    (start ≤ end_ → end_ ≤ 0xffff → s.host.deny name = false → s.host.full = false →
      ∃ r, OSCLI s = .ret r ∧
        r.host.files name = some (bytesAt s.mem start (end_ - start + 1)) ∧
        (bytesAt s.mem start (end_ - start + 1)).length = end_ - start + 1 ∧
        (∀ j, j < end_ - start + 1 →
          (bytesAt s.mem start (end_ - start + 1))[j]? = some (s.mem (start + j))) ∧
        r.mem = s.mem ∧
        ∀ (s1 : Machine) (n : Nat), s1.A = 0x00 → crIndex s1.mem (fileNamePtr s1) = some n →
          pbSave s1 = start → pbEnd s1 = end_ → (∀ x, start ≤ x → x ≤ end_ → s1.mem x = s.mem x) →
          s1.host.deny (fileName s1 n) = false → s1.host.full = false →
          ∃ r1 data, OSFILE s1 = .ret r1 ∧ r1.host.files (fileName s1 n) = some data ∧
            bytesAt s.mem start (end_ - start + 1) = data ++ [s.mem end_]) ∧
    (end_ < start →
      (OSCLI s = .ret (s.print .startOutOfRange) ∨ OSCLI s = .ret (s.print .endOutOfRange)) ∧
      (s.print .startOutOfRange).host.files = s.host.files ∧
      (s.print .endOutOfRange).host.files = s.host.files ∧
      (s.print .startOutOfRange).host.streams = s.host.streams ∧
      (s.print .endOutOfRange).host.streams = s.host.streams) := by
  have hrun : OSCLI s = .ret (execLoadSave s name start end_ true) := by
    rw [OSCLI_loadsave s i true _ hline (by simpa using hcmd),
      starloadsave_name s ws name _ true hws hname,
      parseAddrs_save_two s name ws1 t1 ws2 t2 ws3 hws1 ht1 hg1 hws2 hne2 ht2 hg2
        (endsToken_spaces ws3 hws3), hv1, hv2]
    simp [dropWhile_all_spaces ws3 hws3]
  constructor
  · intro hle hend hdeny hfull
    obtain ⟨hfile, hmem⟩ := execLoadSave_save_ok s name start end_ hle hend hdeny hfull
    refine ⟨_, hrun, hfile, bytesAt_length _ _ _, ?_, hmem, ?_⟩
    · intro j hj
      simp [bytesAt, List.getElem?_eq_getElem, hj]
    · intro s1 n hA hn hsave hpend hagree hdeny1 hfull1
      obtain ⟨r1, hr1, hfile1, _⟩ := OSFILE_save_ok s1 n start (end_ - start) hA hn hsave
        (by omega) hdeny1 hfull1
      refine ⟨r1, _, hr1, hfile1, ?_⟩
      rw [bytesAt_succ, bytesAt_congr s1.mem s.mem start (end_ - start)
        (fun x h1 h2 => hagree x h1 (by omega))]
      have : start + (end_ - start) = end_ := by omega
      rw [this]
  · intro hlt
    refine ⟨?_, rfl, rfl, rfl, rfl⟩
    rw [hrun]
    rcases execLoadSave_save_reversed s name start end_ hlt with h | h
    · exact Or.inl (by rw [h])
    · exact Or.inr (by rw [h])

/-- C16 on `*SAVE "F" 2000 2002`: the file holds the three bytes 17, 34, 51 of
`0x2000..0x2002`. -/
theorem oscli_save_inclusive_witness :
    ∃ r, OSCLI (cliDemo [42, 83, 65, 86, 69, 32, 34, 70, 34, 32, 50, 48, 48, 48, 32, 50, 48, 48,
        50]) = .ret r ∧
      r.host.files [70] = some (bytesAt
        (cliDemo [42, 83, 65, 86, 69, 32, 34, 70, 34, 32, 50, 48, 48, 48, 32, 50, 48, 48, 50]).mem
        0x2000 (0x2002 - 0x2000 + 1)) ∧
      bytesAt
        (cliDemo [42, 83, 65, 86, 69, 32, 34, 70, 34, 32, 50, 48, 48, 48, 32, 50, 48, 48, 50]).mem
        0x2000 (0x2002 - 0x2000 + 1) = [17, 34, 51] := by
  obtain ⟨r, h1, h2, _⟩ := (oscli_save_inclusive
    (cliDemo [42, 83, 65, 86, 69, 32, 34, 70, 34, 32, 50, 48, 48, 48, 32, 50, 48, 48, 50]) _
    [32] [70] [32] [50, 48, 48, 48] [32] [50, 48, 48, 50] [] 0x2000 0x2002
    (cliDemo_line _ (by decide) (by decide))
    (by unfold cliLine; rw [cliDemo_bytes]; rfl)
    (by unfold Spaces; decide) (by decide) (by unfold Spaces; decide) ⟨by decide, by decide⟩
    (by decide) (by unfold Spaces; decide) (by decide) ⟨by decide, by decide⟩ (by decide)
    (by unfold Spaces; decide) (by decide) (by decide)).1 (by decide) (by decide) rfl rfl
  exact ⟨r, h1, h2, by decide⟩

/-! ## C21: the timed key wait -/

/-- The polling loop when the key `k` is found at poll `ws.length + 1` and the
clock readings `ws` taken after the polls before it are all within the
timeout. -/
theorem keyWait_key (timeout v k : Nat) (rest : List (Option Nat)) (more : List (Int × Int)) :
    ∀ (ws : List (Int × Int)) (fuel : Nat) (s : Machine),
    s.host.keys = List.replicate ws.length none ++ some k :: rest →
    s.host.clock = ws ++ more →
    (∀ w ∈ ws, (centis w s.start_time + 2 ^ 64 - v) % 2 ^ 64 ≤ timeout) →
    ws.length + 1 ≤ fuel →
    ∃ r, keyWait timeout v fuel s = .ret r ∧ r.A = s.A ∧ r.X = k % 128 ∧
      r.Y = (if k % 128 = 0x1b then 0x1b else 0) ∧
      r.P = (if k % 128 = 0x1b then s.P / 2 * 2 + 1 else s.P / 2 * 2) ∧
      r.mem = (if k % 128 = 0x1b then setAt s.mem ESCFLG 0xff else s.mem) ∧
      r.host.log = s.host.log ++ [.resetMode] ∧ r.host.keys = rest := by
  intro ws
  induction ws with
  | nil =>
    intro fuel s hk hc hin hf
    obtain ⟨n, rfl⟩ : ∃ n, fuel = n + 1 := ⟨fuel - 1, by omega⟩
    have hk1 : s.host.keys = some k :: rest := by simpa using hk
    have h1 : s.host.kbhit = (s.host, true) := by simp [Host.kbhit, hk1]
    have h2 : s.host.getkey = some ({ s.host with keys := rest }, k % 128) := by
      simp [Host.getkey, hk1]
    simp only [keyWait, h1, h2]
    refine ⟨_, rfl, ?_⟩
    by_cases hesc : k % 128 = 0x1b
    · simp [hesc, set_carry, Machine.store, Machine.emit, Host.emit]
    · simp [hesc, clear_carry, Machine.emit, Host.emit]
  | cons w ws ih =>
    intro fuel s hk hc hin hf
    obtain ⟨n, rfl⟩ : ∃ n, fuel = n + 1 := ⟨fuel - 1, by omega⟩
    have hk1 : s.host.keys = none :: (List.replicate ws.length none ++ some k :: rest) := by
      simpa [List.replicate_succ] using hk
    have h1 : s.host.kbhit
        = ({ s.host with keys := List.replicate ws.length none ++ some k :: rest }, false) := by
      simp [Host.kbhit, hk1]
    have h2 : Host.gettimeofday
          { s.host with keys := List.replicate ws.length none ++ some k :: rest }
        = some ({ s.host with keys := List.replicate ws.length none ++ some k :: rest
                              clock := ws ++ more }, w) := by
      simp [Host.gettimeofday, hc]
    have h3 : ¬((centis w s.start_time + 2 ^ 64 - v) % 2 ^ 64 > timeout) :=
      not_lt.2 (hin w (List.mem_cons_self _ _))
    simp only [keyWait, h1, h2, if_neg h3]
    obtain ⟨r, hr, hA, hX, hY, hP, hmem, hlog, hkeys⟩ := ih n
      { s with host := { s.host with keys := List.replicate ws.length none ++ some k :: rest
                                     clock := ws ++ more } }
      rfl rfl (fun w1 hw1 => hin w1 (List.mem_cons_of_mem _ hw1))
      (by simp only [List.length_cons] at hf; omega)
    exact ⟨r, hr, hA, hX, hY, hP, hmem, hlog, hkeys⟩

/-- C21, amended. When `OSBYTE` is called with `A = 0x81`, the key byte `k` is
found at poll `ws.length + 1` and the clock readings `ws` taken after the polls
before it are all within the timeout `X + 256 Y`, the routine returns with
`X` equal to `k` masked to seven bits and `A` still `0x81`; when the masked key
is not `0x1b`, `Y = 0`, carry is clear and memory is unchanged; when it is
`0x1b`, `Y = 0x1b`, the byte at `ESCFLG` is `0xff`, carry is set and no other
byte of memory is changed.  The terminal is put into raw mode and reset, and
the key is used up. -/
theorem osbyte_key_wait (s : Machine) (k : Nat) (rest : List (Option Nat)) (t0 : Int × Int)
    (ws more : List (Int × Int)) (hA : s.A = 0x81)
    (hkeys : s.host.keys = List.replicate ws.length none ++ some k :: rest)
    (hclock : s.host.clock = t0 :: (ws ++ more))
    (hin : ∀ w ∈ ws, elapsed s t0 w ≤ keyTimeout s) :
    ∃ r, OSBYTE s = .ret r ∧ r.X = k % 128 ∧ r.A = 0x81 ∧
      (k % 128 ≠ 0x1b → r.Y = 0 ∧ r.carry = false ∧ r.mem = s.mem) ∧
      (k % 128 = 0x1b → r.Y = 0x1b ∧ r.mem ESCFLG = 0xff ∧ r.carry = true ∧
        ∀ x, x ≠ ESCFLG → r.mem x = s.mem x) ∧
      r.host.log = s.host.log ++ [.rawMode, .resetMode] ∧ r.host.keys = rest := by
  have hg : s.host.gettimeofday = some ({ s.host with clock := ws ++ more }, t0) := by
    simp [Host.gettimeofday, hclock]
  obtain ⟨r, hr, hrA, hX, hY, hP, hmem, hlog, hk⟩ := keyWait_key (keyTimeout s)
    (centis t0 s.start_time) k rest more ws ((ws ++ more).length + 1)
    (({ s with host := { s.host with clock := ws ++ more } } : Machine).emit .rawMode)
    hkeys rfl hin (by simp)
  refine ⟨r, ?_, hX, hrA.trans hA, ?_, ?_, ?_, hk⟩
  · unfold OSBYTE
    rw [if_neg (by omega), if_neg (by omega), if_pos hA]
    simp only [hg]
    exact hr
  · intro hne
    rw [if_neg hne] at hY hP hmem
    refine ⟨hY, ?_, hmem⟩
    have hP1 : r.P = s.P / 2 * 2 := hP
    simp only [Machine.carry, hP1, decide_eq_false_iff_not]
    omega
  · intro he
    rw [if_pos he] at hY hP hmem
    have hP1 : r.P = s.P / 2 * 2 + 1 := hP
    refine ⟨hY, ?_, ?_, ?_⟩
    · rw [hmem]; simp [setAt]
    · simp only [Machine.carry, hP1, decide_eq_true_eq]
      omega
    · intro x hx
      rw [hmem]
      show setAt s.mem ESCFLG 0xff x = s.mem x
      simp [setAt, hx]
  · rw [hlog]
    simp [Machine.emit, Host.emit]

/-- C21, amended, on `keyDemo`, for the key `0x41` and for the key `0x1b`. -/
theorem osbyte_key_wait_witness :
    (∃ r, OSBYTE (keyDemo 0x41) = .ret r ∧ r.X = 0x41 ∧ r.A = 0x81 ∧ r.Y = 0 ∧
      r.carry = false ∧ r.mem = (keyDemo 0x41).mem) ∧
    (∃ r, OSBYTE (keyDemo 0x1b) = .ret r ∧ r.X = 0x1b ∧ r.A = 0x81 ∧ r.Y = 0x1b ∧
      r.mem ESCFLG = 0xff ∧ r.carry = true) := by
  obtain ⟨r, h1, h2, h3, h4, _⟩ := osbyte_key_wait (keyDemo 0x41) 0x41 [] (5, 0) [(5, 10000)] []
    rfl rfl rfl (by decide)
  obtain ⟨r1, g1, g2, g3, _, g5, _⟩ := osbyte_key_wait (keyDemo 0x1b) 0x1b [] (5, 0)
    [(5, 10000)] [] rfl rfl rfl (by decide)
  exact ⟨⟨r, h1, h2, h3, (h4 (by decide)).1, (h4 (by decide)).2.1, (h4 (by decide)).2.2⟩,
    ⟨r1, g1, g2, g3, (g5 (by decide)).1, (g5 (by decide)).2.1, (g5 (by decide)).2.2.1⟩⟩

/-- C21 as stated fails for every key: on `keyDemo 0x41` the key `0x41` is
found at the second poll, one centisecond into a timeout of ten, and the
routine returns with the key in `X`, `Y = 0` and carry clear, while `A` is
still `0x81`. -/
theorem osbyte_key_wait_counterexample :
    (keyDemo 0x41).host.keys = [none, some 0x41] ∧ keyTimeout (keyDemo 0x41) = 10 ∧
    elapsed (keyDemo 0x41) (5, 0) (5, 10000) = 1 ∧
    ∃ r, OSBYTE (keyDemo 0x41) = .ret r ∧ r.A = 0x81 ∧ r.A ≠ 0x41 ∧ r.X = 0x41 ∧ r.Y = 0 ∧
      r.carry = false :=
  ⟨rfl, by decide, by decide, _, rfl, rfl, by decide, rfl, rfl, rfl⟩

/-! ## C22: the whole-block load and the end of the array -/

/-- A whole-block load of a file that is longer than the room from the
destination `d` to the end of `mem`: the routine returns, and the byte of the
file at offset `65536 - d` has been stored at the index `65536`, the first one
after the array. -/
theorem OSFILE_load_past_end (s : Machine) (n : Nat) (data : List Nat) (hA : s.A = 0xff)
    (hname : crIndex s.mem (fileNamePtr s) = some n)
    (hdeny : s.host.deny (fileName s n) = false)
    (hfile : s.host.files (fileName s n) = some data)
    (hd : (if pbExec s % 256 ≠ 0 then pbExec s else pbLoad s) ≤ 65536)
    (hlong : 65536 < (if pbExec s % 256 ≠ 0 then pbExec s else pbLoad s) + data.length) :
    ∃ r, OSFILE s = .ret r ∧
      data[65536 - (if pbExec s % 256 ≠ 0 then pbExec s else pbLoad s)]? = some (r.mem 65536) := by
  obtain ⟨r, hr, _, hmem⟩ := OSFILE_load_ok s n data hA hname hdeny hfile
  refine ⟨r, hr, ?_⟩
  generalize (if pbExec s % 256 ≠ 0 then pbExec s else pbLoad s) = d at hd hlong hmem
  have hi : 65536 - d < data.length := by omega
  rw [hmem]
  simp only [if_pos (And.intro hd hlong)]
  simp [List.getD_eq_getElem?_getD, List.getElem?_eq_getElem hi]

theorem fread_length (h : Host) (f len : Nat) : (h.fread f len).2.length ≤ len := by
  unfold Host.fread
  repeat' split
  all_goals simp

/-- The transfer of `*LOAD` changes no cell past the end of `mem`: `fread` is
given the length `0xffff - start + 1`. -/
theorem execLoadSave_load_inside (s : Machine) (fname : List Nat) (start end0 : Int) (x : Nat)
    (hx : 65536 ≤ x) : (execLoadSave s fname start end0 false).mem x = s.mem x := by
  unfold execLoadSave
  by_cases h1 : start < 0 ∨ start > 0xffff
  · simp only [if_pos h1]
    rfl
  · simp only [if_neg h1, Bool.false_eq_true, false_and, if_false]
    rcases hfo : s.host.fopen fname .rb with ⟨h, _ | f⟩
    · rfl
    · simp only []
      have hlen := fread_length h f ((0xffff : Int) - start + 1).toNat
      rcases hfr : h.fread f ((0xffff : Int) - start + 1).toNat with ⟨h1, got⟩
      rw [hfr] at hlen
      simp only [] at hlen
      simp only [storeBytes_eq]
      have hout : ¬(start.toNat ≤ x ∧ x < start.toNat + got.length) := by omega
      simp only [if_neg hout]

theorem parseAddrs_load_inside (s : Machine) (fname p1 : List Nat) (x : Nat) (hx : 65536 ≤ x) :
    (parseAddrs s fname p1 false).mem x = s.mem x := by
  unfold parseAddrs
  simp only [Bool.false_eq_true, if_false]
  repeat' split
  all_goals first
    | rfl
    | exact execLoadSave_load_inside s fname _ _ x hx

/-- `*LOAD` changes no cell past the end of `mem`, whatever its arguments and
whatever the file holds. -/
theorem starloadsave_load_inside (s : Machine) (args : List Nat) (x : Nat) (hx : 65536 ≤ x) :
    (starloadsave s args false).mem x = s.mem x := by
  unfold starloadsave
  repeat' split
  all_goals first
    | rfl
    | exact parseAddrs_load_inside s _ _ x hx

theorem edgeLoadDemo_name : crIndex edgeLoadDemo.mem (fileNamePtr edgeLoadDemo) = some 1 := by
  apply crIndex_eq
  · decide
  · decide
  · intro i hi
    obtain rfl : i = 0 := by omega
    decide

/-- C22 fails for every file longer than the room above the destination: the
load of `edgeLoadDemo`, with destination `0xFFFF` and the two-byte file 7, 8,
returns with 7 in `mem[0xFFFF]` and 8 at index `0x10000`, which is `sizeof(mem)`
and so the first index after the array; `*LOAD "F" FFFF` of the same file
stores the 7 and leaves index `0x10000` alone. -/
theorem osfile_load_overruns_mem :
    edgeLoadDemo.A = 0xff ∧ pbLoad edgeLoadDemo = 0xffff ∧ pbExec edgeLoadDemo = 0 ∧
    edgeLoadDemo.host.files (fileName edgeLoadDemo 1) = some [7, 8] ∧
    edgeLoadDemo.mem 0x10000 = 0 ∧ memSize = 0x10000 ∧
    (∃ r, OSFILE edgeLoadDemo = .ret r ∧ r.mem 0xffff = 7 ∧ r.mem 0x10000 = 8) ∧
    (∃ r, OSCLI edgeCliDemo = .ret r ∧ r.mem 0xffff = 7 ∧ r.mem 0x10000 = 0) := by
  refine ⟨rfl, by decide, by decide, rfl, rfl, rfl, ?_, ?_⟩
  · obtain ⟨r, hr, _, hmem⟩ := OSFILE_load_ok edgeLoadDemo 1 [7, 8] rfl edgeLoadDemo_name rfl rfl
    refine ⟨r, hr, ?_, ?_⟩
    · rw [hmem]; decide
    · rw [hmem]; decide
  · have hrun : OSCLI edgeCliDemo
        = .ret (starloadsave edgeCliDemo [32, 34, 70, 34, 32, 70, 70, 70, 70] false) :=
      OSCLI_loadsave edgeCliDemo 14 false _
        (cliDemo_line [42, 76, 79, 65, 68, 32, 34, 70, 34, 32, 70, 70, 70, 70] (by decide)
          (by decide))
        (by
          show cstr (bytesAt (cliDemo [42, 76, 79, 65, 68, 32, 34, 70, 34, 32, 70, 70, 70, 70]).mem
            (cliPtr (cliDemo [42, 76, 79, 65, 68, 32, 34, 70, 34, 32, 70, 70, 70, 70])) 14) = _
          rw [show (14 : Nat)
            = [42, 76, 79, 65, 68, 32, 34, 70, 34, 32, 70, 70, 70, 70].length from rfl,
            cliDemo_bytes]
          rfl)
    refine ⟨_, hrun, ?_, ?_⟩
    · rfl
    · exact starloadsave_load_inside edgeCliDemo _ 0x10000 (by decide)

end RunBBC
